import Mathlib

/-!
# Carrot / Fertilizer: mesh conditioning (`gltf/GLTFProcessing.cpp`)

A shallow embedding of the per-primitive mesh conditioning pipeline of the
Fertilizer asset tool: `expandMesh`, `areSameVertices`, `collapseMesh`,
`generateFlatNormals`, `cleanupTangents`, `groupMeshlets`, `appendMeshlets`,
`generateClusterHierarchy`, `processModel` and `processGLTF`; of the integer
`write` overloads of `Carrot::IO` (`engine/io/Serialisation.h`); and of
`MeshletManager::addGeometry` (`engine/render/MeshletManager.cpp`).

Conventions of the embedding.

* `std::vector<T>` is `List T`; `v[i]` is `v[i]?` and an access outside the
  vector (undefined behaviour in the source) or a failed `verify` makes the
  embedded function return `none`.
* `std::size_t` and `std::uint32_t` values are natural numbers. The buffers
  handled here are assumed to hold fewer than `2^32` elements, so that storing a
  position in a `std::uint32_t` (sibling lists, `nextIndex`) never wraps.
* `float` is idealised as exact rational arithmetic (`ℚ`): no rounding, no NaN,
  no infinity. A float literal is read as the binary32 number it denotes, so
  `10e-6f` is `2748779 / 2^38`, the binary32 number nearest to `10^-5`.
  Statements whose truth in the code depends on rounding carry a hypothesis
  that confines them to values on which binary32 arithmetic is exact, and the
  section `IEEE` embeds `areSameVertices` and `collapseMesh` a second time over
  values that may be NaN.
* `glm::inversesqrt`, the only irrational primitive, is a parameter of the
  functions that normalise a vector; `glm::normalize(v)` is
  `v * inversesqrt(dot(v, v))` as in glm.
* The external libraries are parameters too: the meshlet builder
  (`meshopt_buildMeshlets`), the simplifier (`meshopt_simplify`) and the graph
  partitioner (`METIS_PartGraphKway`) are arbitrary functions of what the code
  hands them.
* A `std::unordered_map` is an association list; the code never depends on
  its iteration order.
* Fixed-width integers whose width matters (`std::uint8_t` casts, the values
  handed to `write`) are natural numbers taken modulo `2 ^ w`; a byte vector
  is a list of numbers below 256.
* The tinygltf parser, the scene loader and writer and the device addresses of
  uploaded buffers are parameters.
-/

namespace glm

/-- The glm type `vec2`. -/
structure Vec2 where
  x : ℚ
  y : ℚ
deriving DecidableEq

/-- The glm type `vec3`. -/
structure Vec3 where
  x : ℚ
  y : ℚ
  z : ℚ
deriving DecidableEq

/-- The glm type `vec4`. -/
structure Vec4 where
  x : ℚ
  y : ℚ
  z : ℚ
  w : ℚ
deriving DecidableEq

/-- The glm type `ivec4`. -/
structure IVec4 where
  x : Int
  y : Int
  z : Int
  w : Int
deriving DecidableEq

/-- Componentwise `a - b` on `vec2`. -/
def sub2 (a b : Vec2) : Vec2 := { x := a.x - b.x, y := a.y - b.y }

/-- Componentwise `a - b` on `vec3`. -/
def sub3 (a b : Vec3) : Vec3 := { x := a.x - b.x, y := a.y - b.y, z := a.z - b.z }

/-- Componentwise `a - b` on `vec4`. -/
def sub4 (a b : Vec4) : Vec4 :=
  { x := a.x - b.x, y := a.y - b.y, z := a.z - b.z, w := a.w - b.w }

/-- Unary minus on `vec3`. -/
def neg3 (a : Vec3) : Vec3 := { x := -a.x, y := -a.y, z := -a.z }

/-- Scalar times vector, `s * v`. -/
def scale3 (s : ℚ) (v : Vec3) : Vec3 := { x := s * v.x, y := s * v.y, z := s * v.z }

/-- The function `glm::abs` on `vec2`. -/
def abs2 (v : Vec2) : Vec2 := { x := |v.x|, y := |v.y| }

/-- The function `glm::abs` on `vec3`. -/
def abs3 (v : Vec3) : Vec3 := { x := |v.x|, y := |v.y|, z := |v.z| }

/-- The function `glm::abs` on `vec4`. -/
def abs4 (v : Vec4) : Vec4 := { x := |v.x|, y := |v.y|, z := |v.z|, w := |v.w| }

/-- The function `glm::compMax` on `vec2`: `max(v.x, v.y)`. -/
def compMax2 (v : Vec2) : ℚ := max v.x v.y

/-- The function `glm::compMax` on `vec3`: `max(max(v.x, v.y), v.z)`. -/
def compMax3 (v : Vec3) : ℚ := max (max v.x v.y) v.z

/-- The function `glm::compMax` on `vec4`: `max(max(v.x, v.y), max(v.z, v.w))`. -/
def compMax4 (v : Vec4) : ℚ := max (max v.x v.y) (max v.z v.w)

/-- The function `glm::dot` on `vec3`. -/
def dot (a b : Vec3) : ℚ := a.x * b.x + a.y * b.y + a.z * b.z

/-- The function `glm::cross`. -/
def cross (a b : Vec3) : Vec3 :=
  { x := a.y * b.z - b.y * a.z, y := a.z * b.x - b.z * a.x, z := a.x * b.y - b.x * a.y }

/-- The function `glm::normalize`: `v * inversesqrt(dot(v, v))`. -/
def normalize (inversesqrt : ℚ → ℚ) (v : Vec3) : Vec3 :=
  { x := v.x * inversesqrt (dot v v), y := v.y * inversesqrt (dot v v),
    z := v.z * inversesqrt (dot v v) }

/-- The swizzle `.xyz` of a `vec4`; also the conversion of a `vec4` to a `vec3`. -/
def Vec4.xyz (v : Vec4) : Vec3 := { x := v.x, y := v.y, z := v.z }

/-- The constructor `glm::vec4(v, w)`. -/
def vec4 (v : Vec3) (w : ℚ) : Vec4 := { x := v.x, y := v.y, z := v.z, w := w }

/-- The test `glm::all(glm::lessThan(v, glm::vec3(e)))`. -/
def allLessThan (v : Vec3) (e : ℚ) : Bool := decide (v.x < e) && decide (v.y < e) && decide (v.z < e)

end glm

namespace Carrot

open glm

/-- Modelled from the spec: the record `Carrot::Vertex` with a normal and a
tangent is not among the sources (`render/Vertex.h` declares an earlier record
with `pos : vec3`, `color : vec3`, `uv : vec2` only); the spec gives position
3D, normal 3D, tangent 4D, color 3D, UV 2D. -/
structure Vertex where
  pos : Vec3
  color : Vec3
  normal : Vec3
  tangent : Vec4
  uv : Vec2
deriving DecidableEq

/-- Modelled from the spec: the record `Carrot::SkinnedVertex`, a `Vertex` with
four bone ids (`ivec4`) and four bone weights (`vec4`), as in
`render/Vertex.h`. -/
structure SkinnedVertex extends Vertex where
  boneIDs : IVec4
  boneWeights : Vec4
deriving DecidableEq

/-- A default-constructed `SkinnedVertex`: bone ids `-1`, bone weights `0`
(the member initialisers of the record); the other fields are zero. -/
def SkinnedVertex.default : SkinnedVertex :=
  { pos := { x := 0, y := 0, z := 0 }
    color := { x := 0, y := 0, z := 0 }
    normal := { x := 0, y := 0, z := 0 }
    tangent := { x := 0, y := 0, z := 0, w := 0 }
    uv := { x := 0, y := 0 }
    boneIDs := { x := -1, y := -1, z := -1, w := -1 }
    boneWeights := { x := 0, y := 0, z := 0, w := 0 } }

end Carrot

namespace Fertilizer

open glm Carrot

/-- Modelled from the spec: the record `Meshlet`, whose declaration is not among
the sources. -/
structure Meshlet where
  vertexOffset : Nat
  vertexCount : Nat
  indexOffset : Nat
  indexCount : Nat
  lod : Nat
deriving DecidableEq

/-- Modelled from the spec: the record `LoadedPrimitive` (the spec's Primitive),
whose declaration is not among the sources; the name is left out. -/
structure LoadedPrimitive where
  isSkinned : Bool
  vertices : List Vertex
  skinnedVertices : List SkinnedVertex
  indices : List Nat
  hadNormals : Bool
  hadTangents : Bool
  hadTexCoords : Bool
  meshlets : List Meshlet
  meshletVertexIndices : List Nat
  meshletIndices : List Nat
deriving DecidableEq

/-- Modelled from the spec: the record `ExpandedVertex`, one corner of the
triangle soup, `{vertex, originalIndex, newIndex?}`. -/
structure ExpandedVertex where
  vertex : SkinnedVertex
  originalIndex : Nat
  newIndex : Option Nat
deriving DecidableEq

/-- A default-constructed `ExpandedVertex`, as made by `vertices.resize`. -/
def ExpandedVertex.default : ExpandedVertex :=
  { vertex := SkinnedVertex.default, originalIndex := 0, newIndex := none }

/-- Modelled from the spec: the record `ExpandedMesh`, the corners and, for
every original vertex index, the list of the corner positions referring to
it. -/
structure ExpandedMesh where
  vertices : List ExpandedVertex
  duplicatedVertices : List (List Nat)
deriving DecidableEq

/-- The constant `Epsilon = 10e-16`, a `constexpr float`: the binary32 number
nearest to `10^-15`, which is `9444733 / 2^73`. -/
def Epsilon : ℚ := 9444733 / 2 ^ 73

/-- One iteration of the loop of `expandMesh`, for position `i`. -/
def expandStep (primitive : LoadedPrimitive) (expanded : ExpandedMesh) (i : Nat) :
    Option ExpandedMesh := do
  let index ← primitive.indices[i]?
  let corner ← expanded.vertices[i]?
  let vertex ←
    if primitive.isSkinned then
      primitive.skinnedVertices[index]?
    else
      (primitive.vertices[index]?).map fun v =>
        { corner.vertex with
          pos := v.pos, normal := v.normal, tangent := v.tangent, color := v.color, uv := v.uv }
  let siblings ← expanded.duplicatedVertices[index]?
  some
    { vertices := expanded.vertices.set i { corner with vertex := vertex, originalIndex := index }
      duplicatedVertices := expanded.duplicatedVertices.set index (siblings ++ [i]) }

/-- The function `expandMesh`: one corner per index, and for every source
vertex the list of the corner positions that refer to it. -/
def expandMesh (primitive : LoadedPrimitive) : Option ExpandedMesh :=
  let vertexCount :=
    if primitive.isSkinned then primitive.skinnedVertices.length else primitive.vertices.length
  let indexCount := primitive.indices.length
  (List.range indexCount).foldlM (expandStep primitive)
    { vertices := List.replicate indexCount ExpandedVertex.default
      duplicatedVertices := List.replicate vertexCount [] }

/-- The lambda `similar2` of `areSameVertices`. The literal `10e-6f` is the
binary32 number nearest to `10^-5`, which is `2748779 / 2^38`. -/
def similar2 (a b : Vec2) : Bool :=
  decide (compMax2 (abs2 (sub2 a b)) < 2748779 / 2 ^ 38)

/-- The lambda `similar3` of `areSameVertices`. The literal `10e-6f` is the
binary32 number nearest to `10^-5`, which is `2748779 / 2^38`. -/
def similar3 (a b : Vec3) : Bool :=
  decide (compMax3 (abs3 (sub3 a b)) < 2748779 / 2 ^ 38)

/-- The lambda `similar4` of `areSameVertices`. The literal `10e-6f` is the
binary32 number nearest to `10^-5`, which is `2748779 / 2^38`. -/
def similar4 (a b : Vec4) : Bool :=
  decide (compMax4 (abs4 (sub4 a b)) < 2748779 / 2 ^ 38)

/-- The function `areSameVertices`. The bone weights, a `vec4`, go through
`similar3`, which takes `vec3` arguments: the conversion keeps `xyz`. -/
def areSameVertices (a b : SkinnedVertex) : Bool :=
  similar3 a.pos b.pos
    && similar3 a.normal b.normal
    && similar4 a.tangent b.tangent
    && similar2 a.uv b.uv
    && similar3 a.color b.color
    && similar3 a.boneWeights.xyz b.boneWeights.xyz
    && decide (a.boneIDs = b.boneIDs)

/-- The sibling scan of `collapseMesh`: the `newIndex` of the first sibling, in
list order, that is already written and is the same vertex as `current`.
The outer `none` is a sibling position outside `vertices`. -/
def findIndexToReuse (vertices : List ExpandedVertex) (current : SkinnedVertex) :
    List Nat → Option (Option Nat)
  | [] => some none
  | siblingIndex :: rest =>
    match vertices[siblingIndex]? with
    | none => none
    | some sibling =>
      match sibling.newIndex with
      | none => findIndexToReuse vertices current rest
      | some k =>
        if areSameVertices sibling.vertex current then some (some k)
        else findIndexToReuse vertices current rest

/-- The state of the loop of `collapseMesh`. -/
structure CollapseState where
  out : LoadedPrimitive
  mesh : ExpandedMesh
  nextIndex : Nat
deriving DecidableEq

/-- One iteration of the loop of `collapseMesh`, for position `vertexIndex`. -/
def collapseStep (st : CollapseState) (vertexIndex : Nat) : Option CollapseState := do
  let duplicatedVertex ← st.mesh.vertices[vertexIndex]?
  if duplicatedVertex.newIndex.isSome then none
  let siblingIndices ← st.mesh.duplicatedVertices[duplicatedVertex.originalIndex]?
  let indexToReuse ← findIndexToReuse st.mesh.vertices duplicatedVertex.vertex siblingIndices
  match indexToReuse with
  | some k => some { st with out := { st.out with indices := st.out.indices ++ [k] } }
  | none =>
    let written :=
      { st.mesh with
        vertices := st.mesh.vertices.set vertexIndex
          { duplicatedVertex with newIndex := some st.nextIndex } }
    let out := { st.out with indices := st.out.indices ++ [st.nextIndex] }
    if st.out.isSkinned then
      some
        { out := { out with skinnedVertices := out.skinnedVertices ++ [duplicatedVertex.vertex] }
          mesh := written
          nextIndex := st.nextIndex + 1 }
    else
      some
        { out := { out with vertices := out.vertices ++ [duplicatedVertex.vertex.toVertex] }
          mesh := written
          nextIndex := st.nextIndex + 1 }

/-- The function `collapseMesh`: the primitive `out` with its three buffers
rebuilt from the soup, and the soup with its `newIndex` slots filled. -/
def collapseMesh (out : LoadedPrimitive) (mesh : ExpandedMesh) :
    Option (LoadedPrimitive × ExpandedMesh) :=
  ((List.range mesh.vertices.length).foldlM collapseStep
    { out := { out with vertices := [], skinnedVertices := [], indices := [] }
      mesh := mesh
      nextIndex := 0 }).map fun st => (st.out, st.mesh)

/-- The size `vertexCount` read by `expandMesh`: the size of the vertex buffer
in use (`skinnedVertices` when `isSkinned`, `vertices` otherwise). -/
def vertexCount (primitive : LoadedPrimitive) : Nat :=
  if primitive.isSkinned then primitive.skinnedVertices.length else primitive.vertices.length

/-- The degenerate-triangle test of `generateFlatNormals`; it only logs a
warning. -/
def warnsDegenerate (ab bc ac : Vec3) : Bool :=
  decide (dot ab ab ≤ Epsilon) || decide (dot bc bc ≤ Epsilon) || decide (dot ac ac ≤ Epsilon)

/-- One iteration of the loop of `generateFlatNormals`, for triangle `face`. -/
def flatNormalsStep (inversesqrt : ℚ → ℚ) (mesh : ExpandedMesh) (face : Nat) :
    Option ExpandedMesh := do
  let a ← mesh.vertices[face * 3 + 0]?
  let b ← mesh.vertices[face * 3 + 1]?
  let c ← mesh.vertices[face * 3 + 2]?
  let ab := sub3 b.vertex.pos a.vertex.pos
  let bc := sub3 c.vertex.pos b.vertex.pos
  let ac := sub3 c.vertex.pos a.vertex.pos
  let a1 := { a with vertex := { a.vertex with normal := normalize inversesqrt (cross ab ac) } }
  let b1 :=
    { b with vertex := { b.vertex with normal := normalize inversesqrt (cross bc (neg3 ab)) } }
  let c1 :=
    { c with vertex := { c.vertex with normal := normalize inversesqrt (cross ac (neg3 bc)) } }
  some
    { mesh with
      vertices :=
        ((mesh.vertices.set (face * 3 + 0) a1).set (face * 3 + 1) b1).set (face * 3 + 2) c1 }

/-- The function `generateFlatNormals`. -/
def generateFlatNormals (inversesqrt : ℚ → ℚ) (mesh : ExpandedMesh) : Option ExpandedMesh :=
  let faceCount := mesh.vertices.length / 3
  (List.range faceCount).foldlM (flatNormalsStep inversesqrt) mesh

/-- The lambda `isCloseToCollinear` of `cleanupTangents`, with
`epsilon = 10e-12f`, the binary32 number nearest to `10^-11`, which is
`11529215 / 2^60`. The products, the sum and the difference are exact here;
the code rounds each of them to binary32, which makes no difference when they
are binary32 numbers, as for components that are small integers. -/
def isCloseToCollinear (a b : Vec3) : Bool :=
  let epsilon : ℚ := 11529215 / 2 ^ 60
  let rejected := sub3 b (scale3 (dot a b) b)
  allLessThan (abs3 rejected) epsilon

/-- The detection loop of `cleanupTangents` over the triangles `faces`
(triangle `t` starts at `i = t * 3`): it stops at the first triangle with a
flagged corner. -/
def scanCollinear (vertices : List ExpandedVertex) : List Nat → Option Bool
  | [] => some false
  | t :: rest => do
    let c0 ← vertices[t * 3 + 0]?
    let c1 ← vertices[t * 3 + 1]?
    let c2 ← vertices[t * 3 + 2]?
    let needsRegeneration :=
      isCloseToCollinear c0.vertex.normal c0.vertex.tangent.xyz
        || isCloseToCollinear c1.vertex.normal c1.vertex.tangent.xyz
        || isCloseToCollinear c2.vertex.normal c2.vertex.tangent.xyz
    if needsRegeneration then some true else scanCollinear vertices rest

/-- The flag `needsRegeneration` of `cleanupTangents` after its first loop;
`none` when the `verify` on the size fails. -/
def needsRegeneration (mesh : ExpandedMesh) : Option Bool :=
  if mesh.vertices.length % 3 = 0 then
    scanCollinear mesh.vertices (List.range (mesh.vertices.length / 3))
  else none

/-- The assignment `mesh.vertices[k].vertex.tangent = tangentW`. -/
def setTangent (vertices : List ExpandedVertex) (k : Nat) (tangentW : Vec4) :
    Option (List ExpandedVertex) := do
  let corner ← vertices[k]?
  some (vertices.set k { corner with vertex := { corner.vertex with tangent := tangentW } })

/-- One iteration of the repair loop of `cleanupTangents`, for triangle `t`. -/
def regenerateStep (inversesqrt : ℚ → ℚ) (mesh : ExpandedMesh) (t : Nat) :
    Option ExpandedMesh := do
  let v0 ← mesh.vertices[t * 3 + 0]?
  let v1 ← mesh.vertices[t * 3 + 1]?
  let edge := sub3 v1.vertex.pos v0.vertex.pos
  let tangentW := vec4 (normalize inversesqrt edge) 1
  let vs0 ← setTangent mesh.vertices (t * 3 + 0) tangentW
  let vs1 ← setTangent vs0 (t * 3 + 1) tangentW
  let vs2 ← setTangent vs1 (t * 3 + 2) tangentW
  some { mesh with vertices := vs2 }

/-- The function `cleanupTangents`. -/
def cleanupTangents (inversesqrt : ℚ → ℚ) (mesh : ExpandedMesh) : Option ExpandedMesh := do
  let flagged ← needsRegeneration mesh
  if flagged then
    (List.range (mesh.vertices.length / 3)).foldlM (regenerateStep inversesqrt) mesh
  else some mesh

/-- The vertex that `expandMesh` stores for the source index `index`: the
skinned vertex itself, or the rigid vertex with default bone data. -/
def sourceVertex (primitive : LoadedPrimitive) (index : Nat) : Option SkinnedVertex :=
  if primitive.isSkinned then primitive.skinnedVertices[index]?
  else (primitive.vertices[index]?).map fun v =>
    { toVertex := v
      boneIDs := SkinnedVertex.default.boneIDs
      boneWeights := SkinnedVertex.default.boneWeights }

/-- The state of the loop of `expandMesh` after `n` iterations. -/
def ExpandInv (primitive : LoadedPrimitive) (n : Nat) (e : ExpandedMesh) : Prop :=
  e.vertices.length = primitive.indices.length ∧
  e.duplicatedVertices.length = vertexCount primitive ∧
  (∀ i, n ≤ i → i < primitive.indices.length →
    e.vertices[i]? = some ExpandedVertex.default) ∧
  (∀ i, i < n → ∀ index, primitive.indices[i]? = some index →
    ∃ sv, sourceVertex primitive index = some sv ∧
      e.vertices[i]? = some { vertex := sv, originalIndex := index, newIndex := none }) ∧
  (∀ k, k < vertexCount primitive →
    e.duplicatedVertices[k]? =
      some ((List.range n).filter fun i => primitive.indices[i]? == some k))

/-- The output vertex buffer of `out` holds, at position `k`, the vertex `v`
(for a rigid primitive: its `Vertex` part, the bone data being sliced off). -/
def stored (out : LoadedPrimitive) (k : Nat) (v : SkinnedVertex) : Prop :=
  if out.isSkinned then out.skinnedVertices[k]? = some v
  else out.vertices[k]? = some v.toVertex

/-- What `collapseMesh` needs of its soup to run without a failed `verify` and
without reading outside a vector: no corner has a `newIndex` yet, every
`originalIndex` is a position of `duplicatedVertices`, every sibling position
is a position of `vertices`. -/
def CollapseReady (m : ExpandedMesh) : Prop :=
  (∀ c ∈ m.vertices, c.newIndex = none) ∧
  (∀ c ∈ m.vertices, c.originalIndex < m.duplicatedVertices.length) ∧
  (∀ siblings ∈ m.duplicatedVertices, ∀ s ∈ siblings, s < m.vertices.length)

instance (m : ExpandedMesh) : Decidable (CollapseReady m) := by
  unfold CollapseReady
  infer_instance

/-- The state of the loop of `collapseMesh` after `n` iterations on the soup
`m0`. -/
structure CollapseInv (m0 : ExpandedMesh) (isSk : Bool) (n : Nat) (st : CollapseState) :
    Prop where
  skinned : st.out.isSkinned = isSk
  dup : st.mesh.duplicatedVertices = m0.duplicatedVertices
  len : st.mesh.vertices.length = m0.vertices.length
  frame : ∀ (j : Nat) (c : ExpandedVertex), st.mesh.vertices[j]? = some c →
    ∃ c0, m0.vertices[j]? = some c0 ∧ c.vertex = c0.vertex ∧ c.originalIndex = c0.originalIndex
  pending : ∀ (j : Nat) (c : ExpandedVertex), st.mesh.vertices[j]? = some c → n ≤ j → c.newIndex = none
  count : st.out.indices.length = n
  size : vertexCount st.out = st.nextIndex
  written : ∀ (j : Nat) (c : ExpandedVertex) (k : Nat), st.mesh.vertices[j]? = some c → c.newIndex = some k →
    stored st.out k c.vertex
  emitted : ∀ i k, st.out.indices[i]? = some k →
    ∃ (j : Nat) (cj ci : ExpandedVertex), j ≤ i ∧ st.mesh.vertices[j]? = some cj ∧ st.mesh.vertices[i]? = some ci ∧
      cj.newIndex = some k ∧
      (j = i ∨
        (j < i ∧ (∃ siblings, m0.duplicatedVertices[ci.originalIndex]? = some siblings ∧ j ∈ siblings) ∧
          areSameVertices cj.vertex ci.vertex = true))
  bound : st.nextIndex ≤ n
  covered : ∀ (k : Nat), k < st.nextIndex →
    ∃ (j : Nat) (c : ExpandedVertex), st.mesh.vertices[j]? = some c ∧ c.newIndex = some k
  distinct : ∀ (i : Nat) (ci : ExpandedVertex) (ki j : Nat) (cj : ExpandedVertex) (kj : Nat)
    (siblings : List Nat), st.mesh.vertices[i]? = some ci → ci.newIndex = some ki →
    m0.duplicatedVertices[ci.originalIndex]? = some siblings → j ∈ siblings →
    st.mesh.vertices[j]? = some cj → cj.newIndex = some kj → j < i →
    areSameVertices cj.vertex ci.vertex = false

/-- The soup `m` is the soup `e` with other corner attributes: the same sibling
lists, the same number of corners, and at every position the same
`originalIndex` and `newIndex`; the corner vertices are free. -/
def AttributesChanged (e m : ExpandedMesh) : Prop :=
  m.duplicatedVertices = e.duplicatedVertices ∧
  m.vertices.map (fun c => (c.originalIndex, c.newIndex)) =
    e.vertices.map (fun c => (c.originalIndex, c.newIndex))

instance (e m : ExpandedMesh) : Decidable (AttributesChanged e m) := by
  unfold AttributesChanged
  infer_instance

/-- A vertex of the example quad: position `(x, y, 0)`, normal `(0, 0, 1)`,
tangent `((1, 0, 0), 1)`, UV equal to the position. -/
def quadVertex (x y : ℚ) : Vertex :=
  { pos := { x := x, y := y, z := 0 }
    color := { x := 1, y := 1, z := 1 }
    normal := { x := 0, y := 0, z := 1 }
    tangent := { x := 1, y := 0, z := 0, w := 1 }
    uv := { x := x, y := y } }

/-- The quad of the spec: vertices `(0,0,0), (1,0,0), (1,1,0), (0,1,0)`, indices
`[0,1,2, 0,2,3]`, a rigid primitive with normals, tangents and UVs. -/
def quad : LoadedPrimitive :=
  { isSkinned := false
    vertices := [quadVertex 0 0, quadVertex 1 0, quadVertex 1 1, quadVertex 0 1]
    skinnedVertices := []
    indices := [0, 1, 2, 0, 2, 3]
    hadNormals := true
    hadTangents := true
    hadTexCoords := true
    meshlets := []
    meshletVertexIndices := []
    meshletIndices := [] }

/-- The soup of `quad`. -/
def quadSoup : ExpandedMesh :=
  (expandMesh quad).getD { vertices := [], duplicatedVertices := [] }

instance : Inhabited ExpandedVertex := ⟨ExpandedVertex.default⟩

/-- A rigid vertex at `(x, y, z)` with no normal yet. -/
def bareVertex (x y z : ℚ) : Vertex :=
  { pos := { x := x, y := y, z := z }
    color := { x := 1, y := 1, z := 1 }
    normal := { x := 0, y := 0, z := 0 }
    tangent := { x := 1, y := 0, z := 0, w := 1 }
    uv := { x := 0, y := 0 } }

/-- Two triangles that meet at a right angle along the edge `AB`:
`A = (0,0,0)`, `B = (1,0,0)`, `C = (0,1,0)`, `D = (0,0,1)`, triangles `(A, B, C)`
and `(A, D, B)`; four source vertices, six indices. -/
def hardEdge : LoadedPrimitive :=
  { isSkinned := false
    vertices := [bareVertex 0 0 0, bareVertex 1 0 0, bareVertex 0 1 0, bareVertex 0 0 1]
    skinnedVertices := []
    indices := [0, 1, 2, 0, 3, 1]
    hadNormals := false
    hadTangents := true
    hadTexCoords := true
    meshlets := []
    meshletVertexIndices := []
    meshletIndices := [] }

/-- The soup of `hardEdge`. -/
def hardEdgeSoup : ExpandedMesh :=
  (expandMesh hardEdge).getD { vertices := [], duplicatedVertices := [] }

/-- The soup `m` with the corner normals replaced, in order, by `normals`. -/
def withNormals (m : ExpandedMesh) (normals : List Vec3) : ExpandedMesh :=
  { m with
    vertices :=
      List.zipWith (fun c n => { c with vertex := { c.vertex with normal := n } })
        m.vertices normals }

/-- The soup of `hardEdge` with the face normal on every corner: `(0,0,1)` on
the corners of `(A, B, C)` and `(0,1,0)` on the corners of `(A, D, B)`. -/
def hardEdgeFlat : ExpandedMesh :=
  withNormals hardEdgeSoup
    [{ x := 0, y := 0, z := 1 }, { x := 0, y := 0, z := 1 }, { x := 0, y := 0, z := 1 },
     { x := 0, y := 1, z := 0 }, { x := 0, y := 1, z := 0 }, { x := 0, y := 1, z := 0 }]

/-- The "same vertex" relation in the words of the spec, for a tolerance `tol`:
for each of pos, normal, tangent, uv, color and boneWeights the largest absolute
difference over all components is below `tol`, and the four boneIds are
identical. -/
def sameWithin (tol : ℚ) (a b : SkinnedVertex) : Prop :=
  compMax3 (abs3 (sub3 a.pos b.pos)) < tol ∧
  compMax3 (abs3 (sub3 a.normal b.normal)) < tol ∧
  compMax4 (abs4 (sub4 a.tangent b.tangent)) < tol ∧
  compMax2 (abs2 (sub2 a.uv b.uv)) < tol ∧
  compMax3 (abs3 (sub3 a.color b.color)) < tol ∧
  compMax4 (abs4 (sub4 a.boneWeights b.boneWeights)) < tol ∧
  a.boneIDs = b.boneIDs

instance (tol : ℚ) (a b : SkinnedVertex) : Decidable (sameWithin tol a b) := by
  unfold sameWithin
  infer_instance

/-- A skinned vertex at the origin, bound to bone 0 with weight 1. -/
def originVertex : SkinnedVertex :=
  { pos := { x := 0, y := 0, z := 0 }
    color := { x := 1, y := 1, z := 1 }
    normal := { x := 0, y := 0, z := 1 }
    tangent := { x := 1, y := 0, z := 0, w := 1 }
    uv := { x := 0, y := 0 }
    boneIDs := { x := 0, y := 1, z := 2, w := 3 }
    boneWeights := { x := 1 / 2, y := 0, z := 0, w := 1 / 2 } }

/-- The vertex `originVertex` moved by `5 * 10^-6` along `x`. -/
def nudgedVertex : SkinnedVertex :=
  { originVertex with pos := { x := 5 / 10 ^ 6, y := 0, z := 0 } }

/-- The vertex `originVertex` with its fourth bone weight changed by `0.5`. -/
def reweightedVertex : SkinnedVertex :=
  { originVertex with boneWeights := { x := 1 / 2, y := 0, z := 0, w := 1 } }

/-- A corner of a soup made from the rigid vertex `v`, referring to source
vertex `index`. -/
def cornerOf (v : Vertex) (index : Nat) : ExpandedVertex :=
  { vertex :=
      { toVertex := v
        boneIDs := SkinnedVertex.default.boneIDs
        boneWeights := SkinnedVertex.default.boneWeights }
    originalIndex := index
    newIndex := none }

/-- The unit triangle of the spec: `A = (0,0,0)`, `B = (1,0,0)`, `C = (0,1,0)`,
indices `[0, 1, 2]`, no normals. -/
def unitTriangle : LoadedPrimitive :=
  { isSkinned := false
    vertices := [bareVertex 0 0 0, bareVertex 1 0 0, bareVertex 0 1 0]
    skinnedVertices := []
    indices := [0, 1, 2]
    hadNormals := false
    hadTangents := false
    hadTexCoords := false
    meshlets := []
    meshletVertexIndices := []
    meshletIndices := [] }

/-- The soup of `unitTriangle`, written out. -/
def unitTriangleSoup : ExpandedMesh :=
  { vertices :=
      [cornerOf (bareVertex 0 0 0) 0, cornerOf (bareVertex 1 0 0) 1, cornerOf (bareVertex 0 1 0) 2]
    duplicatedVertices := [[0], [1], [2]] }

/-- The normals of the corners of a soup, in order. -/
def cornerNormals (m : ExpandedMesh) : List Vec3 :=
  m.vertices.map fun c => c.vertex.normal

/-- The rejection of `t` against `n` in the words of the spec:
`t - (n . t) n`. -/
def specRejection (n t : Vec3) : Vec3 := sub3 t (scale3 (dot n t) n)

/-- Collinearity in the words of the spec, for a tolerance `tol`: every
component of the rejection of `t` against `n` has magnitude below `tol`. -/
def collinearSpec (tol : ℚ) (n t : Vec3) : Bool := allLessThan (abs3 (specRejection n t)) tol

/-- The rigid vertex at `(x, y, 0)` with normal `(0, 0, 1)` and tangent
`(t, 1)`. -/
def tangentVertex (x y : ℚ) (t : Vec3) : Vertex :=
  { pos := { x := x, y := y, z := 0 }
    color := { x := 1, y := 1, z := 1 }
    normal := { x := 0, y := 0, z := 1 }
    tangent := vec4 t 1
    uv := { x := x, y := y } }

/-- The unit triangle as a soup in which every corner carries the tangent
`t`. -/
def tangentSoup (t : Vec3) : ExpandedMesh :=
  { vertices :=
      [cornerOf (tangentVertex 0 0 t) 0, cornerOf (tangentVertex 1 0 t) 1,
       cornerOf (tangentVertex 0 1 t) 2]
    duplicatedVertices := [[0], [1], [2]] }

/-- A soup whose tangents are orthogonal to the normals and have length
`5 * 10^-12`. -/
def faintTangentSoup : ExpandedMesh := tangentSoup { x := 5 / 10 ^ 12, y := 0, z := 0 }

/-- A soup whose tangents are the exact opposite of the normals. -/
def oppositeTangentSoup : ExpandedMesh := tangentSoup { x := 0, y := 0, z := -1 }

/-- A soup whose tangents are equal to the normals. -/
def alignedTangentSoup : ExpandedMesh := tangentSoup { x := 0, y := 0, z := 1 }

/-- The corner `c` with its tangent replaced by `tangentW`. -/
def withTangent (c : ExpandedVertex) (tangentW : Vec4) : ExpandedVertex :=
  { c with vertex := { c.vertex with tangent := tangentW } }

/-- The tangent that the repair loop of `cleanupTangents` gives to the corners
of triangle `t`: `(normalize(V1.pos - V0.pos), 1)`. -/
def edgeTangent (inversesqrt : ℚ → ℚ) (vertices : List ExpandedVertex) (t : Nat) :
    Option Vec4 := do
  let v0 ← vertices[t * 3 + 0]?
  let v1 ← vertices[t * 3 + 1]?
  some (vec4 (normalize inversesqrt (sub3 v1.vertex.pos v0.vertex.pos)) 1)

/-- The state of the repair loop of `cleanupTangents` after `n` triangles of the
soup `m0`: the corners of the first `n` triangles carry the tangent of their
triangle, everything else is as in `m0`. -/
def RegenerateInv (inversesqrt : ℚ → ℚ) (m0 : ExpandedMesh) (n : Nat) (m : ExpandedMesh) :
    Prop :=
  m.duplicatedVertices = m0.duplicatedVertices ∧
  m.vertices.length = m0.vertices.length ∧
  ∀ (i : Nat) (c : ExpandedVertex), m0.vertices[i]? = some c →
    (n * 3 ≤ i → m.vertices[i]? = some c) ∧
    (i < n * 3 → ∃ tangentW, edgeTangent inversesqrt m0.vertices (i / 3) = some tangentW ∧
      m.vertices[i]? = some (withTangent c tangentW))

/-- The record `MeshletGroup`. -/
structure MeshletGroup where
  meshlets : List Nat
deriving DecidableEq

/-- The record `MeshletEdge`, a pair of primitive-global vertex indices with
`first <= second`. -/
structure MeshletEdge where
  first : Nat
  second : Nat
deriving DecidableEq

/-- The constructor `MeshletEdge(a, b)`: `first(min(a, b)), second(max(a, b))`. -/
def MeshletEdge.make (a b : Nat) : MeshletEdge := { first := min a b, second := max a b }

/-- The statement `map[key].push_back(value)` on a
`std::unordered_map<K, std::vector<V>>`; the map is kept as an association
list, a new key going to the end. -/
def pushBackAt {K V : Type} [DecidableEq K] (map : List (K × List V)) (key : K) (value : V) :
    List (K × List V) :=
  match map with
  | [] => [(key, [value])]
  | (k, values) :: rest =>
    if k = key then (k, values ++ [value]) :: rest
    else (k, values) :: pushBackAt rest key value

/-- The two maps built by `groupMeshlets`. -/
structure EdgeMaps where
  edges2Meshlets : List (MeshletEdge × List Nat)
  meshlets2Edges : List (Nat × List MeshletEdge)
deriving DecidableEq

/-- The lambda `getVertexIndex` of `groupMeshlets`:
`meshletVertexIndices[meshletIndices[index + indexOffset] + vertexOffset]`. -/
def getVertexIndex (primitive : LoadedPrimitive) (meshlet : Meshlet) (index : Nat) :
    Option Nat := do
  let slot ← primitive.meshletIndices[index + meshlet.indexOffset]?
  primitive.meshletVertexIndices[slot + meshlet.vertexOffset]?

/-- The body of the innermost loop of the edge scan of `groupMeshlets`, for
the edge `i` of triangle `triangleIndex` of meshlet `meshletIndex`. -/
def addTriangleEdge (primitive : LoadedPrimitive) (meshlet : Meshlet)
    (meshletIndex triangleIndex : Nat) (maps : EdgeMaps) (i : Nat) : Option EdgeMaps := do
  let a ← getVertexIndex primitive meshlet (i + triangleIndex * 3)
  let b ← getVertexIndex primitive meshlet ((i + 1) % 3 + triangleIndex * 3)
  let edge := MeshletEdge.make a b
  some
    { edges2Meshlets := pushBackAt maps.edges2Meshlets edge meshletIndex
      meshlets2Edges := pushBackAt maps.meshlets2Edges meshletIndex edge }

/-- The body of the outer loop of the edge scan of `groupMeshlets`, for meshlet
`meshletIndex`. -/
def addMeshletEdges (primitive : LoadedPrimitive) (meshlets : List Meshlet) (maps : EdgeMaps)
    (meshletIndex : Nat) : Option EdgeMaps := do
  let meshlet ← meshlets[meshletIndex]?
  let triangleCount := meshlet.indexCount / 3
  (List.range triangleCount).foldlM
    (fun maps triangleIndex =>
      (List.range 3).foldlM (addTriangleEdge primitive meshlet meshletIndex triangleIndex) maps)
    maps

/-- The edge scan of `groupMeshlets`: both maps after the loop over the
meshlets. -/
def buildEdgeMaps (primitive : LoadedPrimitive) (meshlets : List Meshlet) : Option EdgeMaps :=
  (List.range meshlets.length).foldlM (addMeshletEdges primitive meshlets)
    { edges2Meshlets := [], meshlets2Edges := [] }

/-- The statement `std::erase_if(edges2Meshlets, size() <= 1)`. -/
def eraseUnshared (edges2Meshlets : List (MeshletEdge × List Nat)) :
    List (MeshletEdge × List Nat) :=
  edges2Meshlets.filter fun pair => !decide (pair.2.length ≤ 1)

/-- The loop over `connections` in the CSR build of `groupMeshlets`: a
connected meshlet other than `meshletIndex` is appended unless `std::find`
finds it in `edgeAdjacency`, searched from its beginning. -/
def addConnections (meshletIndex : Nat) (edgeAdjacency : List Nat) (connections : List Nat) :
    List Nat :=
  connections.foldl
    (fun adjacency connectedMeshlet =>
      if connectedMeshlet ≠ meshletIndex then
        if connectedMeshlet ∈ adjacency then adjacency else adjacency ++ [connectedMeshlet]
      else adjacency)
    edgeAdjacency

/-- The arrays `xadjacency` and `edgeAdjacency` of `groupMeshlets`. -/
structure Adjacency where
  xadjacency : List Nat
  edgeAdjacency : List Nat
deriving DecidableEq

/-- The body of the loop of the CSR build of `groupMeshlets`, for meshlet
`meshletIndex`. -/
def addMeshletAdjacency (edges2Meshlets : List (MeshletEdge × List Nat))
    (meshlets2Edges : List (Nat × List MeshletEdge)) (acc : Adjacency) (meshletIndex : Nat) :
    Adjacency :=
  let startIndexInEdgeAdjacency := acc.edgeAdjacency.length
  let edgeAdjacency :=
    ((List.lookup meshletIndex meshlets2Edges).getD []).foldl
      (fun adjacency edge =>
        match List.lookup edge edges2Meshlets with
        | none => adjacency
        | some connections => addConnections meshletIndex adjacency connections)
      acc.edgeAdjacency
  { xadjacency := acc.xadjacency ++ [startIndexInEdgeAdjacency], edgeAdjacency := edgeAdjacency }

/-- The CSR build of `groupMeshlets`, the closing entry of `xadjacency`
included. -/
def buildAdjacency (edges2Meshlets : List (MeshletEdge × List Nat))
    (meshlets2Edges : List (Nat × List MeshletEdge)) (meshletCount : Nat) : Adjacency :=
  let acc := (List.range meshletCount).foldl (addMeshletAdjacency edges2Meshlets meshlets2Edges)
    { xadjacency := [], edgeAdjacency := [] }
  { acc with xadjacency := acc.xadjacency ++ [acc.edgeAdjacency.length] }

/-- What `groupMeshlets` hands to `METIS_PartGraphKway`. -/
structure PartitionRequest where
  vertexCount : Nat
  ncon : Nat
  xadjacency : List Nat
  edgeAdjacency : List Nat
  nparts : Nat
deriving DecidableEq

/-- The lambda `groupWithAllMeshlets` of `groupMeshlets`. -/
def groupWithAllMeshlets (meshletCount : Nat) : List MeshletGroup :=
  [{ meshlets := List.range meshletCount }]

/-- The part of `groupMeshlets` before the call of the partitioner:
`some none` when it returns the single group without partitioning,
`some (some request)` when it reaches the partitioner with `request`, `none`
when a `verify` fails or a vector is read outside its bounds. -/
def partitionRequest (primitive : LoadedPrimitive) (meshlets : List Meshlet) :
    Option (Option PartitionRequest) :=
  if meshlets.length < 8 then some none
  else
    match buildEdgeMaps primitive meshlets with
    | none => none
    | some maps =>
      let edges2Meshlets := eraseUnshared maps.edges2Meshlets
      if edges2Meshlets.isEmpty then some none
      else
        let nparts := meshlets.length / 4
        if nparts > 1 then
          let adjacency := buildAdjacency edges2Meshlets maps.meshlets2Edges meshlets.length
          if adjacency.xadjacency.length = meshlets.length + 1 then
            some (some
              { vertexCount := meshlets.length
                ncon := 1
                xadjacency := adjacency.xadjacency
                edgeAdjacency := adjacency.edgeAdjacency
                nparts := nparts })
          else none
        else none

/-- The last loop of `groupMeshlets`: `groups[partition[i]].push_back(i)` on
`nparts` empty groups. -/
def collectGroups (partition : List Nat) (nparts meshletCount : Nat) :
    Option (List MeshletGroup) :=
  (List.range meshletCount).foldlM
    (fun groups i => do
      let partitionNumber ← partition[i]?
      let group ← groups[partitionNumber]?
      some (groups.set partitionNumber { meshlets := group.meshlets ++ [i] }))
    (List.replicate nparts { meshlets := [] })

/-- The function `groupMeshlets`. The graph partitioner is a parameter:
`partitioner request` is the array `partition` it fills, or `none` when its
result is not `METIS_OK`. -/
def groupMeshlets (partitioner : PartitionRequest → Option (List Nat))
    (primitive : LoadedPrimitive) (meshlets : List Meshlet) : Option (List MeshletGroup) :=
  match partitionRequest primitive meshlets with
  | none => none
  | some none => some (groupWithAllMeshlets meshlets.length)
  | some (some request) =>
    match partitioner request with
    | none => none
    | some partition => collectGroups partition request.nparts meshlets.length

/-- A primitive that only carries meshlet data. -/
def meshletPrimitive (meshlets : List Meshlet) (meshletVertexIndices meshletIndices : List Nat) :
    LoadedPrimitive :=
  { isSkinned := false
    vertices := []
    skinnedVertices := []
    indices := []
    hadNormals := true
    hadTangents := true
    hadTexCoords := true
    meshlets := meshlets
    meshletVertexIndices := meshletVertexIndices
    meshletIndices := meshletIndices }

/-- Eight meshlets of one triangle each, forming a strip: meshlet `k` is the
triangle `(k, k+1, k+2)`, so meshlet `k` shares an edge with meshlets `k-1`
and `k+1` only. -/
def stripMeshlets : List Meshlet :=
  (List.range 8).map fun k =>
    { vertexOffset := k * 3, vertexCount := 3, indexOffset := k * 3, indexCount := 3, lod := 0 }

/-- The primitive of `stripMeshlets`. -/
def stripPrimitive : LoadedPrimitive :=
  meshletPrimitive stripMeshlets
    ((List.range 8).flatMap fun k => [k, k + 1, k + 2])
    ((List.range 8).flatMap fun _ => [0, 1, 2])

/-- Eight meshlets of two triangles each, with no vertex in common between two
meshlets: meshlet `k` is the triangles `(4k, 4k+1, 4k+2)` and
`(4k+2, 4k+1, 4k+3)`, which share the edge `(4k+1, 4k+2)`. -/
def islandMeshlets : List Meshlet :=
  (List.range 8).map fun k =>
    { vertexOffset := k * 4, vertexCount := 4, indexOffset := k * 6, indexCount := 6, lod := 0 }

/-- The primitive of `islandMeshlets`. -/
def islandPrimitive : LoadedPrimitive :=
  meshletPrimitive islandMeshlets
    ((List.range 8).flatMap fun k => [4 * k, 4 * k + 1, 4 * k + 2, 4 * k + 3])
    ((List.range 8).flatMap fun _ => [0, 1, 2, 2, 1, 3])

/-- The edge maps of the strip. -/
def stripMaps : EdgeMaps :=
  (buildEdgeMaps stripPrimitive stripMeshlets).getD { edges2Meshlets := [], meshlets2Edges := [] }

/-- The edge maps of the islands. -/
def islandMaps : EdgeMaps :=
  (buildEdgeMaps islandPrimitive islandMeshlets).getD { edges2Meshlets := [], meshlets2Edges := [] }

/-- The state of the last loop of `groupMeshlets` after `k` iterations. -/
def CollectInv (partition : List Nat) (nparts k : Nat) (groups : List MeshletGroup) : Prop :=
  groups.length = nparts ∧
  ∀ (p : Nat), p < nparts →
    groups[p]? =
      some { meshlets := (List.range k).filter fun v => partition[v]? == some p }

/-- The record `meshopt_Meshlet` of meshoptimizer. -/
structure MeshoptMeshlet where
  vertex_offset : Nat
  triangle_offset : Nat
  vertex_count : Nat
  triangle_count : Nat
deriving DecidableEq

/-- What the call of `meshopt_buildMeshlets` in `appendMeshlets` leaves behind:
the three scratch arrays `meshoptMeshlets`, `meshletVertexIndices` and
`meshletTriangles` as they are after the call, and the returned
`meshletCount`. -/
structure BuiltMeshlets where
  meshoptMeshlets : List MeshoptMeshlet
  meshletVertexIndices : List Nat
  meshletTriangles : List Nat
  meshletCount : Nat
deriving DecidableEq

/-- The method `std::vector::resize(n)`, new elements being `d`. -/
def resize {α : Type} (l : List α) (n : Nat) (d : α) : List α :=
  l.take n ++ List.replicate (n - l.length) d

/-- A value-initialised `Meshlet`, as made by `meshlets.resize`. -/
def Meshlet.default : Meshlet :=
  { vertexOffset := 0, vertexCount := 0, indexOffset := 0, indexCount := 0, lod := 0 }

/-- The expression `(x + 3) & ~3`, written for `x + 3`: the two low bits are
cleared. -/
def clearLowBits (x : Nat) : Nat := x / 4 * 4

/-- One iteration of a copy loop of `appendMeshlets`:
`target[offset + index] = source[index]`. -/
def copyStep {α : Type} (source : List α) (offset : Nat) (target : List α) (index : Nat) :
    Option (List α) := do
  let value ← source[index]?
  if offset + index < target.length then some (target.set (offset + index) value) else none

/-- One iteration of the last loop of `appendMeshlets`: the meshlet `index` of
the builder, shifted by the previous array sizes, goes to
`meshlets[meshletOffset + index]`. -/
def convertStep (built : BuiltMeshlets) (meshletOffset vertexOffset indexOffset : Nat)
    (meshlets : List Meshlet) (index : Nat) : Option (List Meshlet) := do
  let meshoptMeshlet ← built.meshoptMeshlets[index]?
  let carrotMeshlet ← meshlets[meshletOffset + index]?
  some
    (meshlets.set (meshletOffset + index)
      { carrotMeshlet with
        vertexOffset := vertexOffset + meshoptMeshlet.vertex_offset
        vertexCount := meshoptMeshlet.vertex_count
        indexOffset := indexOffset + meshoptMeshlet.triangle_offset
        indexCount := meshoptMeshlet.triangle_count * 3 })

/-- The function `appendMeshlets`. The meshlet builder is a parameter:
`builder indexBuffer vertices` is what `meshopt_buildMeshlets` leaves behind
for that index buffer and vertex buffer (with `maxVertices = 64`,
`maxTriangles = 128`, `coneWeight = 0`). Taking the address of `vertices[0]`
reads nothing. The three `parallelFor` loops write to disjoint positions and
are run in order. -/
def appendMeshlets (builder : List Nat → List Vertex → BuiltMeshlets)
    (primitive : LoadedPrimitive) (indexBuffer : List Nat) : Option LoadedPrimitive := do
  let meshletOffset := primitive.meshlets.length
  let vertexOffset := primitive.meshletVertexIndices.length
  let indexOffset := primitive.meshletIndices.length
  let built := builder indexBuffer primitive.vertices
  let last ←
    if built.meshletCount = 0 then none else built.meshoptMeshlets[built.meshletCount - 1]?
  let vertexCount := last.vertex_offset + last.vertex_count
  let indexCount := last.triangle_offset + clearLowBits (last.triangle_count * 3 + 3)
  let meshletVertexIndices ←
    (List.range vertexCount).foldlM (copyStep built.meshletVertexIndices vertexOffset)
      (resize primitive.meshletVertexIndices (vertexOffset + vertexCount) 0)
  let meshletIndices ←
    (List.range indexCount).foldlM (copyStep built.meshletTriangles indexOffset)
      (resize primitive.meshletIndices (indexOffset + indexCount) 0)
  let meshlets ←
    (List.range built.meshletCount).foldlM
      (convertStep built meshletOffset vertexOffset indexOffset)
      (resize primitive.meshlets (meshletOffset + built.meshletCount) Meshlet.default)
  some
    { primitive with
      meshlets := meshlets
      meshletVertexIndices := meshletVertexIndices
      meshletIndices := meshletIndices }

/-- What `generateClusterHierarchy` hands to `meshopt_simplify` (always with
the option `meshopt_SimplifyLockBorder`). -/
structure SimplifyRequest where
  indices : List Nat
  vertices : List Vertex
  targetIndexCount : Nat
  targetError : ℚ
deriving DecidableEq

/-- What `meshopt_simplify` leaves behind: the output buffer after the call and
the returned index count. -/
structure SimplifyAnswer where
  simplifiedIndexBuffer : List Nat
  simplifiedIndexCount : Nat
deriving DecidableEq

/-- The external services of `generateClusterHierarchy`: the meshlet builder,
the graph partitioner and the simplifier. -/
structure Services where
  builder : List Nat → List Vertex → BuiltMeshlets
  partitioner : PartitionRequest → Option (List Nat)
  simplifier : SimplifyRequest → SimplifyAnswer

/-- What `generateClusterHierarchy` did, in order: it entered the body of a
level (grouping `previousCount` meshlets), it called the simplifier, it called
`appendMeshlets` on an index buffer. -/
inductive HierarchyEvent where
  | level (lod previousCount : Nat)
  | simplify (lod : Nat) (request : SimplifyRequest)
  | append (indexBuffer : List Nat)
deriving DecidableEq

/-- The state of `generateClusterHierarchy`: the primitive, the local
`previousMeshletsStart`, and a log of the calls made so far, which the code
does not keep. -/
structure HierarchyState where
  primitive : LoadedPrimitive
  previousMeshletsStart : Nat
  trace : List HierarchyEvent
deriving DecidableEq

/-- The constant `maxLOD`. -/
def maxLOD : Nat := 25

/-- One iteration of the innermost gather loop of `generateClusterHierarchy`:
`groupVertexIndices[j + start] =
meshletVertexIndices[meshletIndices[indexOffset + j] + vertexOffset]`. -/
def gatherStep (primitive : LoadedPrimitive) (meshlet : Meshlet) (start : Nat)
    (groupVertexIndices : List Nat) (j : Nat) : Option (List Nat) := do
  let slot ← primitive.meshletIndices[meshlet.indexOffset + j]?
  let vertexIndex ← primitive.meshletVertexIndices[slot + meshlet.vertexOffset]?
  if j + start < groupVertexIndices.length then
    some (groupVertexIndices.set (j + start) vertexIndex)
  else none

/-- The gather loop of `generateClusterHierarchy` for one meshlet of the
group; `previousLevelMeshlets` is the span that starts at
`previousMeshletsStart`. -/
def gatherMeshlet (primitive : LoadedPrimitive) (previousMeshletsStart : Nat)
    (groupVertexIndices : List Nat) (meshletIndex : Nat) : Option (List Nat) := do
  let meshlet ← (primitive.meshlets.drop previousMeshletsStart)[meshletIndex]?
  let start := groupVertexIndices.length
  (List.range meshlet.indexCount).foldlM (gatherStep primitive meshlet start)
    (resize groupVertexIndices (start + meshlet.indexCount) 0)

/-- The gather step of `generateClusterHierarchy`: the vector
`groupVertexIndices` of a group. -/
def gatherGroup (primitive : LoadedPrimitive) (previousMeshletsStart : Nat)
    (group : MeshletGroup) : Option (List Nat) :=
  group.meshlets.foldlM (gatherMeshlet primitive previousMeshletsStart) []

/-- The value `targetError = 0.9f * tLod + 0.01f * (1 - tLod)` with
`tLod = lod / maxLOD`. -/
def targetError (lod : Nat) : ℚ :=
  9 / 10 * ((lod : ℚ) / (maxLOD : ℚ)) + 1 / 100 * (1 - (lod : ℚ) / (maxLOD : ℚ))

/-- The body of the loop over the groups in `generateClusterHierarchy`:
gather, simplify, and unless the simplifier returned as many indices as it
got, `appendMeshlets` on the simplified index buffer. -/
def simplifyGroup (services : Services) (lod : Nat) (st : HierarchyState)
    (group : MeshletGroup) : Option HierarchyState := do
  let groupVertexIndices ← gatherGroup st.primitive st.previousMeshletsStart group
  let request : SimplifyRequest :=
    { indices := groupVertexIndices
      vertices := st.primitive.vertices
      targetIndexCount := groupVertexIndices.length / 2
      targetError := targetError lod }
  let answer := services.simplifier request
  let simplifiedIndexBuffer := resize answer.simplifiedIndexBuffer answer.simplifiedIndexCount 0
  let trace := st.trace ++ [HierarchyEvent.simplify lod request]
  if answer.simplifiedIndexCount = groupVertexIndices.length then
    some { st with trace := trace }
  else do
    let primitive ← appendMeshlets services.builder st.primitive simplifiedIndexBuffer
    some
      { st with
        primitive := primitive
        trace := trace ++ [HierarchyEvent.append simplifiedIndexBuffer] }

/-- The loop `meshlets[i].lod = lod` for `i` from `newMeshletStart` to the
end. -/
def tagLod (meshlets : List Meshlet) (newMeshletStart lod : Nat) : List Meshlet :=
  meshlets.take newMeshletStart ++
    (meshlets.drop newMeshletStart).map fun m => { m with lod := lod }

/-- The body of the level loop of `generateClusterHierarchy`, after the test
on the size of the previous level. -/
def levelBody (services : Services) (lod : Nat) (st : HierarchyState) :
    Option HierarchyState := do
  let previousLevelMeshlets := st.primitive.meshlets.drop st.previousMeshletsStart
  let groups ← groupMeshlets services.partitioner st.primitive previousLevelMeshlets
  let newMeshletStart := st.primitive.meshlets.length
  let st1 ← groups.foldlM (simplifyGroup services lod)
    { st with trace := st.trace ++ [HierarchyEvent.level lod previousLevelMeshlets.length] }
  some
    { primitive :=
        { st1.primitive with meshlets := tagLod st1.primitive.meshlets newMeshletStart (lod + 1) }
      previousMeshletsStart := newMeshletStart
      trace := st1.trace }

/-- The level loop of `generateClusterHierarchy`,
`for (lod = ...; lod < maxLOD; ++lod)`, with `remaining = maxLOD - lod`
iterations to go. -/
def hierarchyLevels (services : Services) : Nat → Nat → HierarchyState → Option HierarchyState
  | 0, _, st => some st
  | remaining + 1, lod, st =>
    if st.primitive.meshlets.length - st.previousMeshletsStart ≤ 1 then some st
    else
      match levelBody services lod st with
      | none => none
      | some st1 => hierarchyLevels services remaining (lod + 1) st1

/-- The function `generateClusterHierarchy`, with the log of its calls. -/
def generateClusterHierarchyTrace (services : Services) (primitive : LoadedPrimitive) :
    Option HierarchyState := do
  let primitive1 ← appendMeshlets services.builder primitive primitive.indices
  hierarchyLevels services maxLOD 0
    { primitive := primitive1
      previousMeshletsStart := 0
      trace := [HierarchyEvent.append primitive.indices] }

/-- The function `generateClusterHierarchy`. -/
def generateClusterHierarchy (services : Services) (primitive : LoadedPrimitive) :
    Option LoadedPrimitive :=
  (generateClusterHierarchyTrace services primitive).map fun st => st.primitive

/-- A meshlet builder that makes one meshlet per triangle of the index buffer,
each with its three vertices and its three local indices padded to four. -/
def triangleBuilder (indexBuffer : List Nat) (_vertices : List Vertex) : BuiltMeshlets :=
  { meshoptMeshlets :=
      (List.range (indexBuffer.length / 3)).map fun t =>
        { vertex_offset := t * 3, triangle_offset := t * 4, vertex_count := 3,
          triangle_count := 1 }
    meshletVertexIndices := indexBuffer
    meshletTriangles := (List.range (indexBuffer.length / 3)).flatMap fun _ => [0, 1, 2, 0]
    meshletCount := indexBuffer.length / 3 }

/-- A simplifier that keeps the first half of the triangles it is given, but
keeps a single triangle as it is. -/
def halvingSimplifier (request : SimplifyRequest) : SimplifyAnswer :=
  if request.indices.length ≤ 3 then
    { simplifiedIndexBuffer := request.indices, simplifiedIndexCount := request.indices.length }
  else
    { simplifiedIndexBuffer := request.indices
      simplifiedIndexCount := request.indices.length / 6 * 3 }

/-- Example services: one meshlet per triangle, a partitioner that puts
everything in part 0, a simplifier that halves. -/
def toyServices : Services :=
  { builder := triangleBuilder
    partitioner := fun request => some (List.replicate request.vertexCount 0)
    simplifier := halvingSimplifier }

/-- What a successful `appendMeshlets` did to the primitive `p`, giving `p1`,
when the builder left `built` behind, `last` being its last meshlet. -/
structure AppendResult (built : BuiltMeshlets) (p p1 : LoadedPrimitive) (last : MeshoptMeshlet) :
    Prop where
  count : 1 ≤ built.meshletCount
  last_eq : built.meshoptMeshlets[built.meshletCount - 1]? = some last
  frame : p1 = { p with
    meshlets := p1.meshlets
    meshletVertexIndices := p1.meshletVertexIndices
    meshletIndices := p1.meshletIndices }
  meshlets_length : p1.meshlets.length = p.meshlets.length + built.meshletCount
  vertexIndices_length : p1.meshletVertexIndices.length =
    p.meshletVertexIndices.length + (last.vertex_offset + last.vertex_count)
  indices_length : p1.meshletIndices.length =
    p.meshletIndices.length +
      (last.triangle_offset + clearLowBits (last.triangle_count * 3 + 3))
  meshlets_old : ∀ (i : Nat), i < p.meshlets.length → p1.meshlets[i]? = p.meshlets[i]?
  vertexIndices_old : ∀ (i : Nat), i < p.meshletVertexIndices.length →
    p1.meshletVertexIndices[i]? = p.meshletVertexIndices[i]?
  indices_old : ∀ (i : Nat), i < p.meshletIndices.length →
    p1.meshletIndices[i]? = p.meshletIndices[i]?
  meshlets_new : ∀ (k : Nat), k < built.meshletCount →
    ∃ m, built.meshoptMeshlets[k]? = some m ∧
      p1.meshlets[p.meshlets.length + k]? = some
        { vertexOffset := p.meshletVertexIndices.length + m.vertex_offset
          vertexCount := m.vertex_count
          indexOffset := p.meshletIndices.length + m.triangle_offset
          indexCount := m.triangle_count * 3
          lod := 0 }
  vertexIndices_new : ∀ (i : Nat), i < last.vertex_offset + last.vertex_count →
    i < built.meshletVertexIndices.length ∧
      p1.meshletVertexIndices[p.meshletVertexIndices.length + i]? =
        built.meshletVertexIndices[i]?
  indices_new : ∀ (i : Nat),
    i < last.triangle_offset + clearLowBits (last.triangle_count * 3 + 3) →
    i < built.meshletTriangles.length ∧
      p1.meshletIndices[p.meshletIndices.length + i]? = built.meshletTriangles[i]?

/-- The bounds of a meshlet `m` with respect to the sizes of the two shared
arrays: `vertexOffset + vertexCount <= meshletVertexIndices.size()`,
`indexOffset + indexCount <= meshletIndices.size()`, `indexCount % 3 == 0`,
`indexCount <= 3 * 128`, `vertexCount <= 64`. -/
def MeshletBounds (vertexIndicesSize indicesSize : Nat) (m : Meshlet) : Prop :=
  m.vertexOffset + m.vertexCount ≤ vertexIndicesSize ∧
  m.indexOffset + m.indexCount ≤ indicesSize ∧
  m.indexCount % 3 = 0 ∧ m.indexCount ≤ 384 ∧ m.vertexCount ≤ 64

instance (vertexIndicesSize indicesSize : Nat) (m : Meshlet) :
    Decidable (MeshletBounds vertexIndicesSize indicesSize m) := by
  unfold MeshletBounds
  infer_instance

/-- The contract of the meshlet builder, as far as `appendMeshlets` relies on
it: it returns at least one meshlet, `last` being the last one; every meshlet
has at most 64 vertices and 128 triangles; the offsets are laid out in
increasing order, so that the last meshlet has the largest extent in both
scratch arrays; and the extents lie within the scratch arrays. -/
def BuilderContract (built : BuiltMeshlets) (last : MeshoptMeshlet) : Prop :=
  1 ≤ built.meshletCount ∧ built.meshletCount ≤ built.meshoptMeshlets.length ∧
  built.meshoptMeshlets[built.meshletCount - 1]? = some last ∧
  (∀ m ∈ built.meshoptMeshlets.take built.meshletCount,
    m.vertex_count ≤ 64 ∧ m.triangle_count ≤ 128 ∧
    m.vertex_offset + m.vertex_count ≤ last.vertex_offset + last.vertex_count ∧
    m.triangle_offset + m.triangle_count * 3 ≤ last.triangle_offset + last.triangle_count * 3) ∧
  last.vertex_offset + last.vertex_count ≤ built.meshletVertexIndices.length ∧
  last.triangle_offset + clearLowBits (last.triangle_count * 3 + 3) ≤
    built.meshletTriangles.length

instance (built : BuiltMeshlets) (last : MeshoptMeshlet) :
    Decidable (BuilderContract built last) := by
  unfold BuilderContract
  infer_instance

/-- The number of level bodies entered, read off the log. -/
def levelsRun (trace : List HierarchyEvent) : Nat :=
  trace.countP fun e =>
    match e with
    | HierarchyEvent.level _ _ => true
    | _ => false

/-- The primitive `quad` after the level-0 `appendMeshlets` with
`triangleBuilder`: two meshlets. -/
def quadLevel0 : LoadedPrimitive :=
  (appendMeshlets triangleBuilder quad quad.indices).getD quad

/-- The cluster hierarchy of `quad` under `toyServices`. -/
def quadHierarchy : LoadedPrimitive :=
  (generateClusterHierarchy toyServices quad).getD quad

/-- The primitive `quad` entering with a meshlet of lod 26 already in it. -/
def quadWithOldMeshlet : LoadedPrimitive :=
  { quad with meshlets := [{ Meshlet.default with lod := 26 }] }

/-- The run of `generateClusterHierarchy` on `quad` under `toyServices`, with
its log. -/
def quadRun : HierarchyState :=
  (generateClusterHierarchyTrace toyServices quad).getD
    { primitive := quad, previousMeshletsStart := 0, trace := [] }

/-- The primitive `unitTriangle` after the level-0 `appendMeshlets` with
`triangleBuilder`: one meshlet. -/
def unitTriangleLevel0 : LoadedPrimitive :=
  (appendMeshlets triangleBuilder unitTriangle unitTriangle.indices).getD unitTriangle

/-- The function `write(std::vector<std::uint8_t>&, std::uint16_t)` of
`Carrot::IO` (Serialisation.h). A byte vector is a list of numbers below 256;
`v` is taken modulo `2 ^ 16`, and `push_back` converts its argument to
`std::uint8_t`, modulo `2 ^ 8`. -/
def writeU16 (destination : List Nat) (v : Nat) : List Nat :=
  let v := v % 2 ^ 16
  (destination.concat ((v &&& 0xFF) % 2 ^ 8)).concat (((v >>> 8) &&& 0xFF) % 2 ^ 8)

/-- The function `write(std::vector<std::uint8_t>&, std::uint32_t)` of
`Carrot::IO`. -/
def writeU32 (destination : List Nat) (v : Nat) : List Nat :=
  let v := v % 2 ^ 32
  (((destination.concat ((v &&& 0xFF) % 2 ^ 8)).concat (((v >>> 8) &&& 0xFF) % 2 ^ 8)).concat
    (((v >>> 16) &&& 0xFF) % 2 ^ 8)).concat (((v >>> 24) &&& 0xFF) % 2 ^ 8)

/-- The function `write(std::vector<std::uint8_t>&, std::uint64_t)` of
`Carrot::IO`, with the shift amounts of the source: 0, 8, 16, 24, 32, 48, 56,
60. -/
def writeU64 (destination : List Nat) (v : Nat) : List Nat :=
  let v := v % 2 ^ 64
  (((((((destination.concat ((v &&& 0xFF) % 2 ^ 8)).concat
    (((v >>> 8) &&& 0xFF) % 2 ^ 8)).concat
    (((v >>> 16) &&& 0xFF) % 2 ^ 8)).concat
    (((v >>> 24) &&& 0xFF) % 2 ^ 8)).concat
    (((v >>> 32) &&& 0xFF) % 2 ^ 8)).concat
    (((v >>> 48) &&& 0xFF) % 2 ^ 8)).concat
    (((v >>> 56) &&& 0xFF) % 2 ^ 8)).concat
    (((v >>> 60) &&& 0xFF) % 2 ^ 8)

/-- The little-endian bytes of `v` on `n` bytes, in the words of the comment
"Writes are done in little-endian": byte `k` is `(v >> 8k) & 0xFF`. -/
def littleEndian (n v : Nat) : List Nat :=
  (List.range n).map fun k => (v >>> (8 * k)) &&& 0xFF

/-- Modelled from the spec: the enumeration `ConversionResultError`, whose
declaration is not among the sources; the two enumerators that `processGLTF`
names. -/
inductive ConversionResultError where
  | Success
  | GLTFCompressionError
deriving DecidableEq

/-- Modelled from the spec: the record `ConversionResult`, whose declaration is
not among the sources; an `errorMessage` that is not given is the empty
string. -/
structure ConversionResult where
  errorCode : ConversionResultError
  errorMessage : String
deriving DecidableEq

/-- Modelled from the spec: the record `LoadedScene`, whose declaration is not
among the sources: the primitives, and everything else the loader keeps. -/
structure LoadedScene (Rest : Type) where
  primitives : List LoadedPrimitive
  rest : Rest

/-- What `parser.LoadASCIIFromFile` leaves behind: the returned flag, the
model and the string `errors`. -/
structure LoadAnswer (Model : Type) where
  loaded : Bool
  model : Model
  errors : String

/-- The collaborators of `processGLTF` and `processModel` that are not part of
the sources: the tinygltf parser, `GLTFLoader::load`, `generateTangents`,
`writeAsGLTF`, `glm::inversesqrt`, the services of the cluster hierarchy, and
`outputFile.stem()` as a function on path strings. -/
structure Collaborators (Model Rest : Type) where
  LoadASCIIFromFile : String → LoadAnswer Model
  WriteGltfSceneToFile : Model → String → Bool
  stem : String → String
  load : Model → LoadedScene Rest
  generateTangents : ExpandedMesh → Bool × ExpandedMesh
  writeAsGLTF : String → LoadedScene Rest → Model
  inversesqrt : ℚ → ℚ
  services : Services

/-- The function `generateMikkTSpaceTangents`; a failure is only logged. -/
def generateMikkTSpaceTangents (generateTangents : ExpandedMesh → Bool × ExpandedMesh)
    (mesh : ExpandedMesh) : ExpandedMesh :=
  (generateTangents mesh).2

/-- The body of the loop over the primitives in `processModel`. -/
def processPrimitive {Model Rest : Type} (tools : Collaborators Model Rest)
    (primitive : LoadedPrimitive) : Option LoadedPrimitive := do
  let expandedMesh ← expandMesh primitive
  let expandedMesh1 ←
    if !primitive.hadNormals then generateFlatNormals tools.inversesqrt expandedMesh
    else some expandedMesh
  let expandedMesh2 :=
    if !primitive.hadTangents then
      generateMikkTSpaceTangents tools.generateTangents expandedMesh1
    else expandedMesh1
  let expandedMesh3 ← cleanupTangents tools.inversesqrt expandedMesh2
  let collapsed ← collapseMesh primitive expandedMesh3
  generateClusterHierarchy tools.services collapsed.1

/-- The function `processModel`: the model is replaced by the re-exported
scene; `none` when a primitive makes the pipeline abort. -/
def processModel {Model Rest : Type} (tools : Collaborators Model Rest) (modelName : String)
    (model : Model) : Option Model := do
  let scene := tools.load model
  let primitives ← scene.primitives.mapM (processPrimitive tools)
  some (tools.writeAsGLTF modelName { scene with primitives := primitives })

/-- What `processGLTF` called, in order: the parser on the input file,
`processModel`, the writer on the output file. The code keeps no such log. -/
inductive ConversionEvent where
  | load (inputFile : String)
  | process (modelName : String)
  | write (outputFile : String)
deriving DecidableEq

/-- The function `processGLTF`, with the log of its three steps; `none` when
`processModel` aborts. -/
def processGLTF {Model Rest : Type} (tools : Collaborators Model Rest)
    (inputFile outputFile : String) : Option (ConversionResult × List ConversionEvent) :=
  let answer := tools.LoadASCIIFromFile inputFile
  if !answer.loaded then
    some
      ({ errorCode := ConversionResultError.GLTFCompressionError, errorMessage := answer.errors },
        [ConversionEvent.load inputFile])
  else
    match processModel tools (tools.stem outputFile) answer.model with
    | none => none
    | some model =>
      let log :=
        [ConversionEvent.load inputFile, ConversionEvent.process (tools.stem outputFile),
          ConversionEvent.write outputFile]
      if !tools.WriteGltfSceneToFile model outputFile then
        some
          ({ errorCode := ConversionResultError.GLTFCompressionError
             errorMessage := "Could not write GLTF" }, log)
      else some ({ errorCode := ConversionResultError.Success, errorMessage := "" }, log)

/-- Example collaborators over models that are lists of primitives: the
parser loads `[quad]` from the file `in.gltf` and reports `no such file` for
every other path, writes everywhere except to `/readonly/out.gltf`, and the
hierarchy services are `toyServices`. -/
def toyCollaborators : Collaborators (List LoadedPrimitive) Unit :=
  { LoadASCIIFromFile := fun inputFile =>
      if inputFile = "in.gltf" then { loaded := true, model := [quad], errors := "" }
      else { loaded := false, model := [], errors := "no such file" }
    WriteGltfSceneToFile := fun _ outputFile => !(outputFile = "/readonly/out.gltf")
    stem := fun outputFile => outputFile
    load := fun model => { primitives := model, rest := () }
    generateTangents := fun mesh => (true, mesh)
    writeAsGLTF := fun _ scene => scene.primitives
    inversesqrt := fun _ => 1
    services := toyServices }

/-- Modelled from the spec: the record `Cluster` of the meshlet manager, whose
declaration is not among the sources; the three fields that `addGeometry`
writes, value-initialised to zero. -/
structure Cluster where
  vertexBufferAddress : Nat
  indexBufferAddress : Nat
  indexCount : Nat
deriving DecidableEq

/-- A value-initialised `Cluster`, as made by `clusters.resize`. -/
def Cluster.default : Cluster :=
  { vertexBufferAddress := 0, indexBufferAddress := 0, indexCount := 0 }

/-- Modelled from the spec: the record `MeshletsDescription`, whose declaration
is not among the sources; the four fields that `addGeometry` reads. -/
structure MeshletsDescription where
  meshlets : List Meshlet
  originalVertices : List Vertex
  meshletVertexIndices : List Nat
  meshletIndices : List Nat
deriving DecidableEq

/-- The conversion `static_cast<std::uint8_t>(x)`. -/
def castUInt8 (x : Nat) : Nat := x % 2 ^ 8

/-- The state of the first loop of `MeshletManager::addGeometry`: the clusters
of the manager and the two gathered arrays. -/
structure GeometryState where
  clusters : List Cluster
  vertices : List Vertex
  indices : List Nat
deriving DecidableEq

/-- One iteration of the vertex copy of `addGeometry`:
`vertices[index + firstVertexIndex] =
originalVertices[meshletVertexIndices[index + meshlet.vertexOffset]]`. -/
def copyVertexStep (desc : MeshletsDescription) (meshlet : Meshlet) (firstVertexIndex : Nat)
    (vertices : List Vertex) (index : Nat) : Option (List Vertex) := do
  let vertexIndex ← desc.meshletVertexIndices[index + meshlet.vertexOffset]?
  let vertex ← desc.originalVertices[vertexIndex]?
  if index + firstVertexIndex < vertices.length then
    some (vertices.set (index + firstVertexIndex) vertex)
  else none

/-- One iteration of the index copy of `addGeometry`:
`indices[index + firstIndexIndex] = meshletIndices[index + meshlet.indexOffset]`. -/
def copyIndexStep (desc : MeshletsDescription) (meshlet : Meshlet) (firstIndexIndex : Nat)
    (indices : List Nat) (index : Nat) : Option (List Nat) := do
  let value ← desc.meshletIndices[index + meshlet.indexOffset]?
  if index + firstIndexIndex < indices.length then
    some (indices.set (index + firstIndexIndex) value)
  else none

/-- One iteration of the first loop of `addGeometry`, for meshlet `i`: the
cluster gets the index count cast to `std::uint8_t`, the index array grows by
the count of the cluster, and the two copies run over `meshlet.vertexCount` and
`meshlet.indexCount` positions. -/
def gatherCluster (desc : MeshletsDescription) (firstClusterIndex : Nat) (st : GeometryState)
    (i : Nat) : Option GeometryState := do
  let meshlet ← desc.meshlets[i]?
  let cluster ← st.clusters[i + firstClusterIndex]?
  let cluster := { cluster with indexCount := castUInt8 meshlet.indexCount }
  let firstVertexIndex := st.vertices.length
  let vertices := resize st.vertices (firstVertexIndex + meshlet.vertexCount)
    SkinnedVertex.default.toVertex
  let firstIndexIndex := st.indices.length
  let indices := resize st.indices (firstIndexIndex + cluster.indexCount) 0
  let vertices ← (List.range meshlet.vertexCount).foldlM
    (copyVertexStep desc meshlet firstVertexIndex) vertices
  let indices ← (List.range meshlet.indexCount).foldlM
    (copyIndexStep desc meshlet firstIndexIndex) indices
  some
    { clusters := st.clusters.set (i + firstClusterIndex) cluster
      vertices := vertices
      indices := indices }

/-- The state of the second loop of `addGeometry`: the clusters and the two
byte offsets. -/
structure AddressState where
  clusters : List Cluster
  vertexOffset : Nat
  indexOffset : Nat
deriving DecidableEq

/-- One iteration of the second loop of `addGeometry`, for meshlet `i`;
`vertexData` and `indexData` are the device addresses of the two uploaded
buffers and `vertexSize` is `sizeof(Carrot::Vertex)`. -/
def addressCluster (desc : MeshletsDescription) (firstClusterIndex vertexData indexData
    vertexSize : Nat) (st : AddressState) (i : Nat) : Option AddressState := do
  let cluster ← st.clusters[i + firstClusterIndex]?
  let meshlet ← desc.meshlets[i]?
  some
    { clusters := st.clusters.set (i + firstClusterIndex)
        { cluster with
          vertexBufferAddress := vertexData + st.vertexOffset
          indexBufferAddress := indexData + st.indexOffset }
      vertexOffset := st.vertexOffset + vertexSize * meshlet.vertexCount
      indexOffset := st.indexOffset + 4 * meshlet.indexCount }

/-- The function `MeshletManager::addGeometry`, as far as the clusters and the
two gathered arrays go: `clusters` is the vector of the manager before the
call; the result is that vector after the call with the arrays `vertices` and
`indices` that are uploaded. The device buffers are their addresses. -/
def addGeometry (vertexData indexData vertexSize : Nat) (clusters : List Cluster)
    (desc : MeshletsDescription) : Option GeometryState := do
  if desc.meshlets.length = 0 then none
  let firstClusterIndex := clusters.length
  let resized := resize clusters (clusters.length + desc.meshlets.length) Cluster.default
  let gathered ← (List.range desc.meshlets.length).foldlM (gatherCluster desc firstClusterIndex)
    { clusters := resized, vertices := [], indices := [] }
  let addressed ← (List.range desc.meshlets.length).foldlM
    (addressCluster desc firstClusterIndex vertexData indexData vertexSize)
    { clusters := gathered.clusters, vertexOffset := 0, indexOffset := 0 }
  some { gathered with clusters := addressed.clusters }

/-- A description with one meshlet of `triangles` triangles, all of them the
triangle of `unitTriangle`. -/
def fanDescription (triangles : Nat) : MeshletsDescription :=
  { meshlets :=
      [{ vertexOffset := 0, vertexCount := 3, indexOffset := 0, indexCount := 3 * triangles,
         lod := 0 }]
    originalVertices := unitTriangle.vertices
    meshletVertexIndices := [0, 1, 2]
    meshletIndices := (List.range triangles).flatMap fun _ => [0, 1, 2] }

/-- The logged call `e`, when it is a call of the simplifier, got back as many
indices as it handed over: the test `simplifiedIndexCount ==
groupVertexIndices.size()` of `generateClusterHierarchy` holds and the group is
skipped. Other events pass. -/
def Skipped (services : Services) (e : HierarchyEvent) : Prop :=
  match e with
  | HierarchyEvent.simplify _ request =>
    (services.simplifier request).simplifiedIndexCount = request.indices.length
  | _ => True

instance (services : Services) (e : HierarchyEvent) : Decidable (Skipped services e) := by
  unfold Skipped
  cases e <;> infer_instance

/-- The logged call `e` is a call of `appendMeshlets`. -/
def isAppend (e : HierarchyEvent) : Bool :=
  match e with
  | HierarchyEvent.append _ => true
  | _ => false

/-- A simplifier that never reduces: it returns its input. -/
def stubbornSimplifier (request : SimplifyRequest) : SimplifyAnswer :=
  { simplifiedIndexBuffer := request.indices, simplifiedIndexCount := request.indices.length }

/-- The services `toyServices` with a simplifier that never reduces. -/
def stubbornServices : Services :=
  { toyServices with simplifier := stubbornSimplifier }

/-- The run of `generateClusterHierarchy` on `quad` under `stubbornServices`,
with its log. -/
def stubbornRun : HierarchyState :=
  (generateClusterHierarchyTrace stubbornServices quad).getD
    { primitive := quad, previousMeshletsStart := 0, trace := [] }

/-- A simplifier that reduces nothing at the target error of level 0 and
halves at every larger target error. -/
def lateSimplifier (request : SimplifyRequest) : SimplifyAnswer :=
  if request.targetError < targetError 1 then stubbornSimplifier request
  else halvingSimplifier request

/-- The services `toyServices` with the simplifier `lateSimplifier`. -/
def lateServices : Services :=
  { toyServices with simplifier := lateSimplifier }

/-- The state of `generateClusterHierarchy` on `quad` before the level loop
(builder `triangleBuilder`). -/
def quadStart : HierarchyState :=
  { primitive := quadLevel0
    previousMeshletsStart := 0
    trace := [HierarchyEvent.append quad.indices] }

/-- The state after the body of level 0 on `quadStart` under `lateServices`. -/
def lateLevel : HierarchyState :=
  (levelBody lateServices 0 quadStart).getD quadStart

/-- The run of `generateClusterHierarchy` on `quad` under `lateServices`, with
its log. -/
def lateRun : HierarchyState :=
  (generateClusterHierarchyTrace lateServices quad).getD quadStart

/-- The triangle of `unitTriangle` with both of its faces: indices
`[0, 1, 2, 2, 1, 0]`. -/
def pillow : LoadedPrimitive :=
  { unitTriangle with indices := [0, 1, 2, 2, 1, 0] }

/-- A simplifier that collapses its input to nothing: it returns 0 indices. -/
def collapsingSimplifier (request : SimplifyRequest) : SimplifyAnswer :=
  { simplifiedIndexBuffer := request.indices, simplifiedIndexCount := 0 }

/-- The services `toyServices` with the simplifier `collapsingSimplifier`. -/
def collapsingServices : Services :=
  { toyServices with simplifier := collapsingSimplifier }

/-- The primitive `pillow` after the level-0 `appendMeshlets` with
`triangleBuilder`: two meshlets. -/
def pillowLevel0 : LoadedPrimitive :=
  (appendMeshlets triangleBuilder pillow pillow.indices).getD pillow

/-- The invariants of the spec for a meshlet `m` of the primitive `p`: its
bounds within the two shared arrays, every value of `meshletIndices` in
`[indexOffset, indexOffset + indexCount)` below `vertexCount`, and every value
of `meshletVertexIndices` in `[vertexOffset, vertexOffset + vertexCount)` a
position of the vertex buffer. -/
def MeshletValid (p : LoadedPrimitive) (m : Meshlet) : Prop :=
  MeshletBounds p.meshletVertexIndices.length p.meshletIndices.length m ∧
  (∀ slot ∈ (p.meshletIndices.drop m.indexOffset).take m.indexCount, slot < m.vertexCount) ∧
  (∀ v ∈ (p.meshletVertexIndices.drop m.vertexOffset).take m.vertexCount,
    v < p.vertices.length)

instance (p : LoadedPrimitive) (m : Meshlet) : Decidable (MeshletValid p m) := by
  unfold MeshletValid
  infer_instance

/-- The triangles of the meshlet `m` in primitive-global vertex indices, in
the words of the spec: entry `j` is
`meshletVertexIndices[meshletIndices[indexOffset + j] + vertexOffset]`. -/
def meshletGlobalIndices (p : LoadedPrimitive) (m : Meshlet) : List Nat :=
  (List.range m.indexCount).map fun j =>
    (p.meshletVertexIndices[(p.meshletIndices[m.indexOffset + j]?).getD 0 + m.vertexOffset]?).getD
      0

/-- The vector `groupIndices` of the spec: the triangles of the meshlets of
the group, meshlet by meshlet in group order. -/
def groupIndices (p : LoadedPrimitive) (previousLevelMeshlets : List Meshlet)
    (group : MeshletGroup) : List Nat :=
  group.meshlets.flatMap fun meshletIndex =>
    match previousLevelMeshlets[meshletIndex]? with
    | some m => meshletGlobalIndices p m
    | none => []

/-- The sum of the `indexCount` of the meshlets of the group. -/
def groupIndexCount (previousLevelMeshlets : List Meshlet) (group : MeshletGroup) : Nat :=
  (group.meshlets.map fun meshletIndex =>
    match previousLevelMeshlets[meshletIndex]? with
    | some m => m.indexCount
    | none => 0).sum

/-- The index buffer `indices` numbers `count` vertices in order of first
use: every index is below `count`, and every `k < count` has an occurrence
before which only smaller values occur. -/
def FirstUse (indices : List Nat) (count : Nat) : Prop :=
  (∀ (i k : Nat), indices[i]? = some k → k < count) ∧
  ∀ (k : Nat), k < count →
    ∃ i, indices[i]? = some k ∧ ∀ (j kj : Nat), j < i → indices[j]? = some kj → kj < k

/-- The vertex buffer that a primitive does not use is empty. -/
def UnusedEmpty (p : LoadedPrimitive) : Prop :=
  if p.isSkinned then p.vertices = [] else p.skinnedVertices = []

/-- The state of the loop of `collapseMesh` after `n` iterations on the soup
`e` of a primitive `q` whose index buffer numbers its vertices in order of
first use: the output so far is a prefix of `q`. -/
structure RecollapseInv (q : LoadedPrimitive) (e : ExpandedMesh) (n : Nat)
    (st : CollapseState) : Prop where
  frame : { st.out with vertices := [], skinnedVertices := [], indices := [] } =
    { q with vertices := [], skinnedVertices := [], indices := [] }
  indices : st.out.indices = q.indices.take n
  vertices : st.out.vertices = if q.isSkinned then [] else q.vertices.take st.nextIndex
  skinnedVertices : st.out.skinnedVertices =
    if q.isSkinned then q.skinnedVertices.take st.nextIndex else []
  dup : st.mesh.duplicatedVertices = e.duplicatedVertices
  pending : ∀ (j : Nat), n ≤ j → st.mesh.vertices[j]? = e.vertices[j]?
  seen : ∀ (k : Nat), k < st.nextIndex ↔ ∃ j, j < n ∧ q.indices[j]? = some k
  first : ∀ (j k : Nat), j < n → q.indices[j]? = some k →
    (∀ (j1 kj : Nat), j1 < j → q.indices[j1]? = some kj → kj < k) →
    ∃ sv, sourceVertex q k = some sv ∧
      st.mesh.vertices[j]? = some { vertex := sv, originalIndex := k, newIndex := some k }

/-- What holds of the state of the loop of `collapseMesh` in every run,
whatever the soup: every `newIndex` written so far is below `nextIndex`, the
indices emitted so far number the vertices in order of first use, `nextIndex`
is the size of the output vertex buffer, and the other vertex buffer is
empty. -/
structure CollapseRun (st : CollapseState) : Prop where
  below : ∀ (j : Nat) (c : ExpandedVertex) (k : Nat), st.mesh.vertices[j]? = some c →
    c.newIndex = some k → k < st.nextIndex
  firstUse : FirstUse st.out.indices st.nextIndex
  size : vertexCount st.out = st.nextIndex
  unused : UnusedEmpty st.out

/-- The result of `collapseMesh` on the soup `hardEdgeFlat`: the primitive and
the soup with its `newIndex` slots filled. -/
def hardEdgeCollapsed : LoadedPrimitive × ExpandedMesh :=
  (collapseMesh hardEdge hardEdgeFlat).getD (hardEdge, hardEdgeFlat)

/-- The number `x` is a finite binary32 number: `m * 2^e` for integers `m`, `e`
with `|m| < 2^24` and `-149 <= e <= 104`. -/
def isBinary32 (x : ℚ) : Bool :=
  (List.range 254).any fun k =>
    decide ((x * 2 ^ 149 / 2 ^ k).den = 1) && decide (|x * 2 ^ 149 / 2 ^ k| < 2 ^ 24)

/-- The components of a vertex that `areSameVertices` subtracts: `pos`,
`normal`, `tangent`, `uv`, `color`, and the first three bone weights. -/
def comparedComponents (v : SkinnedVertex) : List ℚ :=
  [v.pos.x, v.pos.y, v.pos.z, v.normal.x, v.normal.y, v.normal.z,
    v.tangent.x, v.tangent.y, v.tangent.z, v.tangent.w, v.uv.x, v.uv.y,
    v.color.x, v.color.y, v.color.z, v.boneWeights.x, v.boneWeights.y, v.boneWeights.z]

/-- Every difference `a.c - b.c` that `areSameVertices a b` computes is a
binary32 number, so that the subtraction of the code does not round. -/
def ExactDifferences (a b : SkinnedVertex) : Prop :=
  ∀ d ∈ List.zipWith (fun x y => x - y) (comparedComponents a) (comparedComponents b),
    isBinary32 d = true

instance (a b : SkinnedVertex) : Decidable (ExactDifferences a b) := by
  unfold ExactDifferences
  infer_instance

/-- The lambda `similar2` of `areSameVertices` with the rounding of the float
subtraction made explicit: `fl x` is the binary32 result for the exact
difference `x`. -/
def similar2Rounded (fl : ℚ → ℚ) (a b : Vec2) : Bool :=
  decide (compMax2 (abs2 { x := fl (a.x - b.x), y := fl (a.y - b.y) }) < 2748779 / 2 ^ 38)

/-- The lambda `similar3` of `areSameVertices` with the rounding of the float
subtraction made explicit. -/
def similar3Rounded (fl : ℚ → ℚ) (a b : Vec3) : Bool :=
  decide
    (compMax3 (abs3 { x := fl (a.x - b.x), y := fl (a.y - b.y), z := fl (a.z - b.z) }) <
      2748779 / 2 ^ 38)

/-- The lambda `similar4` of `areSameVertices` with the rounding of the float
subtraction made explicit. -/
def similar4Rounded (fl : ℚ → ℚ) (a b : Vec4) : Bool :=
  decide
    (compMax4
        (abs4
          { x := fl (a.x - b.x), y := fl (a.y - b.y), z := fl (a.z - b.z),
            w := fl (a.w - b.w) }) <
      2748779 / 2 ^ 38)

/-- The function `areSameVertices` with the rounding of the float subtraction
made explicit; `areSameVertices` is the case `fl x = x`. -/
def areSameVerticesRounded (fl : ℚ → ℚ) (a b : SkinnedVertex) : Bool :=
  similar3Rounded fl a.pos b.pos
    && similar3Rounded fl a.normal b.normal
    && similar4Rounded fl a.tangent b.tangent
    && similar2Rounded fl a.uv b.uv
    && similar3Rounded fl a.color b.color
    && similar3Rounded fl a.boneWeights.xyz b.boneWeights.xyz
    && decide (a.boneIDs = b.boneIDs)

/-- A rounding that leaves binary32 numbers as they are and sends every other
number to 0. -/
def crudeRounding (x : ℚ) : ℚ := if isBinary32 x then x else 0

/-- The vertex `originVertex` moved along `x` by the binary32 number nearest
to `5 * 10^-6`, which is `2748779 / 2^39`. -/
def nudgedVertex32 : SkinnedVertex :=
  { originVertex with pos := { x := 2748779 / 2 ^ 39, y := 0, z := 0 } }

namespace IEEE

/-- A `float` as far as the comparisons of `areSameVertices` can tell: a
number or NaN. Rounding and the infinities are left out. -/
inductive Binary32 where
  | nan
  | num (value : ℚ)
deriving DecidableEq

/-- The difference `a - b`: NaN when an operand is NaN. -/
def Binary32.sub : Binary32 → Binary32 → Binary32
  | Binary32.num a, Binary32.num b => Binary32.num (a - b)
  | _, _ => Binary32.nan

/-- The absolute value: NaN for NaN. -/
def Binary32.abs : Binary32 → Binary32
  | Binary32.num a => Binary32.num |a|
  | Binary32.nan => Binary32.nan

/-- The comparison `a < b`: false when an operand is NaN. -/
def Binary32.lt : Binary32 → Binary32 → Bool
  | Binary32.num a, Binary32.num b => decide (a < b)
  | _, _ => false

/-- The function `glm::max` on scalars, `(x < y) ? y : x`. -/
def Binary32.max (x y : Binary32) : Binary32 := if Binary32.lt x y then y else x

/-- The glm type `vec2`. -/
structure Vec2 where
  x : Binary32
  y : Binary32
deriving DecidableEq

/-- The glm type `vec3`. -/
structure Vec3 where
  x : Binary32
  y : Binary32
  z : Binary32
deriving DecidableEq

/-- The glm type `vec4`. -/
structure Vec4 where
  x : Binary32
  y : Binary32
  z : Binary32
  w : Binary32
deriving DecidableEq

/-- Componentwise `a - b` on `vec2`. -/
def sub2 (a b : Vec2) : Vec2 := { x := Binary32.sub a.x b.x, y := Binary32.sub a.y b.y }

/-- Componentwise `a - b` on `vec3`. -/
def sub3 (a b : Vec3) : Vec3 :=
  { x := Binary32.sub a.x b.x, y := Binary32.sub a.y b.y, z := Binary32.sub a.z b.z }

/-- Componentwise `a - b` on `vec4`. -/
def sub4 (a b : Vec4) : Vec4 :=
  { x := Binary32.sub a.x b.x, y := Binary32.sub a.y b.y, z := Binary32.sub a.z b.z,
    w := Binary32.sub a.w b.w }

/-- The function `glm::abs` on `vec2`. -/
def abs2 (v : Vec2) : Vec2 := { x := Binary32.abs v.x, y := Binary32.abs v.y }

/-- The function `glm::abs` on `vec3`. -/
def abs3 (v : Vec3) : Vec3 :=
  { x := Binary32.abs v.x, y := Binary32.abs v.y, z := Binary32.abs v.z }

/-- The function `glm::abs` on `vec4`. -/
def abs4 (v : Vec4) : Vec4 :=
  { x := Binary32.abs v.x, y := Binary32.abs v.y, z := Binary32.abs v.z,
    w := Binary32.abs v.w }

/-- The function `glm::compMax` on `vec2`: the result starts as `v[0]` and
takes `max(result, v[i])` for the other components in order. -/
def compMax2 (v : Vec2) : Binary32 := Binary32.max v.x v.y

/-- The function `glm::compMax` on `vec3`. -/
def compMax3 (v : Vec3) : Binary32 := Binary32.max (Binary32.max v.x v.y) v.z

/-- The function `glm::compMax` on `vec4`. -/
def compMax4 (v : Vec4) : Binary32 :=
  Binary32.max (Binary32.max (Binary32.max v.x v.y) v.z) v.w

/-- The swizzle `.xyz` of a `vec4`; also the conversion of a `vec4` to a `vec3`. -/
def Vec4.xyz (v : Vec4) : Vec3 := { x := v.x, y := v.y, z := v.z }

/-- The record `Carrot::Vertex` over values that may be NaN. -/
structure Vertex where
  pos : Vec3
  color : Vec3
  normal : Vec3
  tangent : Vec4
  uv : Vec2
deriving DecidableEq

/-- The record `Carrot::SkinnedVertex` over values that may be NaN. -/
structure SkinnedVertex extends Vertex where
  boneIDs : IVec4
  boneWeights : Vec4
deriving DecidableEq

/-- The record `ExpandedVertex`. -/
structure ExpandedVertex where
  vertex : SkinnedVertex
  originalIndex : Nat
  newIndex : Option Nat
deriving DecidableEq

/-- The record `ExpandedMesh`. -/
structure ExpandedMesh where
  vertices : List ExpandedVertex
  duplicatedVertices : List (List Nat)
deriving DecidableEq

/-- The fields of `LoadedPrimitive` that `collapseMesh` reads or writes. -/
structure LoadedPrimitive where
  isSkinned : Bool
  vertices : List Vertex
  skinnedVertices : List SkinnedVertex
  indices : List Nat
deriving DecidableEq

/-- The lambda `similar2` of `areSameVertices`. -/
def similar2 (a b : Vec2) : Bool :=
  Binary32.lt (compMax2 (abs2 (sub2 a b))) (Binary32.num (2748779 / 2 ^ 38))

/-- The lambda `similar3` of `areSameVertices`. -/
def similar3 (a b : Vec3) : Bool :=
  Binary32.lt (compMax3 (abs3 (sub3 a b))) (Binary32.num (2748779 / 2 ^ 38))

/-- The lambda `similar4` of `areSameVertices`. -/
def similar4 (a b : Vec4) : Bool :=
  Binary32.lt (compMax4 (abs4 (sub4 a b))) (Binary32.num (2748779 / 2 ^ 38))

/-- The function `areSameVertices`. -/
def areSameVertices (a b : SkinnedVertex) : Bool :=
  similar3 a.pos b.pos
    && similar3 a.normal b.normal
    && similar4 a.tangent b.tangent
    && similar2 a.uv b.uv
    && similar3 a.color b.color
    && similar3 a.boneWeights.xyz b.boneWeights.xyz
    && decide (a.boneIDs = b.boneIDs)

/-- The sibling scan of `collapseMesh`. -/
def findIndexToReuse (vertices : List ExpandedVertex) (current : SkinnedVertex) :
    List Nat → Option (Option Nat)
  | [] => some none
  | siblingIndex :: rest =>
    match vertices[siblingIndex]? with
    | none => none
    | some sibling =>
      match sibling.newIndex with
      | none => findIndexToReuse vertices current rest
      | some k =>
        if areSameVertices sibling.vertex current then some (some k)
        else findIndexToReuse vertices current rest

/-- The state of the loop of `collapseMesh`. -/
structure CollapseState where
  out : LoadedPrimitive
  mesh : ExpandedMesh
  nextIndex : Nat
deriving DecidableEq

/-- One iteration of the loop of `collapseMesh`, for position `vertexIndex`. -/
def collapseStep (st : CollapseState) (vertexIndex : Nat) : Option CollapseState := do
  let duplicatedVertex ← st.mesh.vertices[vertexIndex]?
  if duplicatedVertex.newIndex.isSome then none
  let siblingIndices ← st.mesh.duplicatedVertices[duplicatedVertex.originalIndex]?
  let indexToReuse ← findIndexToReuse st.mesh.vertices duplicatedVertex.vertex siblingIndices
  match indexToReuse with
  | some k => some { st with out := { st.out with indices := st.out.indices ++ [k] } }
  | none =>
    let written :=
      { st.mesh with
        vertices := st.mesh.vertices.set vertexIndex
          { duplicatedVertex with newIndex := some st.nextIndex } }
    let out := { st.out with indices := st.out.indices ++ [st.nextIndex] }
    if st.out.isSkinned then
      some
        { out := { out with skinnedVertices := out.skinnedVertices ++ [duplicatedVertex.vertex] }
          mesh := written
          nextIndex := st.nextIndex + 1 }
    else
      some
        { out := { out with vertices := out.vertices ++ [duplicatedVertex.vertex.toVertex] }
          mesh := written
          nextIndex := st.nextIndex + 1 }

/-- The function `collapseMesh`. -/
def collapseMesh (out : LoadedPrimitive) (mesh : ExpandedMesh) :
    Option (LoadedPrimitive × ExpandedMesh) :=
  ((List.range mesh.vertices.length).foldlM collapseStep
    { out := { out with vertices := [], skinnedVertices := [], indices := [] }
      mesh := mesh
      nextIndex := 0 }).map fun st => (st.out, st.mesh)

/-- A `vec2` of numbers. -/
def ofVec2 (v : glm.Vec2) : Vec2 := { x := Binary32.num v.x, y := Binary32.num v.y }

/-- A `vec3` of numbers. -/
def ofVec3 (v : glm.Vec3) : Vec3 :=
  { x := Binary32.num v.x, y := Binary32.num v.y, z := Binary32.num v.z }

/-- A `vec4` of numbers. -/
def ofVec4 (v : glm.Vec4) : Vec4 :=
  { x := Binary32.num v.x, y := Binary32.num v.y, z := Binary32.num v.z,
    w := Binary32.num v.w }

/-- A vertex of numbers. -/
def ofVertex (v : Carrot.Vertex) : Vertex :=
  { pos := ofVec3 v.pos, color := ofVec3 v.color, normal := ofVec3 v.normal,
    tangent := ofVec4 v.tangent, uv := ofVec2 v.uv }

/-- A skinned vertex of numbers. -/
def ofSkinnedVertex (v : Carrot.SkinnedVertex) : SkinnedVertex :=
  { toVertex := ofVertex v.toVertex, boneIDs := v.boneIDs,
    boneWeights := ofVec4 v.boneWeights }

/-- A corner of numbers. -/
def ofExpandedVertex (c : Fertilizer.ExpandedVertex) : ExpandedVertex :=
  { vertex := ofSkinnedVertex c.vertex, originalIndex := c.originalIndex,
    newIndex := c.newIndex }

/-- A soup of numbers. -/
def ofExpandedMesh (m : Fertilizer.ExpandedMesh) : ExpandedMesh :=
  { vertices := m.vertices.map ofExpandedVertex, duplicatedVertices := m.duplicatedVertices }

/-- A primitive of numbers. -/
def ofLoadedPrimitive (p : Fertilizer.LoadedPrimitive) : LoadedPrimitive :=
  { isSkinned := p.isSkinned, vertices := p.vertices.map ofVertex,
    skinnedVertices := p.skinnedVertices.map ofSkinnedVertex, indices := p.indices }

/-- A loop state of numbers. -/
def ofCollapseState (st : Fertilizer.CollapseState) : CollapseState :=
  { out := ofLoadedPrimitive st.out, mesh := ofExpandedMesh st.mesh,
    nextIndex := st.nextIndex }

/-- The vector `(NaN, NaN, NaN)`. -/
def nan3 : Vec3 := { x := Binary32.nan, y := Binary32.nan, z := Binary32.nan }

/-- The corner `c` with the normal `(NaN, NaN, NaN)`. -/
def withNanNormal (c : ExpandedVertex) : ExpandedVertex :=
  { c with vertex := { c.vertex with normal := nan3 } }

end IEEE

/-- A degenerate triangle, its three vertices on one line: `A = (0,0,0)`,
`B = (1,0,0)`, `C = (2,0,0)`, indices `[0, 1, 2]`, no normals. -/
def degenerateTriangle : LoadedPrimitive :=
  { unitTriangle with vertices := [bareVertex 0 0 0, bareVertex 1 0 0, bareVertex 2 0 0] }

/-- The soup of `degenerateTriangle`. -/
def degenerateSoup : ExpandedMesh :=
  (expandMesh degenerateTriangle).getD { vertices := [], duplicatedVertices := [] }

/-- The soup of `degenerateTriangle` after `generateFlatNormals` in binary32
arithmetic: the cross product of the two edges is zero, `inversesqrt(0)` is
infinite and every normal is `0 * inf`, which is NaN. -/
def nanNormalSoup : IEEE.ExpandedMesh :=
  { vertices := (IEEE.ofExpandedMesh degenerateSoup).vertices.map IEEE.withNanNormal
    duplicatedVertices := degenerateSoup.duplicatedVertices }

/-! ## Theorems -/

theorem sourceVertex_isSome (p : LoadedPrimitive) (index : Nat) (h : index < vertexCount p) :
    ∃ sv, sourceVertex p index = some sv := by
  unfold vertexCount at h
  unfold sourceVertex
  by_cases hs : p.isSkinned = true
  · simp only [hs, if_true] at h ⊢
    exact ⟨_, List.getElem?_eq_getElem h⟩
  · simp only [hs] at h ⊢
    simp only [Bool.false_eq_true, if_false] at h ⊢
    exact ⟨_, by rw [List.getElem?_eq_getElem h]; rfl⟩

theorem expandStep_default (p : LoadedPrimitive) (e : ExpandedMesh) (n index : Nat)
    (sv : SkinnedVertex) (siblings : List Nat)
    (hidx : p.indices[n]? = some index)
    (hc : e.vertices[n]? = some ExpandedVertex.default)
    (hsv : sourceVertex p index = some sv)
    (hs : e.duplicatedVertices[index]? = some siblings) :
    expandStep p e n = some
      { vertices := e.vertices.set n { vertex := sv, originalIndex := index, newIndex := none }
        duplicatedVertices := e.duplicatedVertices.set index (siblings ++ [n]) } := by
  unfold sourceVertex at hsv
  unfold expandStep
  by_cases hsk : p.isSkinned = true
  · simp only [hsk, if_true] at hsv
    simp [hidx, hc, hsk, hsv, hs, ExpandedVertex.default]
  · simp only [hsk] at hsv
    simp only [Bool.false_eq_true, if_false] at hsv
    cases hv : p.vertices[index]? with
    | none => simp [hv] at hsv
    | some v =>
      simp only [hv, Option.map_some', Option.some.injEq] at hsv
      subst hsv
      simp [hidx, hc, hsk, hv, hs, ExpandedVertex.default, SkinnedVertex.default]

theorem expandInv_step (p : LoadedPrimitive) (e : ExpandedMesh) (n : Nat)
    (h : ∀ index ∈ p.indices, index < vertexCount p)
    (hn : n < p.indices.length) (hinv : ExpandInv p n e) :
    ∃ e1, expandStep p e n = some e1 ∧ ExpandInv p (n + 1) e1 := by
  obtain ⟨hlen, hdlen, hrest, hdone, hdup⟩ := hinv
  have hidx : p.indices[n]? = some (p.indices[n]) := List.getElem?_eq_getElem hn
  have hlt : p.indices[n] < vertexCount p := h _ (List.getElem_mem hn)
  obtain ⟨sv, hsv⟩ := sourceVertex_isSome p _ hlt
  have hstep := expandStep_default p e n _ sv _ hidx (hrest n le_rfl hn) hsv (hdup _ hlt)
  refine ⟨_, hstep, ?_, ?_, ?_, ?_, ?_⟩
  · simp [hlen]
  · simp [hdlen]
  · intro i hi hiI
    have hne : n ≠ i := by omega
    simp only [List.getElem?_set_ne hne]
    exact hrest i (by omega) hiI
  · intro i hi index hii
    by_cases hin : i = n
    · subst hin
      rw [hidx] at hii
      cases hii
      refine ⟨sv, hsv, ?_⟩
      simp only [List.getElem?_set, if_true, hlen, hn]
    · have hne : n ≠ i := fun h => hin h.symm
      obtain ⟨sv1, h1, h2⟩ := hdone i (by omega) index hii
      exact ⟨sv1, h1, by simp only [List.getElem?_set_ne hne]; exact h2⟩
  · intro k hk
    simp only [List.range_succ, List.filter_append, List.getElem?_set]
    by_cases hkn : p.indices[n] = k
    · subst hkn
      simp [hdlen, hk, hidx]
    · simp only [hkn, if_false]
      rw [hdup k hk]
      simp [hidx, hkn]

theorem expand_fold (p : LoadedPrimitive)
    (h : ∀ index ∈ p.indices, index < vertexCount p) (n : Nat) (hn : n ≤ p.indices.length) :
    ∃ e, (List.range n).foldlM (expandStep p)
        { vertices := List.replicate p.indices.length ExpandedVertex.default
          duplicatedVertices := List.replicate (vertexCount p) [] } = some e ∧
      ExpandInv p n e := by
  induction n with
  | zero =>
    refine ⟨_, rfl, ?_, ?_, ?_, ?_, ?_⟩
    · simp
    · simp
    · intro i _ hi
      simp [List.getElem?_replicate, hi]
    · intro i hi
      omega
    · intro k hk
      simp [List.getElem?_replicate, hk]
  | succ n ih =>
    obtain ⟨e, he, hinv⟩ := ih (by omega)
    obtain ⟨e1, hstep, hinv1⟩ := expandInv_step p e n h (by omega) hinv
    refine ⟨e1, ?_, hinv1⟩
    rw [List.range_succ, List.foldlM_append, he]
    simp [hstep]

theorem expandMesh_inv (p : LoadedPrimitive)
    (h : ∀ index ∈ p.indices, index < vertexCount p) :
    ∃ e, expandMesh p = some e ∧ ExpandInv p p.indices.length e :=
  expand_fold p h p.indices.length le_rfl

theorem findIndexToReuse_spec (vertices : List ExpandedVertex) (current : SkinnedVertex)
    (siblings : List Nat) (h : ∀ s ∈ siblings, s < vertices.length) :
    ∃ r, findIndexToReuse vertices current siblings = some r ∧
      (∀ k, r = some k → ∃ s ∈ siblings, ∃ sib, vertices[s]? = some sib ∧
        sib.newIndex = some k ∧ areSameVertices sib.vertex current = true) ∧
      (r = none → ∀ s ∈ siblings, ∀ sib, vertices[s]? = some sib → ∀ k,
        sib.newIndex = some k → areSameVertices sib.vertex current = false) := by
  induction siblings with
  | nil => exact ⟨none, rfl, by simp, by simp⟩
  | cons s rest ih =>
    obtain ⟨r, hr, hsome, hnone⟩ := ih (fun s hs => h s (List.mem_cons_of_mem _ hs))
    have hs : s < vertices.length := h s (List.mem_cons_self _ _)
    have hget : vertices[s]? = some vertices[s] := List.getElem?_eq_getElem hs
    unfold findIndexToReuse
    rw [hget]
    cases hni : (vertices[s]).newIndex with
    | none =>
      refine ⟨r, by simpa [hni] using hr, ?_, ?_⟩
      · intro k hk
        obtain ⟨s1, hs1, sib, h1, h2, h3⟩ := hsome k hk
        exact ⟨s1, List.mem_cons_of_mem _ hs1, sib, h1, h2, h3⟩
      · intro hrn s1 hs1 sib hsib k hk
        rcases List.mem_cons.mp hs1 with h1 | h1
        · subst h1
          rw [hget] at hsib
          cases hsib
          rw [hni] at hk
          cases hk
        · exact hnone hrn s1 h1 sib hsib k hk
    | some k0 =>
      by_cases hsame : areSameVertices (vertices[s]).vertex current = true
      · refine ⟨some k0, by simp [hni, hsame], ?_, by simp⟩
        intro k hk
        cases hk
        exact ⟨s, List.mem_cons_self _ _, vertices[s], hget, hni, hsame⟩
      · refine ⟨r, by simpa [hni, hsame] using hr, ?_, ?_⟩
        · intro k hk
          obtain ⟨s1, hs1, sib, h1, h2, h3⟩ := hsome k hk
          exact ⟨s1, List.mem_cons_of_mem _ hs1, sib, h1, h2, h3⟩
        · intro hrn s1 hs1 sib hsib k hk
          rcases List.mem_cons.mp hs1 with h1 | h1
          · subst h1
            rw [hget] at hsib
            cases hsib
            simpa using hsame
          · exact hnone hrn s1 h1 sib hsib k hk

theorem stored_lt (out : LoadedPrimitive) (k : Nat) (v : SkinnedVertex) (h : stored out k v) :
    k < vertexCount out := by
  unfold stored at h
  unfold vertexCount
  by_cases hs : out.isSkinned = true
  · simp only [hs, if_true] at h ⊢
    exact (List.getElem?_eq_some.mp h).1
  · simp only [hs] at h ⊢
    exact (List.getElem?_eq_some.mp h).1

theorem collapseStep_reuse (st : CollapseState) (n : Nat) (c : ExpandedVertex)
    (siblings : List Nat) (k : Nat)
    (hc : st.mesh.vertices[n]? = some c) (hnew : c.newIndex = none)
    (hs : st.mesh.duplicatedVertices[c.originalIndex]? = some siblings)
    (hfind : findIndexToReuse st.mesh.vertices c.vertex siblings = some (some k)) :
    collapseStep st n =
      some { st with out := { st.out with indices := st.out.indices ++ [k] } } := by
  unfold collapseStep
  simp [hc, hnew, hs, hfind]

theorem collapseStep_fresh (st : CollapseState) (n : Nat) (c : ExpandedVertex)
    (siblings : List Nat)
    (hc : st.mesh.vertices[n]? = some c) (hnew : c.newIndex = none)
    (hs : st.mesh.duplicatedVertices[c.originalIndex]? = some siblings)
    (hfind : findIndexToReuse st.mesh.vertices c.vertex siblings = some none) :
    collapseStep st n =
      some
        { out :=
            { st.out with
              indices := st.out.indices ++ [st.nextIndex]
              skinnedVertices :=
                if st.out.isSkinned then st.out.skinnedVertices ++ [c.vertex]
                else st.out.skinnedVertices
              vertices :=
                if st.out.isSkinned then st.out.vertices
                else st.out.vertices ++ [c.vertex.toVertex] }
          mesh :=
            { st.mesh with
              vertices := st.mesh.vertices.set n { c with newIndex := some st.nextIndex } }
          nextIndex := st.nextIndex + 1 } := by
  unfold collapseStep
  by_cases hsk : st.out.isSkinned = true
  · simp [hc, hnew, hs, hfind, hsk]
  · simp [hc, hnew, hs, hfind, hsk]

theorem collapseInv_step (m0 : ExpandedMesh) (isSk : Bool) (n : Nat) (st : CollapseState)
    (hready : CollapseReady m0) (hn : n < m0.vertices.length)
    (hinv : CollapseInv m0 isSk n st) :
    ∃ st1, collapseStep st n = some st1 ∧ CollapseInv m0 isSk (n + 1) st1 := by
  obtain ⟨_, horig, hsibs⟩ := hready
  have hn1 : n < st.mesh.vertices.length := by rw [hinv.len]; exact hn
  have hc : st.mesh.vertices[n]? = some st.mesh.vertices[n] := List.getElem?_eq_getElem hn1
  generalize st.mesh.vertices[n] = c at hc
  have hnew : c.newIndex = none := hinv.pending n c hc le_rfl
  obtain ⟨c0, hc0, hv0, ho0⟩ := hinv.frame n c hc
  have hc0mem : c0 ∈ m0.vertices := List.mem_iff_getElem?.mpr ⟨n, hc0⟩
  have holt : c.originalIndex < m0.duplicatedVertices.length := by
    rw [ho0]; exact horig c0 hc0mem
  have hs0 : m0.duplicatedVertices[c.originalIndex]? =
      some m0.duplicatedVertices[c.originalIndex] := List.getElem?_eq_getElem holt
  have hsmem : m0.duplicatedVertices[c.originalIndex] ∈ m0.duplicatedVertices :=
    List.getElem_mem holt
  generalize m0.duplicatedVertices[c.originalIndex] = siblings at hs0 hsmem
  have hs : st.mesh.duplicatedVertices[c.originalIndex]? = some siblings := by
    rw [hinv.dup]; exact hs0
  have hvalid : ∀ s ∈ siblings, s < st.mesh.vertices.length := by
    intro s hsin
    rw [hinv.len]
    exact hsibs siblings hsmem s hsin
  obtain ⟨r, hfind, hsome, hnone⟩ :=
    findIndexToReuse_spec st.mesh.vertices c.vertex siblings hvalid
  cases r with
  | some k =>
    refine ⟨_, collapseStep_reuse st n c siblings k hc hnew hs hfind, ?_⟩
    obtain ⟨s, hsin, sib, hsib, hsibnew, hsame⟩ := hsome k rfl
    have hslt : s < n := by
      by_contra hge
      have := hinv.pending s sib hsib (by omega)
      rw [this] at hsibnew
      cases hsibnew
    refine ⟨hinv.skinned, hinv.dup, hinv.len, hinv.frame, ?_, ?_, hinv.size, hinv.written, ?_,
      Nat.le_succ_of_le hinv.bound, hinv.covered, hinv.distinct⟩
    · intro j cj hj hle
      exact hinv.pending j cj hj (by omega)
    · simp [hinv.count]
    · intro i k1 hi
      simp only [] at hi
      by_cases hin : i < n
      · rw [List.getElem?_append_left (by rw [hinv.count]; exact hin)] at hi
        exact hinv.emitted i k1 hi
      · have hlen : (st.out.indices ++ [k]).length = n + 1 := by simp [hinv.count]
        have hilt : i < n + 1 := by
          have := (List.getElem?_eq_some.mp hi).1
          omega
        have hieq : i = n := by omega
        subst hieq
        have hcount := hinv.count
        rw [← hcount, List.getElem?_concat_length] at hi
        cases hi
        exact ⟨s, sib, c, by omega, hsib, hc, hsibnew, Or.inr ⟨hslt, ⟨siblings, hs0, hsin⟩, hsame⟩⟩
  | none =>
    refine ⟨_, collapseStep_fresh st n c siblings hc hnew hs hfind, ?_⟩
    have hsize := hinv.size
    have hsk := hinv.skinned
    refine ⟨hinv.skinned, hinv.dup, ?_, ?_, ?_, ?_, ?_, ?_, ?_,
      Nat.succ_le_succ hinv.bound, ?_, ?_⟩
    rotate_left 7
    · intro k hk
      have hk1 : k < st.nextIndex + 1 := hk
      by_cases hkn : k = st.nextIndex
      · subst hkn
        exact ⟨n, { c with newIndex := some st.nextIndex },
          by simp [List.getElem?_set, hn1], rfl⟩
      · obtain ⟨j, cj, hj, hjk⟩ := hinv.covered k (by omega)
        have hjn : n ≠ j := by
          intro hjn
          subst hjn
          rw [hc] at hj
          cases hj
          rw [hnew] at hjk
          cases hjk
        exact ⟨j, cj, by simp only [List.getElem?_set_ne hjn]; exact hj, hjk⟩
    · intro i ci ki j cj kj sibs hi hki hsibs hjs hj hkj hji
      simp only [List.getElem?_set] at hi hj
      have hjn : n ≠ j := by
        intro hjn
        subst hjn
        have hin : ¬ n = i := by omega
        simp only [hin, if_false] at hi
        have := hinv.pending i ci hi (by omega)
        rw [this] at hki
        cases hki
      simp only [hjn, if_false] at hj
      by_cases hin : n = i
      · subst hin
        simp only [if_true, hn1] at hi
        cases hi
        simp only [] at hsibs
        rw [hs0] at hsibs
        cases hsibs
        exact hnone rfl j hjs cj hj kj hkj
      · simp only [hin, if_false] at hi
        exact hinv.distinct i ci ki j cj kj sibs hi hki hsibs hjs hj hkj hji
    · simp [hinv.len]
    · intro j cj hj
      simp only [List.getElem?_set] at hj
      by_cases hjn : n = j
      · subst hjn
        simp only [if_true, hn1] at hj
        cases hj
        exact ⟨c0, hc0, hv0, ho0⟩
      · simp only [hjn, if_false] at hj
        exact hinv.frame j cj hj
    · intro j cj hj hle
      have hjn : n ≠ j := by omega
      simp only [List.getElem?_set_ne hjn] at hj
      exact hinv.pending j cj hj (by omega)
    · simp [hinv.count]
    · unfold vertexCount at hsize ⊢
      by_cases hs1 : st.out.isSkinned = true
      · simp only [hs1, if_true] at hsize ⊢
        simp [hsize]
      · simp only [hs1] at hsize ⊢
        simp only [Bool.false_eq_true, if_false] at hsize ⊢
        simp [hsize]
    · intro j cj k hj hk
      simp only [List.getElem?_set] at hj
      unfold vertexCount at hsize
      by_cases hjn : n = j
      · subst hjn
        simp only [if_true, hn1] at hj
        cases hj
        simp only [Option.some.injEq] at hk
        subst hk
        unfold stored
        by_cases hs1 : st.out.isSkinned = true
        · simp only [hs1, if_true] at hsize ⊢
          rw [← hsize, List.getElem?_concat_length]
        · simp only [hs1] at hsize ⊢
          simp only [Bool.false_eq_true, if_false] at hsize ⊢
          rw [← hsize, List.getElem?_concat_length]
      · simp only [hjn, if_false] at hj
        have hold := hinv.written j cj k hj hk
        unfold stored at hold ⊢
        by_cases hs1 : st.out.isSkinned = true
        · simp only [hs1, if_true] at hold ⊢
          rw [List.getElem?_append_left (List.getElem?_eq_some.mp hold).1]
          exact hold
        · simp only [hs1] at hold ⊢
          simp only [Bool.false_eq_true, if_false] at hold ⊢
          rw [List.getElem?_append_left (List.getElem?_eq_some.mp hold).1]
          exact hold
    · intro i k1 hi
      simp only [] at hi
      by_cases hin : i < n
      · rw [List.getElem?_append_left (by rw [hinv.count]; exact hin)] at hi
        obtain ⟨j, cj, ci, hji, hj, hci, hjnew, hcase⟩ := hinv.emitted i k1 hi
        have hjn : n ≠ j := by omega
        have hin1 : n ≠ i := by omega
        refine ⟨j, cj, ci, hji, ?_, ?_, hjnew, hcase⟩
        · simp only [List.getElem?_set_ne hjn]; exact hj
        · simp only [List.getElem?_set_ne hin1]; exact hci
      · have hlen : (st.out.indices ++ [st.nextIndex]).length = n + 1 := by simp [hinv.count]
        have hilt : i < n + 1 := by
          have := (List.getElem?_eq_some.mp hi).1
          omega
        have hieq : i = n := by omega
        subst hieq
        have hcount := hinv.count
        rw [← hcount, List.getElem?_concat_length] at hi
        cases hi
        refine ⟨_, { c with newIndex := some st.nextIndex },
          { c with newIndex := some st.nextIndex }, le_rfl, ?_, ?_, rfl, Or.inl rfl⟩
        · simp [List.getElem?_set, hn1]
        · simp [List.getElem?_set, hn1]

theorem collapse_fold (out : LoadedPrimitive) (m0 : ExpandedMesh) (hready : CollapseReady m0)
    (n : Nat) (hn : n ≤ m0.vertices.length) :
    ∃ st, (List.range n).foldlM collapseStep
        { out := { out with vertices := [], skinnedVertices := [], indices := [] }
          mesh := m0
          nextIndex := 0 } = some st ∧
      CollapseInv m0 out.isSkinned n st := by
  induction n with
  | zero =>
    refine ⟨_, rfl, rfl, rfl, rfl, ?_, ?_, rfl, ?_, ?_, ?_, le_rfl, ?_, ?_⟩
    rotate_left 5
    · intro k hk
      exact absurd hk (Nat.not_lt_zero k)
    · intro i ci ki j cj kj sibs hi hki _ _ _ _ _
      have := hready.1 ci (List.mem_iff_getElem?.mpr ⟨i, hi⟩)
      rw [this] at hki
      cases hki
    · intro j c hj
      exact ⟨c, hj, rfl, rfl⟩
    · intro j c hj _
      exact hready.1 c (List.mem_iff_getElem?.mpr ⟨j, hj⟩)
    · unfold vertexCount
      by_cases hs : out.isSkinned = true <;> simp [hs]
    · intro j c k hj hk
      have := hready.1 c (List.mem_iff_getElem?.mpr ⟨j, hj⟩)
      rw [this] at hk
      cases hk
    · intro i k hi
      simp at hi
  | succ n ih =>
    obtain ⟨st, hst, hinv⟩ := ih (by omega)
    obtain ⟨st1, hstep, hinv1⟩ := collapseInv_step m0 out.isSkinned n st hready (by omega) hinv
    refine ⟨st1, ?_, hinv1⟩
    rw [List.range_succ, List.foldlM_append, hst]
    simp [hstep]

theorem collapseMesh_inv (out : LoadedPrimitive) (m0 : ExpandedMesh)
    (hready : CollapseReady m0) :
    ∃ st, collapseMesh out m0 = some (st.out, st.mesh) ∧
      CollapseInv m0 out.isSkinned m0.vertices.length st := by
  obtain ⟨st, hst, hinv⟩ := collapse_fold out m0 hready m0.vertices.length le_rfl
  refine ⟨st, ?_, hinv⟩
  unfold collapseMesh
  rw [hst]
  rfl

theorem collapseStep_count (st st1 : CollapseState) (i : Nat)
    (h : collapseStep st i = some st1) :
    st1.out.indices.length = st.out.indices.length + 1 := by
  unfold collapseStep at h
  cases hc : st.mesh.vertices[i]? with
  | none => simp [hc] at h
  | some c =>
    cases hnew : c.newIndex with
    | some k => simp [hc, hnew] at h
    | none =>
      cases hs : st.mesh.duplicatedVertices[c.originalIndex]? with
      | none => simp [hc, hnew, hs] at h
      | some siblings =>
        cases hf : findIndexToReuse st.mesh.vertices c.vertex siblings with
        | none => simp [hc, hnew, hs, hf] at h
        | some r =>
          cases r with
          | some k =>
            simp [hc, hnew, hs, hf] at h
            subst h
            simp
          | none =>
            by_cases hsk : st.out.isSkinned = true
            · simp [hc, hnew, hs, hf, hsk] at h
              subst h
              simp
            · simp [hc, hnew, hs, hf, hsk] at h
              subst h
              simp

theorem collapse_fold_count (n : Nat) (st0 st : CollapseState)
    (h : (List.range n).foldlM collapseStep st0 = some st) :
    st.out.indices.length = st0.out.indices.length + n := by
  induction n generalizing st with
  | zero =>
    simp at h
    subst h
    rfl
  | succ n ih =>
    rw [List.range_succ, List.foldlM_append] at h
    cases hmid : (List.range n).foldlM collapseStep st0 with
    | none => simp [hmid] at h
    | some mid =>
      simp [hmid] at h
      have h1 := ih mid hmid
      have h2 := collapseStep_count mid st n h
      omega

theorem attributesChanged_get (e m : ExpandedMesh) (hm : AttributesChanged e m) :
    m.vertices.length = e.vertices.length ∧
      ∀ (i : Nat) (c : ExpandedVertex), m.vertices[i]? = some c →
        ∃ c0, e.vertices[i]? = some c0 ∧ c.originalIndex = c0.originalIndex ∧
          c.newIndex = c0.newIndex := by
  obtain ⟨_, hmap⟩ := hm
  constructor
  · simpa using congrArg List.length hmap
  · intro i c hc
    have h := congrArg (fun l => l[i]?) hmap
    simp only [List.getElem?_map, hc, Option.map_some'] at h
    cases he : e.vertices[i]? with
    | none => simp [he] at h
    | some c0 =>
      simp only [he, Option.map_some', Option.some.injEq, Prod.mk.injEq] at h
      exact ⟨c0, rfl, h.1, h.2⟩

theorem expanded_ready (p : LoadedPrimitive) (e m : ExpandedMesh)
    (hp : ∀ index ∈ p.indices, index < vertexCount p)
    (hinv : ExpandInv p p.indices.length e) (hm : AttributesChanged e m) :
    CollapseReady m ∧
      ∀ (k : Nat) (siblings : List Nat) (j : Nat), m.duplicatedVertices[k]? = some siblings →
        j ∈ siblings → p.indices[j]? = some k ∧
          ∃ cj, m.vertices[j]? = some cj ∧ cj.originalIndex = k := by
  obtain ⟨hlen, hdlen, _, hdone, hdup⟩ := hinv
  have hmdup := hm.1
  obtain ⟨hmlen, hmv⟩ := attributesChanged_get e m hm
  have hcorner : ∀ (i : Nat) (c : ExpandedVertex), m.vertices[i]? = some c →
      c.newIndex = none ∧ p.indices[i]? = some c.originalIndex := by
    intro i c hc
    obtain ⟨c0, hc0, ho, hn⟩ := hmv i c hc
    have hi : i < p.indices.length := by
      rw [← hlen]; exact (List.getElem?_eq_some.mp hc0).1
    obtain ⟨sv, _, hsv⟩ := hdone i hi _ (List.getElem?_eq_getElem hi)
    rw [hc0] at hsv
    cases hsv
    exact ⟨hn, by rw [ho]; exact List.getElem?_eq_getElem hi⟩
  have hsib : ∀ (k : Nat) (siblings : List Nat) (j : Nat),
      m.duplicatedVertices[k]? = some siblings → j ∈ siblings →
        j < p.indices.length ∧ p.indices[j]? = some k := by
    intro k siblings j hk hj
    rw [hmdup] at hk
    have hklt : k < vertexCount p := by
      rw [← hdlen]; exact (List.getElem?_eq_some.mp hk).1
    rw [hdup k hklt] at hk
    cases hk
    have := List.mem_filter.mp hj
    exact ⟨List.mem_range.mp this.1, by simpa using this.2⟩
  refine ⟨⟨?_, ?_, ?_⟩, ?_⟩
  · intro c hc
    obtain ⟨i, hi⟩ := List.mem_iff_getElem?.mp hc
    exact (hcorner i c hi).1
  · intro c hc
    obtain ⟨i, hi⟩ := List.mem_iff_getElem?.mp hc
    rw [hmdup, hdlen]
    exact hp _ (List.mem_iff_getElem?.mpr ⟨i, (hcorner i c hi).2⟩)
  · intro siblings hs s hsin
    obtain ⟨k, hk⟩ := List.mem_iff_getElem?.mp hs
    rw [hmlen, hlen]
    exact (hsib k siblings s hk hsin).1
  · intro k siblings j hk hj
    obtain ⟨hjlt, hjk⟩ := hsib k siblings j hk hj
    refine ⟨hjk, ?_⟩
    have hjm : j < m.vertices.length := by rw [hmlen, hlen]; exact hjlt
    refine ⟨m.vertices[j], List.getElem?_eq_getElem hjm, ?_⟩
    have := (hcorner j _ (List.getElem?_eq_getElem hjm)).2
    rw [hjk] at this
    cases this
    rfl

theorem attributesChanged_refl (e : ExpandedMesh) : AttributesChanged e e :=
  ⟨rfl, rfl⟩

theorem similar2_refl (a : Vec2) : similar2 a a = true := by
  simp [similar2, compMax2, abs2, sub2]

theorem similar3_refl (a : Vec3) : similar3 a a = true := by
  simp [similar3, compMax3, abs3, sub3]

theorem similar4_refl (a : Vec4) : similar4 a a = true := by
  simp [similar4, compMax4, abs4, sub4]

theorem areSameVertices_refl (a : SkinnedVertex) : areSameVertices a a = true := by
  simp [areSameVertices, similar2_refl, similar3_refl, similar4_refl]

/-- C2. For every soup in which no corner has a `newIndex` yet, every
`originalIndex` is a position of `duplicatedVertices` and every sibling
position is a corner position, `collapseMesh` returns, and every value of the
output `indices` is strictly smaller than the size of the output vertex buffer
(`vertices` for a rigid primitive, `skinnedVertices` for a skinned one). -/
theorem collapseMesh_indices_in_range (out : LoadedPrimitive) (mesh : ExpandedMesh)
    (hready : CollapseReady mesh) :
    ∃ out1 mesh1, collapseMesh out mesh = some (out1, mesh1) ∧
      ∀ k ∈ out1.indices,
        k < (if out1.isSkinned then out1.skinnedVertices.length else out1.vertices.length) := by
  obtain ⟨st, hst, hinv⟩ := collapseMesh_inv out mesh hready
  refine ⟨st.out, st.mesh, hst, ?_⟩
  intro k hk
  obtain ⟨i, hi⟩ := List.mem_iff_getElem?.mp hk
  obtain ⟨j, cj, _, _, hj, _, hnew, _⟩ := hinv.emitted i k hi
  exact stored_lt st.out k cj.vertex (hinv.written j cj k hj hnew)

/-- The statement of C2 on the soup of `quad`. -/
theorem collapseMesh_indices_in_range_witness :
    CollapseReady quadSoup ∧
      ∃ out1 mesh1, collapseMesh quad quadSoup = some (out1, mesh1) ∧
        ∀ k ∈ out1.indices,
          k < (if out1.isSkinned then out1.skinnedVertices.length else out1.vertices.length) :=
  ⟨by decide, collapseMesh_indices_in_range quad quadSoup (by decide)⟩

/-- C6. `collapseMesh` emits exactly one index per corner of the soup: whenever it
returns, and it returns on every soup that is ready for it, the output
`indices` has as many entries as the soup has corners, whatever `indices` held
before; so a soup whose size is a multiple of 3 gives an index count that is a
multiple of 3. -/
theorem collapseMesh_index_count (out : LoadedPrimitive) (mesh : ExpandedMesh) :
    (CollapseReady mesh → ∃ r, collapseMesh out mesh = some r) ∧
      ∀ out1 mesh1, collapseMesh out mesh = some (out1, mesh1) →
        out1.indices.length = mesh.vertices.length ∧
          (mesh.vertices.length % 3 = 0 → out1.indices.length % 3 = 0) := by
  constructor
  · intro hready
    obtain ⟨st, hst, _⟩ := collapseMesh_inv out mesh hready
    exact ⟨_, hst⟩
  · intro out1 mesh1 h
    unfold collapseMesh at h
    cases hf : (List.range mesh.vertices.length).foldlM collapseStep
        { out := { out with vertices := [], skinnedVertices := [], indices := [] }
          mesh := mesh
          nextIndex := 0 } with
    | none => simp [hf] at h
    | some st =>
      simp [hf] at h
      have hcount := collapse_fold_count _ _ st hf
      simp only [List.length_nil, Nat.zero_add] at hcount
      rw [← h.1]
      exact ⟨hcount, fun h3 => by rw [hcount]; exact h3⟩

/-- The statement of C6 on the soup of `quad`: six indices. -/
theorem collapseMesh_index_count_witness :
    (∃ r, collapseMesh quad quadSoup = some r) ∧
      ∀ out1 mesh1, collapseMesh quad quadSoup = some (out1, mesh1) →
        out1.indices.length = 6 ∧ out1.indices.length % 3 = 0 :=
  ⟨(collapseMesh_index_count quad quadSoup).1 (by decide), fun out1 mesh1 h =>
    ⟨((collapseMesh_index_count quad quadSoup).2 out1 mesh1 h).1,
      ((collapseMesh_index_count quad quadSoup).2 out1 mesh1 h).2 (by decide)⟩⟩

/-- C7. For every primitive whose indices are all smaller than its vertex count,
`expandMesh` returns a soup with exactly one corner per index; the corner at
position `i` has `originalIndex = indices[i]`, no `newIndex`, and the vertex of
the source at `indices[i]`: the whole skinned vertex for a skinned primitive,
all of pos, normal, tangent, color and uv for a rigid one. -/
theorem expandMesh_corners (p : LoadedPrimitive)
    (hp : ∀ index ∈ p.indices, index < vertexCount p) :
    ∃ e, expandMesh p = some e ∧ e.vertices.length = p.indices.length ∧
      ∀ (i index : Nat), p.indices[i]? = some index →
        ∃ c, e.vertices[i]? = some c ∧ c.originalIndex = index ∧ c.newIndex = none ∧
          (p.isSkinned = true → p.skinnedVertices[index]? = some c.vertex) ∧
          (p.isSkinned = false → ∃ v, p.vertices[index]? = some v ∧
            c.vertex.pos = v.pos ∧ c.vertex.normal = v.normal ∧ c.vertex.tangent = v.tangent ∧
            c.vertex.color = v.color ∧ c.vertex.uv = v.uv) := by
  obtain ⟨e, he, hlen, _, _, hdone, _⟩ := expandMesh_inv p hp
  refine ⟨e, he, hlen, ?_⟩
  intro i index hi
  have hilt : i < p.indices.length := (List.getElem?_eq_some.mp hi).1
  obtain ⟨sv, hsv, hc⟩ := hdone i hilt index hi
  refine ⟨_, hc, rfl, rfl, ?_, ?_⟩
  · intro hs
    simpa [sourceVertex, hs] using hsv
  · intro hs
    simp only [sourceVertex, hs, Bool.false_eq_true, if_false] at hsv
    cases hv : p.vertices[index]? with
    | none => simp [hv] at hsv
    | some v =>
      simp only [hv, Option.map_some', Option.some.injEq] at hsv
      subst hsv
      exact ⟨v, rfl, rfl, rfl, rfl, rfl, rfl⟩

/-- The statement of C7 on `quad`. -/
theorem expandMesh_corners_witness :
    (∀ index ∈ quad.indices, index < vertexCount quad) ∧
      ∃ e, expandMesh quad = some e ∧ e.vertices.length = quad.indices.length ∧
        ∀ (i index : Nat), quad.indices[i]? = some index →
          ∃ c, e.vertices[i]? = some c ∧ c.originalIndex = index ∧ c.newIndex = none ∧
            (quad.isSkinned = true → quad.skinnedVertices[index]? = some c.vertex) ∧
            (quad.isSkinned = false → ∃ v, quad.vertices[index]? = some v ∧
              c.vertex.pos = v.pos ∧ c.vertex.normal = v.normal ∧
              c.vertex.tangent = v.tangent ∧ c.vertex.color = v.color ∧ c.vertex.uv = v.uv) :=
  ⟨by decide, expandMesh_corners quad (by decide)⟩

/-- C8. For every primitive with `N` vertices whose indices are all smaller than
`N`, `expandMesh` returns `duplicatedVertices` with exactly `N` entries, and
every element of `duplicatedVertices[k]` is a position `i` with
`indices[i] = k`. -/
theorem expandMesh_duplicatedVertices (p : LoadedPrimitive)
    (hp : ∀ index ∈ p.indices, index < vertexCount p) :
    ∃ e, expandMesh p = some e ∧ e.duplicatedVertices.length = vertexCount p ∧
      ∀ (k : Nat) (siblings : List Nat), e.duplicatedVertices[k]? = some siblings →
        ∀ i ∈ siblings, p.indices[i]? = some k := by
  obtain ⟨e, he, hinv⟩ := expandMesh_inv p hp
  refine ⟨e, he, hinv.2.1, ?_⟩
  intro k siblings hk i hi
  exact ((expanded_ready p e e hp hinv (attributesChanged_refl e)).2 k siblings i hk hi).1

/-- The statement of C8 on `quad`. -/
theorem expandMesh_duplicatedVertices_witness :
    (∀ index ∈ quad.indices, index < vertexCount quad) ∧
      ∃ e, expandMesh quad = some e ∧ e.duplicatedVertices.length = vertexCount quad ∧
        ∀ (k : Nat) (siblings : List Nat), e.duplicatedVertices[k]? = some siblings →
          ∀ i ∈ siblings, quad.indices[i]? = some k :=
  ⟨by decide, expandMesh_duplicatedVertices quad (by decide)⟩

theorem collapse_emits_same (p out : LoadedPrimitive) (e m : ExpandedMesh)
    (hp : ∀ index ∈ p.indices, index < vertexCount p)
    (he : expandMesh p = some e) (hm : AttributesChanged e m) :
    ∃ out1 m1, collapseMesh out m = some (out1, m1) ∧
      ∀ (i : Nat) (c : ExpandedVertex), m.vertices[i]? = some c →
        ∃ k w, out1.indices[i]? = some k ∧ stored out1 k w ∧
          areSameVertices w c.vertex = true ∧
          (w = c.vertex ∨
            ∃ j cj, j < i ∧ m.vertices[j]? = some cj ∧
              cj.originalIndex = c.originalIndex ∧ cj.vertex = w) := by
  obtain ⟨e1, he1, hinvE⟩ := expandMesh_inv p hp
  rw [he] at he1
  cases he1
  obtain ⟨hready, hcons⟩ := expanded_ready p e m hp hinvE hm
  obtain ⟨st, hst, hinv⟩ := collapseMesh_inv out m hready
  refine ⟨st.out, st.mesh, hst, ?_⟩
  intro i c hc
  have hilt : i < st.out.indices.length := by
    rw [hinv.count]; exact (List.getElem?_eq_some.mp hc).1
  have hk : st.out.indices[i]? = some st.out.indices[i] := List.getElem?_eq_getElem hilt
  generalize st.out.indices[i] = k at hk
  obtain ⟨j, cj, ci, _, hj, hci, hnew, hcase⟩ := hinv.emitted i k hk
  have hstored := hinv.written j cj k hj hnew
  obtain ⟨ci0, hci0, hciv, hcio⟩ := hinv.frame i ci hci
  rw [hc] at hci0
  cases hci0
  refine ⟨k, cj.vertex, hk, hstored, ?_, ?_⟩
  · rcases hcase with hji | ⟨_, _, hsame⟩
    · subst hji
      rw [hj] at hci
      cases hci
      rw [hciv]
      exact areSameVertices_refl _
    · rw [← hciv]
      exact hsame
  · rcases hcase with hji | ⟨hlt, ⟨siblings, hsib, hjs⟩, _⟩
    · subst hji
      rw [hj] at hci
      cases hci
      exact Or.inl hciv
    · right
      obtain ⟨cj0, hcj0, hcjv, _⟩ := hinv.frame j cj hj
      rw [hcio] at hsib
      obtain ⟨_, cj1, hcj1, hcjo⟩ := hcons _ siblings j hsib hjs
      rw [hcj0] at hcj1
      cases hcj1
      exact ⟨j, cj0, hlt, hcj0, hcjo, hcjv.symm⟩

/-- C1. Round trip: for every primitive, rigid or skinned, whose indices are all
smaller than its vertex count, `expandMesh` and then `collapseMesh` with no
attribute change in between both return, the output has as many indices as the
input, and for every corner `i` the output vertex at `out.indices[i]` is the
source vertex at `p.indices[i]`, equal in every attribute. -/
theorem collapse_expand_round_trip (p : LoadedPrimitive)
    (hp : ∀ index ∈ p.indices, index < vertexCount p) :
    ∃ e out1 m1, expandMesh p = some e ∧ collapseMesh p e = some (out1, m1) ∧
      out1.indices.length = p.indices.length ∧
      ∀ (i index : Nat), p.indices[i]? = some index →
        ∃ k, out1.indices[i]? = some k ∧
          (p.isSkinned = true →
            ∃ v, p.skinnedVertices[index]? = some v ∧ out1.skinnedVertices[k]? = some v) ∧
          (p.isSkinned = false →
            ∃ v, p.vertices[index]? = some v ∧ out1.vertices[k]? = some v) := by
  obtain ⟨e, he, hinvE⟩ := expandMesh_inv p hp
  obtain ⟨hready, hcons⟩ := expanded_ready p e e hp hinvE (attributesChanged_refl e)
  obtain ⟨st, hst, hinv⟩ := collapseMesh_inv p e hready
  obtain ⟨hlen, _, _, hdone, _⟩ := hinvE
  refine ⟨e, st.out, st.mesh, he, hst, by rw [hinv.count, hlen], ?_⟩
  intro i index hi
  have hiI : i < p.indices.length := (List.getElem?_eq_some.mp hi).1
  have hilt : i < st.out.indices.length := by rw [hinv.count, hlen]; exact hiI
  have hk : st.out.indices[i]? = some st.out.indices[i] := List.getElem?_eq_getElem hilt
  generalize st.out.indices[i] = k at hk
  obtain ⟨sv, hsv, hei⟩ := hdone i hiI index hi
  obtain ⟨j, cj, ci, _, hj, hci, hnew, hcase⟩ := hinv.emitted i k hk
  have hstored := hinv.written j cj k hj hnew
  obtain ⟨ci0, hci0, hciv, hcio⟩ := hinv.frame i ci hci
  rw [hei] at hci0
  cases hci0
  have hcjv : cj.vertex = sv := by
    rcases hcase with hji | ⟨hlt, ⟨siblings, hsib, hjs⟩, _⟩
    · subst hji
      rw [hj] at hci
      cases hci
      exact hciv
    · obtain ⟨cj0, hcj0, hcjv, _⟩ := hinv.frame j cj hj
      rw [hcio] at hsib
      obtain ⟨hjidx, _⟩ := hcons _ siblings j hsib hjs
      have hjI : j < p.indices.length := (List.getElem?_eq_some.mp hjidx).1
      obtain ⟨sv1, hsv1, hej⟩ := hdone j hjI index hjidx
      rw [hsv] at hsv1
      cases hsv1
      rw [hej] at hcj0
      cases hcj0
      exact hcjv
  rw [hcjv] at hstored
  unfold stored at hstored
  rw [hinv.skinned] at hstored
  refine ⟨k, hk, ?_, ?_⟩
  · intro hs
    simp only [hs, if_true] at hstored
    simp only [sourceVertex, hs, if_true] at hsv
    exact ⟨sv, hsv, hstored⟩
  · intro hs
    simp only [hs, Bool.false_eq_true, if_false] at hstored
    simp only [sourceVertex, hs, Bool.false_eq_true, if_false] at hsv
    cases hv : p.vertices[index]? with
    | none => simp [hv] at hsv
    | some v =>
      simp only [hv, Option.map_some', Option.some.injEq] at hsv
      subst hsv
      exact ⟨v, rfl, hstored⟩

/-- The statement of C1 on `quad`. -/
theorem collapse_expand_round_trip_witness :
    (∀ index ∈ quad.indices, index < vertexCount quad) ∧
      ∃ e out1 m1, expandMesh quad = some e ∧ collapseMesh quad e = some (out1, m1) ∧
        out1.indices.length = quad.indices.length ∧
        ∀ (i index : Nat), quad.indices[i]? = some index →
          ∃ k, out1.indices[i]? = some k ∧
            (quad.isSkinned = true →
              ∃ v, quad.skinnedVertices[index]? = some v ∧
                out1.skinnedVertices[k]? = some v) ∧
            (quad.isSkinned = false →
              ∃ v, quad.vertices[index]? = some v ∧ out1.vertices[k]? = some v) :=
  ⟨by decide, collapse_expand_round_trip quad (by decide)⟩

theorem collapse_unchanged_bound (p : LoadedPrimitive) (e : ExpandedMesh) (isSk : Bool)
    (st : CollapseState) (hp : ∀ index ∈ p.indices, index < vertexCount p)
    (hinvE : ExpandInv p p.indices.length e)
    (hinv : CollapseInv e isSk e.vertices.length st) :
    st.nextIndex ≤ vertexCount p := by
  obtain ⟨hlen, hdlen, _, hdone, hdup⟩ := hinvE
  have hcov := hinv.covered
  choose! wj wc hw using hcov
  have hcorner : ∀ k, k < st.nextIndex →
      wj k < p.indices.length ∧ p.indices[wj k]? = some (wc k).originalIndex ∧
        sourceVertex p (wc k).originalIndex = some (wc k).vertex := by
    intro k hk
    obtain ⟨hget, _⟩ := hw k hk
    obtain ⟨c0, hc0, hv, ho⟩ := hinv.frame _ _ hget
    have hj : wj k < p.indices.length := by
      rw [← hlen]; exact (List.getElem?_eq_some.mp hc0).1
    obtain ⟨sv, hsv, hej⟩ := hdone _ hj _ (List.getElem?_eq_getElem hj)
    rw [hc0] at hej
    cases hej
    refine ⟨hj, ?_, ?_⟩
    · rw [ho]; exact List.getElem?_eq_getElem hj
    · rw [ho, hv]; exact hsv
  have hlt : ∀ a b, a < st.nextIndex → b < st.nextIndex →
      (wc a).originalIndex = (wc b).originalIndex → wj a < wj b → False := by
    intro a b ha hb hab hjj
    obtain ⟨hga, hna⟩ := hw a ha
    obtain ⟨hgb, hnb⟩ := hw b hb
    obtain ⟨hja, hia, hsa⟩ := hcorner a ha
    obtain ⟨_, hib, hsb⟩ := hcorner b hb
    have hob : (wc b).originalIndex < vertexCount p :=
      hp _ (List.mem_iff_getElem?.mpr ⟨_, hib⟩)
    have hmem : wj a ∈ (List.range p.indices.length).filter
        fun i => p.indices[i]? == some (wc b).originalIndex := by
      rw [List.mem_filter]
      exact ⟨List.mem_range.mpr hja, by rw [hia, hab]; simp⟩
    have hfalse := hinv.distinct (wj b) (wc b) b (wj a) (wc a) a _ hgb hnb
      (hdup _ hob) hmem hga hna hjj
    have hveq : (wc a).vertex = (wc b).vertex := by
      rw [hab, hsb] at hsa
      exact (Option.some.inj hsa).symm
    rw [hveq, areSameVertices_refl] at hfalse
    cases hfalse
  have hcard := Finset.card_le_card_of_injOn (s := Finset.range st.nextIndex)
    (t := Finset.range (vertexCount p)) (fun k => (wc k).originalIndex)
    (by
      intro k hk
      have hk1 : k < st.nextIndex := Finset.mem_range.mp (Finset.mem_coe.mp hk)
      obtain ⟨_, hik, _⟩ := hcorner k hk1
      exact Finset.mem_coe.mpr (Finset.mem_range.mpr (hp _ (List.mem_iff_getElem?.mpr ⟨_, hik⟩))))
    (by
      intro a ha b hb hab
      have ha1 : a < st.nextIndex := Finset.mem_range.mp (Finset.mem_coe.mp ha)
      have hb1 : b < st.nextIndex := Finset.mem_range.mp (Finset.mem_coe.mp hb)
      simp only [] at hab
      rcases Nat.lt_trichotomy (wj a) (wj b) with h | h | h
      · exact absurd (hlt a b ha1 hb1 hab h) id
      · have h1 := (hw a ha1)
        have h2 := (hw b hb1)
        rw [h, h2.1] at h1
        have hc : wc b = wc a := Option.some.inj h1.1
        rw [← hc, h2.2] at h1
        exact (Option.some.inj h1.2).symm
      · exact absurd (hlt b a hb1 ha1 hab.symm h) id)
  simpa using hcard

/-- C5, as stated, fails: `hardEdge` has 4 source vertices; once its soup carries
the face normals, `collapseMesh` writes 6 vertices. -/
theorem collapseMesh_exceeds_source_count :
    vertexCount hardEdge = 4 ∧ expandMesh hardEdge = some hardEdgeSoup ∧
      AttributesChanged hardEdgeSoup hardEdgeFlat ∧
      (collapseMesh hardEdge hardEdgeFlat).map (fun r => vertexCount r.1) = some 6 := by
  decide!

/-- C5, amended. For every primitive with in-range indices, after `expandMesh`,
any change of the per-corner attributes and `collapseMesh`, the output vertex
buffer has at most as many vertices as the primitive has indices; it has at
most `N`, the source vertex count, when no attribute was changed. -/
theorem collapseMesh_vertex_bound (p out : LoadedPrimitive) (e m : ExpandedMesh)
    (hp : ∀ index ∈ p.indices, index < vertexCount p)
    (he : expandMesh p = some e) (hm : AttributesChanged e m) :
    ∃ out1 m1, collapseMesh out m = some (out1, m1) ∧
      vertexCount out1 ≤ p.indices.length ∧ (m = e → vertexCount out1 ≤ vertexCount p) := by
  obtain ⟨e1, he1, hinvE⟩ := expandMesh_inv p hp
  rw [he] at he1
  cases he1
  obtain ⟨hready, _⟩ := expanded_ready p e m hp hinvE hm
  obtain ⟨st, hst, hinv⟩ := collapseMesh_inv out m hready
  refine ⟨st.out, st.mesh, hst, ?_, ?_⟩
  · rw [hinv.size, ← hinvE.1, ← (attributesChanged_get e m hm).1]
    exact hinv.bound
  · intro hme
    subst hme
    rw [hinv.size]
    exact collapse_unchanged_bound p m out.isSkinned st hp hinvE hinv

/-- The amended statement of C5 on the soup of `hardEdge` carrying its face
normals. -/
theorem collapseMesh_vertex_bound_witness :
    (∀ index ∈ hardEdge.indices, index < vertexCount hardEdge) ∧
      ∃ out1 m1, collapseMesh hardEdge hardEdgeFlat = some (out1, m1) ∧
        vertexCount out1 ≤ hardEdge.indices.length ∧
        (hardEdgeFlat = hardEdgeSoup → vertexCount out1 ≤ vertexCount hardEdge) :=
  ⟨by decide, collapseMesh_vertex_bound hardEdge hardEdge hardEdgeSoup hardEdgeFlat
    (by decide) (by decide) (by decide)⟩

/-- C4, as stated, fails: two vertices whose positions differ by `5 * 10^-6` in
one component, and by nothing else, are the same for `areSameVertices`,
although the difference is not below `10^-6`. -/
theorem areSameVertices_accepts_five_millionths :
    areSameVertices originVertex nudgedVertex = true ∧
      ¬ sameWithin (1 / 10 ^ 6) originVertex nudgedVertex := by
  decide!

/-- The fourth bone weight is not compared: two skinned vertices that differ
only in their fourth bone weight, by `0.5`, are the same for
`areSameVertices`. -/
theorem areSameVertices_ignores_fourth_weight :
    areSameVertices originVertex reweightedVertex = true ∧
      ¬ sameWithin (2748779 / 2 ^ 38) originVertex reweightedVertex := by
  decide!

theorem cross_second_corner (ab ac : Vec3) :
    cross (sub3 ac ab) (neg3 ab) = cross ab ac := by
  simp only [cross, sub3, neg3, Vec3.mk.injEq]
  refine ⟨?_, ?_, ?_⟩ <;> ring

theorem cross_third_corner (ab ac : Vec3) :
    cross ac (neg3 (sub3 ac ab)) = neg3 (cross ab ac) := by
  simp only [cross, sub3, neg3, Vec3.mk.injEq]
  refine ⟨?_, ?_, ?_⟩ <;> ring

theorem normalize_neg3 (inversesqrt : ℚ → ℚ) (v : Vec3) :
    normalize inversesqrt (neg3 v) = neg3 (normalize inversesqrt v) := by
  have hdot : dot (neg3 v) (neg3 v) = dot v v := by
    simp only [dot, neg3]
    ring
  simp only [glm.normalize, hdot]
  simp only [neg3, Vec3.mk.injEq]
  refine ⟨?_, ?_, ?_⟩ <;> ring

theorem sub3_edges (a b c : Vec3) : sub3 c b = sub3 (sub3 c a) (sub3 b a) := by
  simp only [sub3, Vec3.mk.injEq]
  refine ⟨?_, ?_, ?_⟩ <;> ring

/-- On a soup of one triangle `(a, b, c)`, `generateFlatNormals` gives the
corners `a` and `b` the normal `normalize(cross(AB, AC))` and the corner `c`
its exact opposite, whatever the triangle and whatever `inversesqrt`. -/
theorem generateFlatNormals_third_corner_opposite (inversesqrt : ℚ → ℚ)
    (a b c : ExpandedVertex) (dup : List (List Nat)) :
    (generateFlatNormals inversesqrt { vertices := [a, b, c], duplicatedVertices := dup }).map
        cornerNormals =
      some
        [normalize inversesqrt (cross (sub3 b.vertex.pos a.vertex.pos)
            (sub3 c.vertex.pos a.vertex.pos)),
         normalize inversesqrt (cross (sub3 b.vertex.pos a.vertex.pos)
            (sub3 c.vertex.pos a.vertex.pos)),
         neg3 (normalize inversesqrt (cross (sub3 b.vertex.pos a.vertex.pos)
            (sub3 c.vertex.pos a.vertex.pos)))] := by
  have hrange : List.range (3 / 3) = [0] := by decide
  have h2 := cross_second_corner (sub3 b.vertex.pos a.vertex.pos) (sub3 c.vertex.pos a.vertex.pos)
  have h3 := cross_third_corner (sub3 b.vertex.pos a.vertex.pos) (sub3 c.vertex.pos a.vertex.pos)
  rw [← sub3_edges] at h2 h3
  simp [generateFlatNormals, flatNormalsStep, hrange, cornerNormals, h2, h3, normalize_neg3]

/-- C9, the code at the unit triangle: the corners `A` and `B` get the normal
`(0, 0, s)` and the corner `C` gets `(0, 0, -s)`, where `s = inversesqrt(1)`;
with `s = 1` these are `(0,0,1)`, `(0,0,1)` and `(0,0,-1)`. -/
theorem generateFlatNormals_unit_triangle (inversesqrt : ℚ → ℚ) :
    expandMesh unitTriangle = some unitTriangleSoup ∧
      (generateFlatNormals inversesqrt unitTriangleSoup).map cornerNormals =
        some
          [{ x := 0, y := 0, z := inversesqrt 1 }, { x := 0, y := 0, z := inversesqrt 1 },
           { x := 0, y := 0, z := -inversesqrt 1 }] := by
  refine ⟨by decide, ?_⟩
  have hrange : List.range (3 / 3) = [0] := by decide
  simp [generateFlatNormals, flatNormalsStep, hrange, cornerNormals, unitTriangleSoup, cornerOf,
    bareVertex, glm.normalize, cross, sub3, neg3, dot]

theorem scanCollinear_any (vertices : List ExpandedVertex) (faces : List Nat)
    (h : ∀ t ∈ faces, t * 3 + 2 < vertices.length) :
    scanCollinear vertices faces =
      some (faces.any fun t =>
        [t * 3 + 0, t * 3 + 1, t * 3 + 2].any fun i =>
          match vertices[i]? with
          | some c => isCloseToCollinear c.vertex.normal c.vertex.tangent.xyz
          | none => false) := by
  induction faces with
  | nil => rfl
  | cons t rest ih =>
    have ht := h t (List.mem_cons_self _ _)
    have h0 : vertices[t * 3 + 0]? = some vertices[t * 3 + 0] :=
      List.getElem?_eq_getElem (by omega)
    have h1 : vertices[t * 3 + 1]? = some vertices[t * 3 + 1] :=
      List.getElem?_eq_getElem (by omega)
    have h2 : vertices[t * 3 + 2]? = some vertices[t * 3 + 2] :=
      List.getElem?_eq_getElem (by omega)
    have ih1 := ih (fun s hs => h s (List.mem_cons_of_mem _ hs))
    unfold scanCollinear
    rw [h0, h1, h2]
    simp only [Option.bind_eq_bind, Option.some_bind, ih1, List.any_cons, List.any_nil,
      h0, h1, h2, Bool.or_false]
    cases isCloseToCollinear (vertices[t * 3 + 0]).vertex.normal
        (vertices[t * 3 + 0]).vertex.tangent.xyz <;>
      cases isCloseToCollinear (vertices[t * 3 + 1]).vertex.normal
        (vertices[t * 3 + 1]).vertex.tangent.xyz <;>
      cases isCloseToCollinear (vertices[t * 3 + 2]).vertex.normal
        (vertices[t * 3 + 2]).vertex.tangent.xyz <;>
      simp

theorem needsRegeneration_any (mesh : ExpandedMesh) (h3 : mesh.vertices.length % 3 = 0) :
    needsRegeneration mesh =
      some (mesh.vertices.any fun c =>
        isCloseToCollinear c.vertex.normal c.vertex.tangent.xyz) := by
  unfold needsRegeneration
  rw [if_pos h3, scanCollinear_any mesh.vertices _ (by
    intro t ht
    have := List.mem_range.mp ht
    omega)]
  congr 1
  rw [Bool.eq_iff_iff]
  simp only [List.any_eq_true, List.mem_range, List.mem_cons, List.mem_singleton,
    List.not_mem_nil, or_false]
  constructor
  · rintro ⟨t, _, i, _, hi⟩
    cases hg : mesh.vertices[i]? with
    | none => simp [hg] at hi
    | some c =>
      simp only [hg] at hi
      exact ⟨c, List.mem_iff_getElem?.mpr ⟨i, hg⟩, hi⟩
  · rintro ⟨c, hc, hflag⟩
    obtain ⟨i, hi⟩ := List.mem_iff_getElem?.mp hc
    have hilt : i < mesh.vertices.length := (List.getElem?_eq_some.mp hi).1
    refine ⟨i / 3, by omega, i, by omega, ?_⟩
    simp only [hi]
    exact hflag

/-- The tolerance of the detection is the literal `10e-12f`, about `10^-11`:
in `faintTangentSoup` no corner has a rejection of its tangent against its
normal with every component below `10^-12` (the rejection is the tangent
itself, `(5 * 10^-12, 0, 0)`), and yet the mesh is flagged. -/
theorem cleanupTangents_flags_above_spec_tolerance :
    needsRegeneration faintTangentSoup = some true ∧
      (faintTangentSoup.vertices.any fun c =>
        collinearSpec (1 / 10 ^ 12) c.vertex.normal c.vertex.tangent.xyz) = false := by
  decide!

theorem setTangent_eq (vertices : List ExpandedVertex) (k : Nat) (tangentW : Vec4)
    (c : ExpandedVertex) (h : vertices[k]? = some c) :
    setTangent vertices k tangentW = some (vertices.set k (withTangent c tangentW)) := by
  simp [setTangent, h, withTangent]

theorem regenerateStep_eq (inversesqrt : ℚ → ℚ) (m : ExpandedMesh) (t : Nat)
    (c0 c1 c2 : ExpandedVertex)
    (h0 : m.vertices[t * 3 + 0]? = some c0) (h1 : m.vertices[t * 3 + 1]? = some c1)
    (h2 : m.vertices[t * 3 + 2]? = some c2) :
    regenerateStep inversesqrt m t =
      some
        { m with
          vertices :=
            ((m.vertices.set (t * 3 + 0)
                (withTangent c0
                  (vec4 (normalize inversesqrt (sub3 c1.vertex.pos c0.vertex.pos)) 1))).set
              (t * 3 + 1)
                (withTangent c1
                  (vec4 (normalize inversesqrt (sub3 c1.vertex.pos c0.vertex.pos)) 1))).set
              (t * 3 + 2)
                (withTangent c2
                  (vec4 (normalize inversesqrt (sub3 c1.vertex.pos c0.vertex.pos)) 1)) } := by
  have k0 : t * 3 + 0 < m.vertices.length := (List.getElem?_eq_some.mp h0).1
  have k1 : t * 3 + 1 < m.vertices.length := (List.getElem?_eq_some.mp h1).1
  have k2 : t * 3 + 2 < m.vertices.length := (List.getElem?_eq_some.mp h2).1
  unfold regenerateStep
  rw [h0, h1]
  simp only [Option.bind_eq_bind, Option.some_bind]
  rw [setTangent_eq _ _ _ c0 h0]
  simp only [Option.some_bind]
  have h1a : (m.vertices.set (t * 3 + 0)
      (withTangent c0 (vec4 (normalize inversesqrt (sub3 c1.vertex.pos c0.vertex.pos)) 1)))[
        t * 3 + 1]? = some c1 := by
    rw [List.getElem?_set_ne (by omega)]; exact h1
  rw [setTangent_eq _ _ _ c1 h1a]
  simp only [Option.some_bind]
  have h2a : ((m.vertices.set (t * 3 + 0)
      (withTangent c0 (vec4 (normalize inversesqrt (sub3 c1.vertex.pos c0.vertex.pos)) 1))).set
        (t * 3 + 1)
        (withTangent c1 (vec4 (normalize inversesqrt (sub3 c1.vertex.pos c0.vertex.pos)) 1)))[
        t * 3 + 2]? = some c2 := by
    rw [List.getElem?_set_ne (by omega), List.getElem?_set_ne (by omega)]; exact h2
  rw [setTangent_eq _ _ _ c2 h2a]
  rfl

theorem regenerateInv_step (inversesqrt : ℚ → ℚ) (m0 m : ExpandedMesh) (n : Nat)
    (hn : n * 3 + 2 < m0.vertices.length) (hinv : RegenerateInv inversesqrt m0 n m) :
    ∃ m1, regenerateStep inversesqrt m n = some m1 ∧
      RegenerateInv inversesqrt m0 (n + 1) m1 := by
  obtain ⟨hdup, hlen, hv⟩ := hinv
  have g0 : m0.vertices[n * 3 + 0]? = some m0.vertices[n * 3 + 0] :=
    List.getElem?_eq_getElem (by omega)
  have g1 : m0.vertices[n * 3 + 1]? = some m0.vertices[n * 3 + 1] :=
    List.getElem?_eq_getElem (by omega)
  have g2 : m0.vertices[n * 3 + 2]? = some m0.vertices[n * 3 + 2] :=
    List.getElem?_eq_getElem (by omega)
  generalize m0.vertices[n * 3 + 0] = c0 at g0
  generalize m0.vertices[n * 3 + 1] = c1 at g1
  generalize m0.vertices[n * 3 + 2] = c2 at g2
  have h0 := (hv _ c0 g0).1 (by omega)
  have h1 := (hv _ c1 g1).1 (by omega)
  have h2 := (hv _ c2 g2).1 (by omega)
  have hedge : edgeTangent inversesqrt m0.vertices n =
      some (vec4 (normalize inversesqrt (sub3 c1.vertex.pos c0.vertex.pos)) 1) := by
    have g0a : m0.vertices[n * 3]? = some c0 := g0
    simp [edgeTangent, g0a, g1]
  refine ⟨_, regenerateStep_eq inversesqrt m n c0 c1 c2 h0 h1 h2, hdup, ?_, ?_⟩
  · simp [hlen]
  · intro i c hi
    have hilt : i < m.vertices.length := by
      rw [hlen]; exact (List.getElem?_eq_some.mp hi).1
    constructor
    · intro hge
      simp only []
      rw [List.getElem?_set_ne (by omega), List.getElem?_set_ne (by omega),
        List.getElem?_set_ne (by omega)]
      exact (hv i c hi).1 (by omega)
    · intro hlt
      by_cases hold : i < n * 3
      · obtain ⟨tw, htw, hget⟩ := (hv i c hi).2 hold
        refine ⟨tw, htw, ?_⟩
        simp only []
        rw [List.getElem?_set_ne (by omega), List.getElem?_set_ne (by omega),
          List.getElem?_set_ne (by omega)]
        exact hget
      · have hdiv : i / 3 = n := by omega
        rw [hdiv]
        refine ⟨_, hedge, ?_⟩
        simp only []
        have hcases : i = n * 3 + 0 ∨ i = n * 3 + 1 ∨ i = n * 3 + 2 := by omega
        rcases hcases with h | h | h
        · subst h
          rw [g0] at hi
          cases hi
          rw [List.getElem?_set_ne (by omega), List.getElem?_set_ne (by omega)]
          simp only [List.getElem?_set, if_true]
          rw [if_pos (by omega)]
        · subst h
          rw [g1] at hi
          cases hi
          rw [List.getElem?_set_ne (by omega)]
          simp only [List.getElem?_set, if_true, List.length_set]
          rw [if_pos (by omega)]
        · subst h
          rw [g2] at hi
          cases hi
          simp only [List.getElem?_set, if_true, List.length_set]
          rw [if_pos (by omega)]

theorem regenerate_fold (inversesqrt : ℚ → ℚ) (m0 : ExpandedMesh) (n : Nat)
    (hn : n * 3 ≤ m0.vertices.length) :
    ∃ m, (List.range n).foldlM (regenerateStep inversesqrt) m0 = some m ∧
      RegenerateInv inversesqrt m0 n m := by
  induction n with
  | zero =>
    refine ⟨m0, rfl, rfl, rfl, ?_⟩
    intro i c hi
    exact ⟨fun _ => hi, fun h => absurd h (by omega)⟩
  | succ n ih =>
    obtain ⟨m, hm, hinv⟩ := ih (by omega)
    obtain ⟨m1, hstep, hinv1⟩ := regenerateInv_step inversesqrt m0 m n (by omega) hinv
    refine ⟨m1, ?_, hinv1⟩
    rw [List.range_succ, List.foldlM_append, hm]
    simp [hstep]

theorem cleanupTangents_result (inversesqrt : ℚ → ℚ) (mesh : ExpandedMesh)
    (h3 : mesh.vertices.length % 3 = 0) :
    (needsRegeneration mesh = some true ∧
        ∃ out, cleanupTangents inversesqrt mesh = some out ∧
          RegenerateInv inversesqrt mesh (mesh.vertices.length / 3) out) ∨
      (needsRegeneration mesh = some false ∧ cleanupTangents inversesqrt mesh = some mesh) := by
  have hneeds := needsRegeneration_any mesh h3
  cases hflag : (mesh.vertices.any fun c =>
      isCloseToCollinear c.vertex.normal c.vertex.tangent.xyz) with
  | true =>
    rw [hflag] at hneeds
    left
    obtain ⟨out, hout, hinv⟩ :=
      regenerate_fold inversesqrt mesh (mesh.vertices.length / 3) (by omega)
    refine ⟨hneeds, out, ?_, hinv⟩
    unfold cleanupTangents
    rw [hneeds]
    simpa using hout
  | false =>
    rw [hflag] at hneeds
    right
    refine ⟨hneeds, ?_⟩
    unfold cleanupTangents
    rw [hneeds]
    rfl

/-- C11. For every soup whose size is a multiple of 3, `cleanupTangents`
returns; when it flags the soup, every corner ends with the tangent
`(normalize(V1.pos - V0.pos), 1)` of the `V0`, `V1` of its own triangle, and
when it does not, every corner is unchanged; in both cases the corner is
otherwise the corner it was (position, normal, UV, color, bone data,
`originalIndex`, `newIndex`) and the sibling lists are unchanged. -/
theorem cleanupTangents_frame (inversesqrt : ℚ → ℚ) (mesh : ExpandedMesh)
    (h3 : mesh.vertices.length % 3 = 0) :
    ∃ flagged out, needsRegeneration mesh = some flagged ∧
      cleanupTangents inversesqrt mesh = some out ∧
      out.duplicatedVertices = mesh.duplicatedVertices ∧
      out.vertices.length = mesh.vertices.length ∧
      ∀ (i : Nat) (c : ExpandedVertex), mesh.vertices[i]? = some c →
        (flagged = true → ∃ v0 v1, mesh.vertices[i / 3 * 3 + 0]? = some v0 ∧
          mesh.vertices[i / 3 * 3 + 1]? = some v1 ∧
          out.vertices[i]? = some
            { c with
              vertex :=
                { c.vertex with
                  tangent :=
                    vec4 (normalize inversesqrt (sub3 v1.vertex.pos v0.vertex.pos)) 1 } }) ∧
        (flagged = false → out.vertices[i]? = some c) := by
  rcases cleanupTangents_result inversesqrt mesh h3 with ⟨hn, out, hout, hdup, hlen, hv⟩ | ⟨hn, hout⟩
  · refine ⟨true, out, hn, hout, hdup, hlen, ?_⟩
    intro i c hi
    refine ⟨fun _ => ?_, fun h => Bool.noConfusion h⟩
    have hilt : i < mesh.vertices.length := (List.getElem?_eq_some.mp hi).1
    obtain ⟨tw, htw, hget⟩ := (hv i c hi).2 (by omega)
    have g0 : mesh.vertices[i / 3 * 3 + 0]? = some mesh.vertices[i / 3 * 3 + 0] :=
      List.getElem?_eq_getElem (by omega)
    have g1 : mesh.vertices[i / 3 * 3 + 1]? = some mesh.vertices[i / 3 * 3 + 1] :=
      List.getElem?_eq_getElem (by omega)
    refine ⟨_, _, g0, g1, ?_⟩
    simp only [edgeTangent, Option.bind_eq_bind] at htw
    rw [g0, Option.some_bind, g1, Option.some_bind] at htw
    rw [hget, ← Option.some.inj htw]
    rfl
  · refine ⟨false, mesh, hn, hout, rfl, rfl, ?_⟩
    intro i c hi
    exact ⟨fun h => Bool.noConfusion h, fun _ => hi⟩

/-- The statement of C11 on a soup whose tangents equal its normals. -/
theorem cleanupTangents_frame_witness :
    alignedTangentSoup.vertices.length % 3 = 0 ∧
      ∃ flagged out, needsRegeneration alignedTangentSoup = some flagged ∧
        cleanupTangents (fun _ => 1) alignedTangentSoup = some out ∧
        out.duplicatedVertices = alignedTangentSoup.duplicatedVertices ∧
        out.vertices.length = alignedTangentSoup.vertices.length ∧
        ∀ (i : Nat) (c : ExpandedVertex), alignedTangentSoup.vertices[i]? = some c →
          (flagged = true → ∃ v0 v1, alignedTangentSoup.vertices[i / 3 * 3 + 0]? = some v0 ∧
            alignedTangentSoup.vertices[i / 3 * 3 + 1]? = some v1 ∧
            out.vertices[i]? = some
              { c with
                vertex :=
                  { c.vertex with
                    tangent := vec4 (normalize (fun _ => 1)
                      (sub3 v1.vertex.pos v0.vertex.pos)) 1 } }) ∧
          (flagged = false → out.vertices[i]? = some c) :=
  ⟨by decide, cleanupTangents_frame (fun _ => 1) alignedTangentSoup (by decide)⟩

theorem adjacency_fold_length (edges2Meshlets : List (MeshletEdge × List Nat))
    (meshlets2Edges : List (Nat × List MeshletEdge)) (l : List Nat) (acc : Adjacency) :
    (l.foldl (addMeshletAdjacency edges2Meshlets meshlets2Edges) acc).xadjacency.length =
      acc.xadjacency.length + l.length := by
  induction l generalizing acc with
  | nil => simp
  | cons a rest ih =>
    rw [List.foldl_cons, ih]
    simp [addMeshletAdjacency]
    omega

theorem buildAdjacency_length (edges2Meshlets : List (MeshletEdge × List Nat))
    (meshlets2Edges : List (Nat × List MeshletEdge)) (meshletCount : Nat) :
    (buildAdjacency edges2Meshlets meshlets2Edges meshletCount).xadjacency.length =
      meshletCount + 1 := by
  simp [buildAdjacency, adjacency_fold_length]

theorem collect_fold (partition : List Nat) (nparts meshletCount : Nat)
    (hlen : partition.length = meshletCount) (hrange : ∀ x ∈ partition, x < nparts)
    (k : Nat) (hk : k ≤ meshletCount) :
    ∃ groups, (List.range k).foldlM
        (fun groups i => do
          let partitionNumber ← partition[i]?
          let group ← groups[partitionNumber]?
          some (groups.set partitionNumber { meshlets := group.meshlets ++ [i] }))
        (List.replicate nparts ({ meshlets := [] } : MeshletGroup)) = some groups ∧
      CollectInv partition nparts k groups := by
  induction k with
  | zero =>
    refine ⟨_, rfl, by simp, ?_⟩
    intro p hp
    simp [List.getElem?_replicate, hp]
  | succ k ih =>
    obtain ⟨groups, hfold, hglen, hg⟩ := ih (by omega)
    have hklt : k < partition.length := by omega
    have hpk : partition[k]? = some partition[k] := List.getElem?_eq_getElem hklt
    have hplt : partition[k] < nparts := hrange _ (List.getElem_mem hklt)
    rw [List.range_succ, List.foldlM_append, hfold]
    simp only [Option.bind_eq_bind, Option.some_bind, List.foldlM_cons, List.foldlM_nil, hpk,
      hg _ hplt, Option.pure_def, Option.bind_some]
    refine ⟨_, rfl, by simp [hglen], ?_⟩
    intro p hp
    simp only [List.getElem?_set, List.filter_append, hglen]
    by_cases hpe : partition[k] = p
    · subst hpe
      simp [hplt, hpk, List.range_succ, List.filter_append]
    · simp only [hpe, if_false]
      rw [hg p hp]
      simp [hpk, hpe, List.range_succ, List.filter_append]

/-- C15. For every range of fewer than 8 meshlets, the empty range included,
`groupMeshlets` returns exactly one group, whose meshlet list is
`[0, 1, ..., n-1]`, whatever the meshlets contain; the partitioner is not
reached. -/
theorem groupMeshlets_short_circuit (partitioner : PartitionRequest → Option (List Nat))
    (primitive : LoadedPrimitive) (meshlets : List Meshlet) (h : meshlets.length < 8) :
    groupMeshlets partitioner primitive meshlets =
        some [{ meshlets := List.range meshlets.length }] ∧
      partitionRequest primitive meshlets = some none := by
  have hreq : partitionRequest primitive meshlets = some none := by
    unfold partitionRequest
    rw [if_pos h]
  refine ⟨?_, hreq⟩
  unfold groupMeshlets
  rw [hreq]
  rfl

/-- The statement of C15 on the first seven meshlets of the strip. -/
theorem groupMeshlets_short_circuit_witness :
    (stripMeshlets.take 7).length < 8 ∧
      groupMeshlets (fun _ => none) stripPrimitive (stripMeshlets.take 7) =
        some [{ meshlets := [0, 1, 2, 3, 4, 5, 6] }] :=
  ⟨by decide, (groupMeshlets_short_circuit (fun _ => none) stripPrimitive (stripMeshlets.take 7)
    (by decide)).1⟩

/-- C16. For every range of `n >= 8` meshlets that reaches the partitioning
step (the edge scan succeeds and some edge is left after the erase), the
request to the partitioner asks for `floor(n / 4)` parts, which is at least 2,
so that no assertion fails before the call; and for every answer of the
partitioner with `n` entries, all in `[0, floor(n/4))`, `groupMeshlets`
returns exactly `floor(n/4)` groups, group `p` being the increasing list of
the `v` with `partition[v] = p`, so that every meshlet is in exactly one
group. For `n = 64` there are 16 groups. -/
theorem groupMeshlets_partition (partitioner : PartitionRequest → Option (List Nat))
    (primitive : LoadedPrimitive) (meshlets : List Meshlet) (maps : EdgeMaps)
    (hn : 8 ≤ meshlets.length) (hmaps : buildEdgeMaps primitive meshlets = some maps)
    (hkept : eraseUnshared maps.edges2Meshlets ≠ []) :
    ∃ request, partitionRequest primitive meshlets = some (some request) ∧
      request.nparts = meshlets.length / 4 ∧ 2 ≤ request.nparts ∧
      ∀ partition, partitioner request = some partition →
        partition.length = meshlets.length →
        (∀ x ∈ partition, x < meshlets.length / 4) →
        ∃ groups, groupMeshlets partitioner primitive meshlets = some groups ∧
          groups.length = meshlets.length / 4 ∧
          (∀ (p : Nat), p < meshlets.length / 4 →
            groups[p]? = some
              { meshlets :=
                  (List.range meshlets.length).filter fun v => partition[v]? == some p }) ∧
          (∀ (v : Nat), v < meshlets.length →
            ∃ p, p < meshlets.length / 4 ∧
              ∀ (q : Nat) (group : MeshletGroup), groups[q]? = some group →
                (v ∈ group.meshlets ↔ q = p)) ∧
          (meshlets.length = 64 → groups.length = 16) := by
  have hparts : 1 < meshlets.length / 4 := by omega
  have hnot : ¬ meshlets.length < 8 := by omega
  have hempty : (eraseUnshared maps.edges2Meshlets).isEmpty = false := by
    cases hk : eraseUnshared maps.edges2Meshlets with
    | nil => exact absurd hk hkept
    | cons a rest => rfl
  have hreq : partitionRequest primitive meshlets = some (some
      { vertexCount := meshlets.length
        ncon := 1
        xadjacency :=
          (buildAdjacency (eraseUnshared maps.edges2Meshlets) maps.meshlets2Edges
            meshlets.length).xadjacency
        edgeAdjacency :=
          (buildAdjacency (eraseUnshared maps.edges2Meshlets) maps.meshlets2Edges
            meshlets.length).edgeAdjacency
        nparts := meshlets.length / 4 }) := by
    unfold partitionRequest
    rw [if_neg hnot, hmaps]
    simp only [hempty]
    rw [if_neg (by simp), if_pos hparts, if_pos (buildAdjacency_length _ _ _)]
  refine ⟨_, hreq, rfl, hparts, ?_⟩
  intro partition hanswer hlen hrange
  obtain ⟨groups, hfold, hglen, hg⟩ :=
    collect_fold partition (meshlets.length / 4) meshlets.length hlen hrange meshlets.length
      le_rfl
  refine ⟨groups, ?_, hglen, hg, ?_, fun h64 => by rw [hglen, h64]⟩
  · unfold groupMeshlets
    rw [hreq]
    simp only [hanswer]
    exact hfold
  · intro v hv
    have hvlt : v < partition.length := by omega
    have hpv : partition[v]? = some partition[v] := List.getElem?_eq_getElem hvlt
    refine ⟨partition[v], hrange _ (List.getElem_mem hvlt), ?_⟩
    intro q group hq
    have hqlt : q < meshlets.length / 4 := by
      rw [← hglen]; exact (List.getElem?_eq_some.mp hq).1
    rw [hg q hqlt] at hq
    cases hq
    simp only [List.mem_filter, List.mem_range, hv, true_and, hpv, beq_iff_eq,
      Option.some.injEq]
    exact eq_comm

/-- The statement of C16 on the strip of eight meshlets, the partitioner
answering `[0, 0, 0, 0, 1, 1, 1, 1]`. -/
theorem groupMeshlets_partition_witness :
    8 ≤ stripMeshlets.length ∧ buildEdgeMaps stripPrimitive stripMeshlets = some stripMaps ∧
      eraseUnshared stripMaps.edges2Meshlets ≠ [] ∧
      groupMeshlets (fun _ => some [0, 0, 0, 0, 1, 1, 1, 1]) stripPrimitive stripMeshlets =
        some [{ meshlets := [0, 1, 2, 3] }, { meshlets := [4, 5, 6, 7] }] := by
  refine ⟨by decide, by decide, by decide, ?_⟩
  obtain ⟨request, _, _, _, h⟩ :=
    groupMeshlets_partition (fun _ => some [0, 0, 0, 0, 1, 1, 1, 1]) stripPrimitive
      stripMeshlets stripMaps (by decide) (by decide) (by decide)
  obtain ⟨groups, hgroups, _, _, _, _⟩ := h [0, 0, 0, 0, 1, 1, 1, 1] rfl (by decide) (by decide)
  rw [hgroups]
  have : groupMeshlets (fun _ => some [0, 0, 0, 0, 1, 1, 1, 1]) stripPrimitive stripMeshlets =
      some [{ meshlets := [0, 1, 2, 3] }, { meshlets := [4, 5, 6, 7] }] := by decide
  rw [hgroups] at this
  exact this

/-- C13, the code on the strip of eight meshlets. Meshlets 1 and 2 share the
edge `(2, 3)`. The slice of meshlet 1, `adjncy[1 .. 3) = [0, 2]`, lists
meshlet 2, but the slice of meshlet 2, `adjncy[3 .. 4) = [3]`, does not list
meshlet 1, which `std::find` finds in the slice of meshlet 0; and the slice
of meshlet 7, `adjncy[8 .. 8)`, is empty although meshlet 7 shares an edge
with meshlet 6. -/
theorem groupMeshlets_strip_adjacency :
    List.lookup { first := 2, second := 3 } stripMaps.edges2Meshlets = some [1, 2] ∧
      List.lookup { first := 7, second := 8 } stripMaps.edges2Meshlets = some [6, 7] ∧
      partitionRequest stripPrimitive stripMeshlets =
        some (some
          { vertexCount := 8
            ncon := 1
            xadjacency := [0, 1, 3, 4, 5, 6, 7, 8, 8]
            edgeAdjacency := [1, 0, 2, 3, 4, 5, 6, 7]
            nparts := 2 }) := by
  decide

/-- C14, the code on eight meshlets without a common vertex. No edge is used
by two different meshlets, but the edge shared by the two triangles of a
meshlet is recorded twice for that meshlet and survives the erase, so the
partitioner is called, on a graph without any adjacency, and its answer
decides the groups. -/
theorem groupMeshlets_islands_partitioned :
    buildEdgeMaps islandPrimitive islandMeshlets = some islandMaps ∧
      (islandMaps.edges2Meshlets.all fun pair =>
        pair.2.all fun a => pair.2.all fun b => decide (a = b)) = true ∧
      (eraseUnshared islandMaps.edges2Meshlets).map (fun pair => pair.2) =
        [[0, 0], [1, 1], [2, 2], [3, 3], [4, 4], [5, 5], [6, 6], [7, 7]] ∧
      partitionRequest islandPrimitive islandMeshlets =
        some (some
          { vertexCount := 8
            ncon := 1
            xadjacency := [0, 0, 0, 0, 0, 0, 0, 0, 0]
            edgeAdjacency := []
            nparts := 2 }) ∧
      groupMeshlets (fun _ => some [0, 1, 0, 1, 0, 1, 0, 1]) islandPrimitive islandMeshlets =
        some [{ meshlets := [0, 2, 4, 6] }, { meshlets := [1, 3, 5, 7] }] := by
  decide

theorem foldlM_range_succ_some {β : Type} (f : β → Nat → Option β) (a b : β) (k : Nat) :
    (List.range (k + 1)).foldlM f a = some b ↔
      ∃ mid, (List.range k).foldlM f a = some mid ∧ f mid k = some b := by
  rw [List.range_succ, List.foldlM_append]
  cases h : (List.range k).foldlM f a with
  | none => simp
  | some mid => simp

theorem copy_fold_some {α : Type} (source : List α) (offset : Nat) (target0 : List α) (k : Nat)
    (target : List α)
    (h : (List.range k).foldlM (copyStep source offset) target0 = some target) :
    target.length = target0.length ∧
      (∀ (i : Nat), i < offset ∨ offset + k ≤ i → target[i]? = target0[i]?) ∧
      (∀ (i : Nat), i < k → i < source.length ∧ target[offset + i]? = source[i]?) := by
  induction k generalizing target with
  | zero =>
    simp at h
    subst h
    exact ⟨rfl, fun _ _ => rfl, fun i hi => absurd hi (Nat.not_lt_zero i)⟩
  | succ k ih =>
    obtain ⟨mid, hmid, hstep⟩ := (foldlM_range_succ_some _ _ _ _).mp h
    obtain ⟨hlen, hout, hin⟩ := ih mid hmid
    unfold copyStep at hstep
    cases hs : source[k]? with
    | none => simp [hs] at hstep
    | some value =>
      by_cases hb : offset + k < mid.length
      · simp [hs, hb] at hstep
        subst hstep
        have hk : k < source.length := (List.getElem?_eq_some.mp hs).1
        refine ⟨by simp [hlen], ?_, ?_⟩
        · intro i hi
          rw [List.getElem?_set_ne (by omega)]
          exact hout i (by omega)
        · intro i hi
          by_cases hik : i = k
          · subst hik
            refine ⟨hk, ?_⟩
            rw [List.getElem?_set, if_pos rfl, if_pos hb, hs]
          · rw [List.getElem?_set_ne (by omega)]
            exact hin i (by omega)
      · simp [hs, hb] at hstep

theorem copy_fold_exists {α : Type} (source : List α) (offset : Nat) (target0 : List α)
    (k : Nat) (hsrc : k ≤ source.length) (htgt : offset + k ≤ target0.length) :
    ∃ target, (List.range k).foldlM (copyStep source offset) target0 = some target := by
  induction k with
  | zero => exact ⟨target0, rfl⟩
  | succ k ih =>
    obtain ⟨mid, hmid⟩ := ih (by omega) (by omega)
    obtain ⟨hlen, _, _⟩ := copy_fold_some source offset target0 k mid hmid
    have hs : source[k]? = some source[k] := List.getElem?_eq_getElem (by omega)
    refine ⟨mid.set (offset + k) source[k], ?_⟩
    rw [foldlM_range_succ_some]
    refine ⟨mid, hmid, ?_⟩
    unfold copyStep
    rw [hs]
    simp only [Option.bind_eq_bind, Option.some_bind]
    rw [if_pos (by omega)]

theorem convert_fold_some (built : BuiltMeshlets) (meshletOffset vertexOffset indexOffset : Nat)
    (meshlets0 : List Meshlet) (k : Nat) (meshlets : List Meshlet)
    (h : (List.range k).foldlM (convertStep built meshletOffset vertexOffset indexOffset)
      meshlets0 = some meshlets) :
    meshlets.length = meshlets0.length ∧
      (∀ (i : Nat), i < meshletOffset ∨ meshletOffset + k ≤ i → meshlets[i]? = meshlets0[i]?) ∧
      (∀ (i : Nat), i < k → ∃ m c, built.meshoptMeshlets[i]? = some m ∧
        meshlets0[meshletOffset + i]? = some c ∧
        meshlets[meshletOffset + i]? = some
          { vertexOffset := vertexOffset + m.vertex_offset
            vertexCount := m.vertex_count
            indexOffset := indexOffset + m.triangle_offset
            indexCount := m.triangle_count * 3
            lod := c.lod }) := by
  induction k generalizing meshlets with
  | zero =>
    simp at h
    subst h
    exact ⟨rfl, fun _ _ => rfl, fun i hi => absurd hi (Nat.not_lt_zero i)⟩
  | succ k ih =>
    obtain ⟨mid, hmid, hstep⟩ := (foldlM_range_succ_some _ _ _ _).mp h
    obtain ⟨hlen, hout, hin⟩ := ih mid hmid
    unfold convertStep at hstep
    cases hm : built.meshoptMeshlets[k]? with
    | none => simp [hm] at hstep
    | some m =>
      cases hc : mid[meshletOffset + k]? with
      | none => simp [hm, hc] at hstep
      | some c =>
        simp [hm, hc] at hstep
        subst hstep
        have hb : meshletOffset + k < mid.length := (List.getElem?_eq_some.mp hc).1
        refine ⟨by simp [hlen], ?_, ?_⟩
        · intro i hi
          rw [List.getElem?_set_ne (by omega)]
          exact hout i (by omega)
        · intro i hi
          by_cases hik : i = k
          · subst hik
            have hc0 : meshlets0[meshletOffset + i]? = some c := by
              rw [← hout (meshletOffset + i) (Or.inr le_rfl)]; exact hc
            refine ⟨m, c, hm, hc0, ?_⟩
            rw [List.getElem?_set, if_pos rfl, if_pos hb]
          · rw [List.getElem?_set_ne (by omega)]
            exact hin i (by omega)

theorem convert_fold_exists (built : BuiltMeshlets)
    (meshletOffset vertexOffset indexOffset : Nat) (meshlets0 : List Meshlet) (k : Nat)
    (hsrc : k ≤ built.meshoptMeshlets.length) (htgt : meshletOffset + k ≤ meshlets0.length) :
    ∃ meshlets, (List.range k).foldlM
      (convertStep built meshletOffset vertexOffset indexOffset) meshlets0 = some meshlets := by
  induction k with
  | zero => exact ⟨meshlets0, rfl⟩
  | succ k ih =>
    obtain ⟨mid, hmid⟩ := ih (by omega) (by omega)
    obtain ⟨hlen, _, _⟩ := convert_fold_some built _ _ _ meshlets0 k mid hmid
    have hs : built.meshoptMeshlets[k]? = some built.meshoptMeshlets[k] :=
      List.getElem?_eq_getElem (by omega)
    have hc : mid[meshletOffset + k]? = some mid[meshletOffset + k] :=
      List.getElem?_eq_getElem (by omega)
    have hstep : ∃ r, convertStep built meshletOffset vertexOffset indexOffset mid k = some r := by
      unfold convertStep
      rw [hs, hc]
      exact ⟨_, rfl⟩
    obtain ⟨r, hr⟩ := hstep
    exact ⟨r, (foldlM_range_succ_some _ _ _ _).mpr ⟨mid, hmid, hr⟩⟩

theorem resize_length {α : Type} (l : List α) (n : Nat) (d : α) : (resize l n d).length = n := by
  simp [resize]
  omega

theorem resize_getElem?_old {α : Type} (l : List α) (n : Nat) (d : α) (i : Nat)
    (hi : i < l.length) (hn : l.length ≤ n) : (resize l n d)[i]? = l[i]? := by
  unfold resize
  rw [List.take_of_length_le hn, List.getElem?_append_left hi]

theorem resize_getElem?_new {α : Type} (l : List α) (n : Nat) (d : α) (i : Nat)
    (hi : l.length ≤ i) (hn : i < n) : (resize l n d)[i]? = some d := by
  unfold resize
  rw [List.take_of_length_le (by omega), List.getElem?_append_right hi,
    List.getElem?_replicate, if_pos (by omega)]

theorem appendMeshlets_some (builder : List Nat → List Vertex → BuiltMeshlets)
    (p : LoadedPrimitive) (indexBuffer : List Nat) (p1 : LoadedPrimitive)
    (h : appendMeshlets builder p indexBuffer = some p1) :
    ∃ last, AppendResult (builder indexBuffer p.vertices) p p1 last := by
  unfold appendMeshlets at h
  by_cases hc : (builder indexBuffer p.vertices).meshletCount = 0
  · simp [hc] at h
  simp only [Option.bind_eq_bind, hc, if_false] at h
  obtain ⟨last, hlast, h⟩ := Option.bind_eq_some.mp h
  obtain ⟨mvi, hmvi, h⟩ := Option.bind_eq_some.mp h
  obtain ⟨mi, hmi, h⟩ := Option.bind_eq_some.mp h
  obtain ⟨ms, hms, h⟩ := Option.bind_eq_some.mp h
  have hp1 := Option.some.inj h
  subst hp1
  obtain ⟨h1len, h1old, h1new⟩ := copy_fold_some _ _ _ _ _ hmvi
  obtain ⟨h2len, h2old, h2new⟩ := copy_fold_some _ _ _ _ _ hmi
  obtain ⟨h3len, h3old, h3new⟩ := convert_fold_some _ _ _ _ _ _ _ hms
  rw [resize_length] at h1len h2len h3len
  refine ⟨last, Nat.pos_of_ne_zero hc, hlast, rfl, h3len, h1len, h2len, ?_, ?_, ?_, ?_, ?_, ?_⟩
  · intro i hi
    simp only []
    rw [h3old i (Or.inl hi), resize_getElem?_old _ _ _ _ hi (by omega)]
  · intro i hi
    simp only []
    rw [h1old i (Or.inl hi), resize_getElem?_old _ _ _ _ hi (by omega)]
  · intro i hi
    simp only []
    rw [h2old i (Or.inl hi), resize_getElem?_old _ _ _ _ hi (by omega)]
  · intro k hk
    obtain ⟨m, c, hm, hc0, hget⟩ := h3new k hk
    rw [resize_getElem?_new _ _ _ _ (by omega) (by omega)] at hc0
    cases hc0
    exact ⟨m, hm, hget⟩
  · intro i hi
    exact h1new i hi
  · intro i hi
    exact h2new i hi

theorem appendMeshlets_exists (builder : List Nat → List Vertex → BuiltMeshlets)
    (p : LoadedPrimitive) (indexBuffer : List Nat) (last : MeshoptMeshlet)
    (hc : BuilderContract (builder indexBuffer p.vertices) last) :
    ∃ p1, appendMeshlets builder p indexBuffer = some p1 := by
  obtain ⟨hcount, hsize, hlast, _, hv, ht⟩ := hc
  have hne : ¬ (builder indexBuffer p.vertices).meshletCount = 0 := by omega
  obtain ⟨mvi, hmvi⟩ := copy_fold_exists (builder indexBuffer p.vertices).meshletVertexIndices
    p.meshletVertexIndices.length
    (resize p.meshletVertexIndices
      (p.meshletVertexIndices.length + (last.vertex_offset + last.vertex_count)) 0)
    (last.vertex_offset + last.vertex_count) hv (by rw [resize_length])
  obtain ⟨mi, hmi⟩ := copy_fold_exists (builder indexBuffer p.vertices).meshletTriangles
    p.meshletIndices.length
    (resize p.meshletIndices
      (p.meshletIndices.length +
        (last.triangle_offset + clearLowBits (last.triangle_count * 3 + 3))) 0)
    (last.triangle_offset + clearLowBits (last.triangle_count * 3 + 3)) ht
    (by rw [resize_length])
  obtain ⟨ms, hms⟩ := convert_fold_exists (builder indexBuffer p.vertices) p.meshlets.length
    p.meshletVertexIndices.length p.meshletIndices.length
    (resize p.meshlets (p.meshlets.length + (builder indexBuffer p.vertices).meshletCount)
      Meshlet.default)
    (builder indexBuffer p.vertices).meshletCount hsize (by rw [resize_length])
  refine ⟨{ p with meshlets := ms, meshletVertexIndices := mvi, meshletIndices := mi }, ?_⟩
  unfold appendMeshlets
  simp only [Option.bind_eq_bind, hne, if_false, hlast, Option.some_bind, hmvi, hmi, hms]

theorem le_clearLowBits (x : Nat) : x ≤ clearLowBits (x + 3) := by
  unfold clearLowBits
  omega

/-- C17. `appendMeshlets` preserves the meshlet bounds: if every meshlet already
in the primitive satisfies the bounds and the builder returns at least one
meshlet within its contract, then `appendMeshlets` returns, and afterwards
every meshlet, old and new, satisfies the bounds; the old meshlets and the old
contents of both shared arrays are unchanged; each new meshlet has the offsets
of the builder shifted by the previous array sizes; and the arrays grow by
exactly `last.vertex_offset + last.vertex_count` and
`last.triangle_offset + ((3 * last.triangle_count + 3) & ~3)`. -/
theorem appendMeshlets_bounds (builder : List Nat → List Vertex → BuiltMeshlets)
    (p : LoadedPrimitive) (indexBuffer : List Nat) (last : MeshoptMeshlet)
    (hold : ∀ m ∈ p.meshlets,
      MeshletBounds p.meshletVertexIndices.length p.meshletIndices.length m)
    (hc : BuilderContract (builder indexBuffer p.vertices) last) :
    ∃ p1, appendMeshlets builder p indexBuffer = some p1 ∧
      (∀ m ∈ p1.meshlets,
        MeshletBounds p1.meshletVertexIndices.length p1.meshletIndices.length m) ∧
      (∀ (i : Nat), i < p.meshlets.length → p1.meshlets[i]? = p.meshlets[i]?) ∧
      (∀ (i : Nat), i < p.meshletVertexIndices.length →
        p1.meshletVertexIndices[i]? = p.meshletVertexIndices[i]?) ∧
      (∀ (i : Nat), i < p.meshletIndices.length →
        p1.meshletIndices[i]? = p.meshletIndices[i]?) ∧
      p1.meshlets.length = p.meshlets.length + (builder indexBuffer p.vertices).meshletCount ∧
      (∀ (k : Nat) (m : MeshoptMeshlet), k < (builder indexBuffer p.vertices).meshletCount →
        (builder indexBuffer p.vertices).meshoptMeshlets[k]? = some m →
        p1.meshlets[p.meshlets.length + k]? = some
          { vertexOffset := p.meshletVertexIndices.length + m.vertex_offset
            vertexCount := m.vertex_count
            indexOffset := p.meshletIndices.length + m.triangle_offset
            indexCount := m.triangle_count * 3
            lod := 0 }) ∧
      p1.meshletVertexIndices.length =
        p.meshletVertexIndices.length + (last.vertex_offset + last.vertex_count) ∧
      p1.meshletIndices.length =
        p.meshletIndices.length +
          (last.triangle_offset + clearLowBits (last.triangle_count * 3 + 3)) := by
  obtain ⟨p1, hp1⟩ := appendMeshlets_exists builder p indexBuffer last hc
  obtain ⟨last1, hres⟩ := appendMeshlets_some builder p indexBuffer p1 hp1
  obtain ⟨hcount, hsize, hlast, hall, hv, ht⟩ := hc
  have hl : last1 = last := by
    have := hres.last_eq
    rw [hlast] at this
    exact (Option.some.inj this).symm
  subst hl
  have hnew : ∀ (k : Nat) (m : MeshoptMeshlet),
      k < (builder indexBuffer p.vertices).meshletCount →
      (builder indexBuffer p.vertices).meshoptMeshlets[k]? = some m →
      p1.meshlets[p.meshlets.length + k]? = some
        { vertexOffset := p.meshletVertexIndices.length + m.vertex_offset
          vertexCount := m.vertex_count
          indexOffset := p.meshletIndices.length + m.triangle_offset
          indexCount := m.triangle_count * 3
          lod := 0 } := by
    intro k m hk hm
    obtain ⟨m1, hm1, hget⟩ := hres.meshlets_new k hk
    rw [hm] at hm1
    cases hm1
    exact hget
  refine ⟨p1, hp1, ?_, hres.meshlets_old, hres.vertexIndices_old, hres.indices_old,
    hres.meshlets_length, hnew, hres.vertexIndices_length, hres.indices_length⟩
  intro c hcmem
  obtain ⟨i, hi⟩ := List.mem_iff_getElem?.mp hcmem
  have hilt : i < p1.meshlets.length := (List.getElem?_eq_some.mp hi).1
  rw [hres.vertexIndices_length, hres.indices_length]
  by_cases hio : i < p.meshlets.length
  · rw [hres.meshlets_old i hio] at hi
    obtain ⟨h1, h2, h3, h4, h5⟩ := hold c (List.mem_iff_getElem?.mpr ⟨i, hi⟩)
    exact ⟨by omega, by omega, h3, h4, h5⟩
  · have hk : i - p.meshlets.length < (builder indexBuffer p.vertices).meshletCount := by
      rw [hres.meshlets_length] at hilt
      omega
    have hm : (builder indexBuffer p.vertices).meshoptMeshlets[i - p.meshlets.length]? =
        some (builder indexBuffer p.vertices).meshoptMeshlets[i - p.meshlets.length] :=
      List.getElem?_eq_getElem (by omega)
    have hget := hnew _ _ hk hm
    have hidx : p.meshlets.length + (i - p.meshlets.length) = i := by omega
    rw [hidx, hi] at hget
    have hmem : (builder indexBuffer p.vertices).meshoptMeshlets[i - p.meshlets.length] ∈
        (builder indexBuffer p.vertices).meshoptMeshlets.take
          (builder indexBuffer p.vertices).meshletCount := by
      rw [List.mem_iff_getElem?]
      exact ⟨i - p.meshlets.length, by rw [List.getElem?_take, if_pos hk]; exact hm⟩
    obtain ⟨b1, b2, b3, b4⟩ := hall _ hmem
    have hceq := Option.some.inj hget
    have hclear := le_clearLowBits (last1.triangle_count * 3)
    rw [hceq]
    unfold MeshletBounds
    dsimp only
    exact ⟨by omega, by omega, by omega, by omega, b1⟩

theorem appendResult_meshlets (built : BuiltMeshlets) (p p1 : LoadedPrimitive)
    (last : MeshoptMeshlet) (h : AppendResult built p p1 last) :
    ∃ new, p1.meshlets = p.meshlets ++ new ∧ new.length = built.meshletCount ∧
      ∀ m ∈ new, m.lod = 0 := by
  have htake : p1.meshlets.take p.meshlets.length = p.meshlets := by
    apply List.ext_getElem?
    intro i
    rw [List.getElem?_take]
    by_cases hi : i < p.meshlets.length
    · rw [if_pos hi, h.meshlets_old i hi]
    · rw [if_neg hi, List.getElem?_eq_none (by omega)]
  refine ⟨p1.meshlets.drop p.meshlets.length, ?_, ?_, ?_⟩
  · conv_lhs => rw [← List.take_append_drop p.meshlets.length p1.meshlets]
    rw [htake]
  · rw [List.length_drop, h.meshlets_length]
    omega
  · intro m hm
    obtain ⟨j, hj⟩ := List.mem_iff_getElem?.mp hm
    rw [List.getElem?_drop] at hj
    have hjlt : p.meshlets.length + j < p1.meshlets.length := (List.getElem?_eq_some.mp hj).1
    rw [h.meshlets_length] at hjlt
    obtain ⟨mm, _, hget⟩ := h.meshlets_new j (by omega)
    rw [hj] at hget
    rw [Option.some.inj hget]

theorem appendMeshlets_meshlets (builder : List Nat → List Vertex → BuiltMeshlets)
    (p : LoadedPrimitive) (indexBuffer : List Nat) (p1 : LoadedPrimitive)
    (h : appendMeshlets builder p indexBuffer = some p1) :
    ∃ new, p1.meshlets = p.meshlets ++ new ∧ 1 ≤ new.length ∧ ∀ m ∈ new, m.lod = 0 := by
  obtain ⟨last, hres⟩ := appendMeshlets_some builder p indexBuffer p1 h
  obtain ⟨new, h1, h2, h3⟩ := appendResult_meshlets _ p p1 last hres
  exact ⟨new, h1, by rw [h2]; exact hres.count, h3⟩

theorem levelsRun_append (a b : List HierarchyEvent) :
    levelsRun (a ++ b) = levelsRun a + levelsRun b := by
  simp [levelsRun, List.countP_append]

theorem simplifyGroup_some (services : Services) (lod : Nat) (st st1 : HierarchyState)
    (group : MeshletGroup) (h : simplifyGroup services lod st group = some st1) :
    st1.previousMeshletsStart = st.previousMeshletsStart ∧
      levelsRun st1.trace = levelsRun st.trace ∧
      ∃ new, st1.primitive.meshlets = st.primitive.meshlets ++ new := by
  unfold simplifyGroup at h
  simp only [Option.bind_eq_bind] at h
  obtain ⟨gathered, _, h⟩ := Option.bind_eq_some.mp h
  split at h
  · have hst := Option.some.inj h
    subst hst
    refine ⟨rfl, ?_, [], by simp⟩
    simp [levelsRun_append, levelsRun]
  · obtain ⟨p1, hp1, h⟩ := Option.bind_eq_some.mp h
    have hst := Option.some.inj h
    subst hst
    obtain ⟨new, hnew, _, _⟩ := appendMeshlets_meshlets _ _ _ _ hp1
    refine ⟨rfl, ?_, new, hnew⟩
    simp [levelsRun_append, levelsRun]

theorem simplifyGroups_some (services : Services) (lod : Nat) (groups : List MeshletGroup)
    (st st1 : HierarchyState)
    (h : groups.foldlM (simplifyGroup services lod) st = some st1) :
    st1.previousMeshletsStart = st.previousMeshletsStart ∧
      levelsRun st1.trace = levelsRun st.trace ∧
      ∃ new, st1.primitive.meshlets = st.primitive.meshlets ++ new := by
  induction groups generalizing st with
  | nil =>
    simp at h
    subst h
    exact ⟨rfl, rfl, [], by simp⟩
  | cons g rest ih =>
    rw [List.foldlM_cons] at h
    obtain ⟨mid, hmid, h⟩ := Option.bind_eq_some.mp h
    obtain ⟨a1, a2, new1, a3⟩ := simplifyGroup_some services lod st mid g hmid
    obtain ⟨b1, b2, new2, b3⟩ := ih mid h
    exact ⟨by rw [b1, a1], by rw [b2, a2], new1 ++ new2, by rw [b3, a3, List.append_assoc]⟩

theorem levelBody_some (services : Services) (lod : Nat) (st st1 : HierarchyState)
    (h : levelBody services lod st = some st1) :
    st1.previousMeshletsStart = st.primitive.meshlets.length ∧
      levelsRun st1.trace = levelsRun st.trace + 1 ∧
      ∃ new, st1.primitive.meshlets = st.primitive.meshlets ++ new ∧
        ∀ m ∈ new, m.lod = lod + 1 := by
  unfold levelBody at h
  simp only [Option.bind_eq_bind] at h
  obtain ⟨groups, _, h⟩ := Option.bind_eq_some.mp h
  obtain ⟨st2, hst2, h⟩ := Option.bind_eq_some.mp h
  have hst := Option.some.inj h
  subst hst
  obtain ⟨_, a2, new, a3⟩ := simplifyGroups_some services lod groups _ st2 hst2
  refine ⟨rfl, ?_, new.map (fun m => { m with lod := lod + 1 }), ?_, ?_⟩
  · simp only []
    rw [a2]
    simp [levelsRun_append, levelsRun]
  · simp only [] at a3 ⊢
    rw [a3]
    simp [tagLod]
  · intro m hm
    obtain ⟨m0, _, hm0⟩ := List.mem_map.mp hm
    rw [← hm0]

theorem hierarchyLevels_some (services : Services) (remaining lod : Nat)
    (st res : HierarchyState) (h : hierarchyLevels services remaining lod st = some res) :
    levelsRun res.trace ≤ levelsRun st.trace + remaining ∧
      ∃ more, res.primitive.meshlets = st.primitive.meshlets ++ more ∧
        List.Pairwise (fun a b : Meshlet => a.lod ≤ b.lod) more ∧
        ∀ m ∈ more, lod + 1 ≤ m.lod ∧ m.lod ≤ lod + remaining := by
  induction remaining generalizing lod st with
  | zero =>
    simp [hierarchyLevels] at h
    subst h
    exact ⟨le_rfl, [], by simp, List.Pairwise.nil, by simp⟩
  | succ remaining ih =>
    unfold hierarchyLevels at h
    split at h
    · have hst := Option.some.inj h
      subst hst
      exact ⟨by omega, [], by simp, List.Pairwise.nil, by simp⟩
    · cases hbody : levelBody services lod st with
      | none => simp [hbody] at h
      | some st1 =>
        simp only [hbody] at h
        obtain ⟨_, a2, new, a3, a4⟩ := levelBody_some services lod st st1 hbody
        obtain ⟨b1, more, b2, b3, b4⟩ := ih (lod + 1) st1 h
        refine ⟨by omega, new ++ more, by rw [b2, a3, List.append_assoc], ?_, ?_⟩
        · rw [List.pairwise_append]
          refine ⟨?_, b3, ?_⟩
          · rw [List.pairwise_iff_forall_sublist]
            intro a b hab
            have ha := a4 a (hab.subset (List.mem_cons_self _ _))
            have hb := a4 b (hab.subset (List.mem_cons_of_mem _ (List.mem_cons_self _ _)))
            omega
          · intro a ha b hb
            have h1 := a4 a ha
            have h2 := b4 b hb
            omega
        · intro m hm
          rcases List.mem_append.mp hm with hm1 | hm1
          · have := a4 m hm1
            omega
          · have := b4 m hm1
            omega

theorem generateClusterHierarchyTrace_some (services : Services) (p : LoadedPrimitive)
    (st : HierarchyState) (h : generateClusterHierarchyTrace services p = some st) :
    ∃ p1 new more, appendMeshlets services.builder p p.indices = some p1 ∧
      p1.meshlets = p.meshlets ++ new ∧ (∀ m ∈ new, m.lod = 0) ∧
      st.primitive.meshlets = p1.meshlets ++ more ∧
      List.Pairwise (fun a b : Meshlet => a.lod ≤ b.lod) more ∧
      (∀ m ∈ more, 1 ≤ m.lod ∧ m.lod ≤ maxLOD) ∧ levelsRun st.trace ≤ maxLOD := by
  unfold generateClusterHierarchyTrace at h
  simp only [Option.bind_eq_bind] at h
  obtain ⟨p1, hp1, h⟩ := Option.bind_eq_some.mp h
  obtain ⟨new, hnew, _, hlod⟩ := appendMeshlets_meshlets _ _ _ _ hp1
  obtain ⟨hruns, more, hmore, hsorted, hbound⟩ := hierarchyLevels_some _ _ _ _ _ h
  refine ⟨p1, new, more, hp1, hnew, hlod, hmore, hsorted, ?_, ?_⟩
  · intro m hm
    have := hbound m hm
    omega
  · simpa [levelsRun] using hruns

/-- C18. For every primitive that enters `generateClusterHierarchy` with no
meshlets, whatever the meshlet builder, the partitioner and the simplifier do,
the resulting meshlet list is sorted by lod; the meshlets built from the full
index buffer are a prefix of the result and have lod 0; and the meshlets
appended while processing a level `L` have lod `L + 1` and stay where they are
until the end. -/
theorem generateClusterHierarchy_sorted (services : Services) (p r : LoadedPrimitive)
    (hempty : p.meshlets = []) (h : generateClusterHierarchy services p = some r) :
    (∀ (i j : Nat) (a b : Meshlet), i < j → r.meshlets[i]? = some a →
        r.meshlets[j]? = some b → a.lod ≤ b.lod) ∧
      (∃ p1 more, appendMeshlets services.builder p p.indices = some p1 ∧
        r.meshlets = p1.meshlets ++ more ∧ ∀ m ∈ p1.meshlets, m.lod = 0) ∧
      ∀ (L : Nat) (st st1 : HierarchyState), levelBody services L st = some st1 →
        ∃ new, st1.primitive.meshlets = st.primitive.meshlets ++ new ∧
          (∀ m ∈ new, m.lod = L + 1) ∧
          ∀ (remaining : Nat) (res : HierarchyState),
            hierarchyLevels services remaining (L + 1) st1 = some res →
            ∃ more, res.primitive.meshlets = st1.primitive.meshlets ++ more := by
  unfold generateClusterHierarchy at h
  obtain ⟨st, hst, hr⟩ := Option.map_eq_some'.mp h
  subst hr
  obtain ⟨p1, new, more, hp1, hnew, hlod, hmore, hsorted, hbound, _⟩ :=
    generateClusterHierarchyTrace_some services p st hst
  rw [hempty, List.nil_append] at hnew
  have hzero : ∀ m ∈ p1.meshlets, m.lod = 0 := by
    rw [hnew]; exact hlod
  have hpair : List.Pairwise (fun a b : Meshlet => a.lod ≤ b.lod) st.primitive.meshlets := by
    rw [hmore, List.pairwise_append]
    refine ⟨?_, hsorted, ?_⟩
    · rw [List.pairwise_iff_forall_sublist]
      intro a b hab
      have ha := hzero a (hab.subset (List.mem_cons_self _ _))
      omega
    · intro a ha b _
      have := hzero a ha
      omega
  refine ⟨?_, ⟨p1, more, hp1, hmore, hzero⟩, ?_⟩
  · intro i j a b hij ha hb
    obtain ⟨hi, hai⟩ := List.getElem?_eq_some.mp ha
    obtain ⟨hj, hbj⟩ := List.getElem?_eq_some.mp hb
    have := List.pairwise_iff_getElem.mp hpair i j hi hj hij
    rw [hai, hbj] at this
    exact this
  · intro L st0 st1 hbody
    obtain ⟨_, _, new1, h1, h2⟩ := levelBody_some services L st0 st1 hbody
    refine ⟨new1, h1, h2, ?_⟩
    intro remaining res hres
    obtain ⟨_, more1, h3, _, _⟩ := hierarchyLevels_some services remaining (L + 1) st1 res hres
    exact ⟨more1, h3⟩

/-- The statement of C18 on `quad` under `toyServices`: two meshlets of lod 0,
then one of lod 1. -/
theorem generateClusterHierarchy_sorted_witness :
    quad.meshlets = [] ∧ generateClusterHierarchy toyServices quad = some quadHierarchy ∧
      quadHierarchy.meshlets.map (fun m => m.lod) = [0, 0, 1] ∧
      ∀ (i j : Nat) (a b : Meshlet), i < j → quadHierarchy.meshlets[i]? = some a →
        quadHierarchy.meshlets[j]? = some b → a.lod ≤ b.lod :=
  ⟨by decide, by decide!, by decide!,
    (generateClusterHierarchy_sorted toyServices quad quadHierarchy (by decide) (by decide!)).1⟩

/-- C19, as stated, fails: `quad` entering with a meshlet of lod 26 leaves
`generateClusterHierarchy` with that meshlet still in first place. -/
theorem generateClusterHierarchy_keeps_old_lod :
    (generateClusterHierarchy toyServices quadWithOldMeshlet).map
      (fun p => p.meshlets.map fun m => m.lod) = some [26, 0, 0, 1] := by
  decide!

/-- C19, amended. For every primitive and every behaviour of the external
services, `generateClusterHierarchy` enters the level body at most 25 times;
the meshlets present at entry are still there, unchanged, and every other
meshlet of the result has lod at most 25; so no meshlet of the result has lod
greater than 25 when none had at entry. -/
theorem generateClusterHierarchy_bounded (services : Services) (p : LoadedPrimitive)
    (st : HierarchyState) (h : generateClusterHierarchyTrace services p = some st) :
    levelsRun st.trace ≤ 25 ∧
      (∀ (i : Nat), i < p.meshlets.length → st.primitive.meshlets[i]? = p.meshlets[i]?) ∧
      (∀ (i : Nat) (m : Meshlet), p.meshlets.length ≤ i →
        st.primitive.meshlets[i]? = some m → m.lod ≤ 25) ∧
      ((∀ m ∈ p.meshlets, m.lod ≤ 25) → ∀ m ∈ st.primitive.meshlets, m.lod ≤ 25) := by
  obtain ⟨p1, new, more, _, hnew, hlod, hmore, _, hbound, hruns⟩ :=
    generateClusterHierarchyTrace_some services p st h
  have hall : st.primitive.meshlets = p.meshlets ++ (new ++ more) := by
    rw [hmore, hnew, List.append_assoc]
  have htail : ∀ m ∈ new ++ more, m.lod ≤ 25 := by
    intro m hm
    rcases List.mem_append.mp hm with h1 | h1
    · rw [hlod m h1]; omega
    · exact (hbound m h1).2
  refine ⟨hruns, ?_, ?_, ?_⟩
  · intro i hi
    rw [hall, List.getElem?_append_left hi]
  · intro i m hi hm
    rw [hall, List.getElem?_append_right hi] at hm
    exact htail m (List.mem_iff_getElem?.mpr ⟨_, hm⟩)
  · intro hold m hm
    rw [hall] at hm
    rcases List.mem_append.mp hm with h1 | h1
    · exact hold m h1
    · exact htail m h1

/-- The amended statement of C19 on `quad` under `toyServices`: one level body
is entered. -/
theorem generateClusterHierarchy_bounded_witness :
    generateClusterHierarchyTrace toyServices quad = some quadRun ∧
      levelsRun quadRun.trace = 1 ∧ levelsRun quadRun.trace ≤ 25 ∧
      ∀ m ∈ quadRun.primitive.meshlets, m.lod ≤ 25 :=
  ⟨by decide!, by decide!,
    (generateClusterHierarchy_bounded toyServices quad quadRun (by decide!)).1,
    (generateClusterHierarchy_bounded toyServices quad quadRun (by decide!)).2.2.2
      (by decide)⟩

/-- C20. Natural termination: when the meshlets of the previous level, the
range from `previousMeshletsStart` to the end, are at most one, the level loop
stops at once, with the primitive and the log of calls as they are (no
grouping, no simplification, no meshlet appended); after a level body that
range is exactly the meshlets the body appended; and a primitive that the
level-0 `appendMeshlets` leaves with a single meshlet ends with exactly that
meshlet, of lod 0. -/
theorem generateClusterHierarchy_natural_stop (services : Services) :
    (∀ (remaining lod : Nat) (st : HierarchyState),
        st.primitive.meshlets.length - st.previousMeshletsStart ≤ 1 →
        hierarchyLevels services remaining lod st = some st) ∧
      (∀ (lod : Nat) (st st1 : HierarchyState), levelBody services lod st = some st1 →
        ∃ new, st1.primitive.meshlets = st.primitive.meshlets ++ new ∧
          st1.primitive.meshlets.length - st1.previousMeshletsStart = new.length) ∧
      ∀ (p p1 : LoadedPrimitive), appendMeshlets services.builder p p.indices = some p1 →
        p1.meshlets.length = 1 →
        generateClusterHierarchyTrace services p =
            some
              { primitive := p1
                previousMeshletsStart := 0
                trace := [HierarchyEvent.append p.indices] } ∧
          generateClusterHierarchy services p = some p1 ∧
          ∃ m, p1.meshlets = [m] ∧ m.lod = 0 := by
  have hstop : ∀ (remaining lod : Nat) (st : HierarchyState),
      st.primitive.meshlets.length - st.previousMeshletsStart ≤ 1 →
      hierarchyLevels services remaining lod st = some st := by
    intro remaining lod st hle
    cases remaining with
    | zero => rfl
    | succ remaining =>
      unfold hierarchyLevels
      rw [if_pos hle]
  refine ⟨hstop, ?_, ?_⟩
  · intro lod st st1 hbody
    obtain ⟨hstart, _, new, hnew, _⟩ := levelBody_some services lod st st1 hbody
    refine ⟨new, hnew, ?_⟩
    rw [hstart, hnew, List.length_append]
    omega
  · intro p p1 hp1 hone
    have htrace : generateClusterHierarchyTrace services p =
        some
          { primitive := p1
            previousMeshletsStart := 0
            trace := [HierarchyEvent.append p.indices] } := by
      unfold generateClusterHierarchyTrace
      simp only [Option.bind_eq_bind, hp1, Option.some_bind]
      exact hstop _ _ _ (by simp [hone])
    refine ⟨htrace, ?_, ?_⟩
    · unfold generateClusterHierarchy
      rw [htrace]
      rfl
    · obtain ⟨new, hnew, hpos, hlod⟩ := appendMeshlets_meshlets _ _ _ _ hp1
      have hlen : p.meshlets.length + new.length = 1 := by
        rw [← List.length_append, ← hnew]; exact hone
      have hpl : p.meshlets = [] := List.length_eq_zero.mp (by omega)
      rw [hpl, List.nil_append] at hnew
      match new, hnew, hpos, hlod, hlen with
      | [m], hnew, _, hlod, _ => exact ⟨m, hnew, hlod m (List.mem_singleton_self m)⟩
      | [], _, hpos, _, _ => simp at hpos
      | _ :: _ :: _, _, _, _, hlen => simp at hlen; omega

/-- The statement of C20 on `unitTriangle` under `toyServices`: one meshlet, of
lod 0, and no level body. -/
theorem generateClusterHierarchy_natural_stop_witness :
    appendMeshlets toyServices.builder unitTriangle unitTriangle.indices =
        some unitTriangleLevel0 ∧
      unitTriangleLevel0.meshlets.length = 1 ∧
      generateClusterHierarchy toyServices unitTriangle = some unitTriangleLevel0 ∧
      ∃ m, unitTriangleLevel0.meshlets = [m] ∧ m.lod = 0 :=
  ⟨by decide, by decide,
    ((generateClusterHierarchy_natural_stop toyServices).2.2 unitTriangle unitTriangleLevel0
      (by decide) (by decide)).2.1,
    ((generateClusterHierarchy_natural_stop toyServices).2.2 unitTriangle unitTriangleLevel0
      (by decide) (by decide)).2.2⟩

/-- The statement of C17 on `quad` with its two level-0 meshlets, to which the
builder adds one meshlet for the index buffer `[0, 1, 2]`. -/
theorem appendMeshlets_bounds_witness :
    (∀ m ∈ quadLevel0.meshlets,
        MeshletBounds quadLevel0.meshletVertexIndices.length quadLevel0.meshletIndices.length
          m) ∧
      BuilderContract (triangleBuilder [0, 1, 2] quadLevel0.vertices)
        { vertex_offset := 0, triangle_offset := 0, vertex_count := 3, triangle_count := 1 } ∧
      ∃ p1, appendMeshlets triangleBuilder quadLevel0 [0, 1, 2] = some p1 ∧
        (∀ m ∈ p1.meshlets,
          MeshletBounds p1.meshletVertexIndices.length p1.meshletIndices.length m) ∧
        p1.meshlets.length =
          quadLevel0.meshlets.length +
            (triangleBuilder [0, 1, 2] quadLevel0.vertices).meshletCount := by
  refine ⟨by decide, by decide, ?_⟩
  obtain ⟨p1, h1, h2, _, _, _, h6, _⟩ :=
    appendMeshlets_bounds triangleBuilder quadLevel0 [0, 1, 2]
      { vertex_offset := 0, triangle_offset := 0, vertex_count := 3, triangle_count := 1 }
      (by decide) (by decide)
  exact ⟨p1, h1, h2, h6⟩

/-- C27. For every primitive whose indices are all smaller than its vertex
count, `expandMesh` returns, with one sibling list per source vertex, and the
sibling lists partition the corner positions: position `i` occurs exactly once
in the list of the vertex `indices[i]` and in no other list; each list is
strictly increasing and holds only positions of its own vertex; and the list
of a vertex that no index refers to is empty. -/
theorem expandMesh_siblings_partition (p : LoadedPrimitive)
    (h : ∀ index ∈ p.indices, index < vertexCount p) :
    ∃ e, expandMesh p = some e ∧ e.duplicatedVertices.length = vertexCount p ∧
      (∀ (i index : Nat), p.indices[i]? = some index →
        ∃ siblings, e.duplicatedVertices[index]? = some siblings ∧ siblings.count i = 1 ∧
          ∀ (k : Nat) (others : List Nat), k ≠ index →
            e.duplicatedVertices[k]? = some others → i ∉ others) ∧
      (∀ (k : Nat) (siblings : List Nat), e.duplicatedVertices[k]? = some siblings →
        List.Pairwise (fun a b => a < b) siblings ∧
          (∀ s ∈ siblings, p.indices[s]? = some k) ∧
          (k ∉ p.indices → siblings = [])) := by
  obtain ⟨e, he, _, hlen, _, _, hdup⟩ := expandMesh_inv p h
  have hlist : ∀ (k : Nat) (siblings : List Nat), e.duplicatedVertices[k]? = some siblings →
      siblings = (List.range p.indices.length).filter fun i => p.indices[i]? == some k := by
    intro k siblings hk
    have hk1 : k < vertexCount p := by
      rw [← hlen]
      exact (List.getElem?_eq_some.mp hk).1
    rw [hdup k hk1] at hk
    exact (Option.some.inj hk).symm
  refine ⟨e, he, hlen, ?_, ?_⟩
  · intro i index hi
    have hindex : index < vertexCount p := h index (List.mem_iff_getElem?.mpr ⟨i, hi⟩)
    have hil : i < p.indices.length := (List.getElem?_eq_some.mp hi).1
    refine ⟨_, hdup index hindex, ?_, ?_⟩
    · apply List.count_eq_one_of_mem
      · exact List.Nodup.filter _ (List.nodup_range _)
      · rw [List.mem_filter]
        exact ⟨List.mem_range.mpr hil, by simp [hi]⟩
    · intro k others hk hothers hmem
      rw [hlist k others hothers, List.mem_filter] at hmem
      have h2 := hmem.2
      simp only [hi, beq_iff_eq, Option.some.injEq] at h2
      exact hk h2.symm
  · intro k siblings hk
    have hs := hlist k siblings hk
    refine ⟨?_, ?_, ?_⟩
    · rw [hs]
      exact List.Pairwise.filter _ (List.pairwise_lt_range _)
    · intro s hmem
      rw [hs, List.mem_filter] at hmem
      simpa using hmem.2
    · intro hnot
      rw [hs, List.filter_eq_nil_iff]
      intro i _ hi
      simp only [beq_iff_eq] at hi
      exact hnot (List.mem_iff_getElem?.mpr ⟨i, hi⟩)

/-- The statement of C27 on `quad`, whose index buffer is `[0, 1, 2, 0, 2, 3]`:
the sibling lists are `[0, 3]`, `[1]`, `[2, 4]`, `[5]`. -/
theorem expandMesh_siblings_partition_witness :
    (∀ index ∈ quad.indices, index < vertexCount quad) ∧
      (expandMesh quad).map (fun e => e.duplicatedVertices) = some [[0, 3], [1], [2, 4], [5]] ∧
      ∃ e, expandMesh quad = some e ∧ e.duplicatedVertices.length = vertexCount quad ∧
        ∀ (k : Nat) (siblings : List Nat), e.duplicatedVertices[k]? = some siblings →
          List.Pairwise (fun a b => a < b) siblings := by
  refine ⟨by decide, by decide, ?_⟩
  obtain ⟨e, h1, h2, _, h4⟩ := expandMesh_siblings_partition quad (by decide)
  exact ⟨e, h1, h2, fun k siblings hk => (h4 k siblings hk).1⟩

theorem and_255 (x : Nat) : x &&& 0xFF = x % 256 :=
  Nat.and_pow_two_sub_one_eq_mod x 8

/-- C24. The 64-bit `write` is not little-endian. For `v = 2 ^ 40` the eight
appended bytes are all zero, where the little-endian bytes are
`[0, 0, 0, 0, 0, 1, 0, 0]`; they are the bytes appended for `v = 0` too, so the
appended bytes do not determine `v`. In general bytes 5, 6 and 7 are
`(v >> 48) & 0xFF`, `(v >> 56) & 0xFF` and `(v >> 60) & 0xFF`. The 16-bit and
the 32-bit `write` append exactly the little-endian bytes and leave the
destination as it is. -/
theorem writeU64_not_little_endian :
    writeU64 [7] (2 ^ 40) = [7, 0, 0, 0, 0, 0, 0, 0, 0] ∧
      littleEndian 8 (2 ^ 40) = [0, 0, 0, 0, 0, 1, 0, 0] ∧
      writeU64 [7] 0 = writeU64 [7] (2 ^ 40) ∧
      (∀ (destination : List Nat) (v : Nat),
        writeU64 destination v =
          destination ++ littleEndian 5 (v % 2 ^ 64) ++
            [(v % 2 ^ 64) >>> 48 &&& 0xFF, (v % 2 ^ 64) >>> 56 &&& 0xFF,
              (v % 2 ^ 64) >>> 60 &&& 0xFF]) ∧
      (∀ (destination : List Nat) (v : Nat),
        writeU16 destination v = destination ++ littleEndian 2 (v % 2 ^ 16)) ∧
      ∀ (destination : List Nat) (v : Nat),
        writeU32 destination v = destination ++ littleEndian 4 (v % 2 ^ 32) := by
  refine ⟨by decide, by decide, by decide, ?_, ?_, ?_⟩
  · intro destination v
    simp [writeU64, littleEndian, List.range_succ, and_255]
  · intro destination v
    simp [writeU16, littleEndian, List.range_succ, and_255]
  · intro destination v
    simp [writeU32, littleEndian, List.range_succ, and_255]

/-- C23, as stated, fails: a load failure and a write failure return the same
error code, `GLTFCompressionError`; only the messages differ. -/
theorem processGLTF_same_error_code :
    (processGLTF toyCollaborators "missing.gltf" "out.gltf").map (fun r => r.1) =
        some { errorCode := ConversionResultError.GLTFCompressionError
               errorMessage := "no such file" } ∧
      (processGLTF toyCollaborators "in.gltf" "/readonly/out.gltf").map (fun r => r.1) =
        some { errorCode := ConversionResultError.GLTFCompressionError
               errorMessage := "Could not write GLTF" } ∧
      (processGLTF toyCollaborators "missing.gltf" "out.gltf").map (fun r => r.1.errorCode) =
        (processGLTF toyCollaborators "in.gltf" "/readonly/out.gltf").map
          (fun r => r.1.errorCode) := by
  decide!

/-- C23, amended. When the load fails, `processGLTF` returns
`GLTFCompressionError` with the parser's `errors` as message, and has called
neither `processModel` nor the writer. When the load succeeds and
`processModel` returns, the writer is called on the processed model: the
result is `Success` when the write succeeds and `GLTFCompressionError` with
the message `Could not write GLTF` when it fails. So the returned code is
`Success` exactly when the load and the write both succeed. -/
theorem processGLTF_result {Model Rest : Type} (tools : Collaborators Model Rest)
    (inputFile outputFile : String) :
    ((tools.LoadASCIIFromFile inputFile).loaded = false →
      processGLTF tools inputFile outputFile =
        some
          ({ errorCode := ConversionResultError.GLTFCompressionError
             errorMessage := (tools.LoadASCIIFromFile inputFile).errors },
            [ConversionEvent.load inputFile])) ∧
      (∀ (model : Model), (tools.LoadASCIIFromFile inputFile).loaded = true →
        processModel tools (tools.stem outputFile) (tools.LoadASCIIFromFile inputFile).model =
          some model →
        processGLTF tools inputFile outputFile =
          some
            (if tools.WriteGltfSceneToFile model outputFile then
              { errorCode := ConversionResultError.Success, errorMessage := "" }
            else
              { errorCode := ConversionResultError.GLTFCompressionError
                errorMessage := "Could not write GLTF" },
              [ConversionEvent.load inputFile, ConversionEvent.process (tools.stem outputFile),
                ConversionEvent.write outputFile])) ∧
      ∀ (result : ConversionResult) (log : List ConversionEvent),
        processGLTF tools inputFile outputFile = some (result, log) →
        (result.errorCode = ConversionResultError.Success ↔
          (tools.LoadASCIIFromFile inputFile).loaded = true ∧
            ∃ model,
              processModel tools (tools.stem outputFile)
                  (tools.LoadASCIIFromFile inputFile).model = some model ∧
                tools.WriteGltfSceneToFile model outputFile = true) := by
  refine ⟨?_, ?_, ?_⟩
  · intro hload
    simp [processGLTF, hload]
  · intro model hload hmodel
    by_cases hw : tools.WriteGltfSceneToFile model outputFile = true
    · simp [processGLTF, hload, hmodel, hw]
    · simp [processGLTF, hload, hmodel, hw]
  · intro result log h
    unfold processGLTF at h
    by_cases hload : (tools.LoadASCIIFromFile inputFile).loaded = true
    · simp only [hload, Bool.not_true, Bool.false_eq_true, if_false] at h
      cases hmodel : processModel tools (tools.stem outputFile)
          (tools.LoadASCIIFromFile inputFile).model with
      | none => simp [hmodel] at h
      | some model =>
        simp only [hmodel] at h
        by_cases hw : tools.WriteGltfSceneToFile model outputFile = true
        · simp only [hw, Bool.not_true, Bool.false_eq_true, if_false, Option.some.injEq,
            Prod.mk.injEq] at h
          rw [← h.1]
          simp [hload, hw]
        · simp only [hw, Bool.not_false, if_true, Option.some.injEq, Prod.mk.injEq] at h
          rw [← h.1]
          simp [hload, hw]
    · simp only [hload, Bool.not_false, if_true, Option.some.injEq, Prod.mk.injEq] at h
      rw [← h.1]
      simp [hload]

/-- The amended statement of C23 on the example collaborators: loading
`in.gltf` and writing `out.gltf` both succeed, the result is `Success`. -/
theorem processGLTF_result_witness :
    (toyCollaborators.LoadASCIIFromFile "in.gltf").loaded = true ∧
      (processGLTF toyCollaborators "in.gltf" "out.gltf").map (fun r => r.1.errorCode) =
        some ConversionResultError.Success ∧
      (toyCollaborators.LoadASCIIFromFile "missing.gltf").loaded = false ∧
      processGLTF toyCollaborators "missing.gltf" "out.gltf" =
        some
          ({ errorCode := ConversionResultError.GLTFCompressionError
             errorMessage := "no such file" }, [ConversionEvent.load "missing.gltf"]) :=
  ⟨by decide, by decide!, by decide,
    (processGLTF_result toyCollaborators "missing.gltf" "out.gltf").1 (by decide)⟩

/-- C30. `addGeometry` loses indices of a meshlet with more than 255 of them.
For one meshlet of 86 triangles, `indexCount = 258 <= 384`, the cluster gets
the count `258 mod 256 = 2`, the index array is grown by 2 entries, and the
copy of the 258 indices leaves the array at its third write: the function does
not return. With one triangle, `indexCount = 3`, the cluster has count 3 and
the index array is `[0, 1, 2]`. -/
theorem addGeometry_truncates_index_count :
    (∀ m ∈ (fanDescription 86).meshlets, m.indexCount = 258 ∧ m.indexCount ≤ 384) ∧
      castUInt8 258 = 2 ∧
      addGeometry 4096 8192 64 [] (fanDescription 86) = none ∧
      (addGeometry 4096 8192 64 [] (fanDescription 1)).map
          (fun st => (st.clusters, st.indices)) =
        some ([{ vertexBufferAddress := 4096, indexBufferAddress := 8192, indexCount := 3 }],
          [0, 1, 2]) := by
  decide!

theorem tagLod_length (meshlets : List Meshlet) (lod : Nat) :
    tagLod meshlets meshlets.length lod = meshlets := by
  simp [tagLod]

theorem hierarchyLevels_stop (services : Services) (remaining lod : Nat) (st : HierarchyState)
    (h : st.primitive.meshlets.length - st.previousMeshletsStart ≤ 1) :
    hierarchyLevels services remaining lod st = some st := by
  cases remaining with
  | zero => rfl
  | succ remaining =>
    unfold hierarchyLevels
    rw [if_pos h]

theorem simplifyGroup_trace (services : Services) (lod : Nat) (st st1 : HierarchyState)
    (group : MeshletGroup) (h : simplifyGroup services lod st group = some st1) :
    ∃ more, st1.trace = st.trace ++ more ∧
      ((∀ e ∈ more, Skipped services e) →
        st1.primitive = st.primitive ∧
          st1.previousMeshletsStart = st.previousMeshletsStart ∧
          (∀ e ∈ more, isAppend e = false) ∧ levelsRun more = 0) := by
  unfold simplifyGroup at h
  simp only [Option.bind_eq_bind] at h
  obtain ⟨gathered, _, h⟩ := Option.bind_eq_some.mp h
  split at h
  · have hst := Option.some.inj h
    subst hst
    refine ⟨_, rfl, fun _ => ⟨rfl, rfl, ?_, ?_⟩⟩
    · intro e he
      rw [List.mem_singleton] at he
      subst he
      rfl
    · rfl
  · rename_i hne
    obtain ⟨p1, _, h⟩ := Option.bind_eq_some.mp h
    have hst := Option.some.inj h
    subst hst
    refine ⟨_, List.append_assoc _ _ _, fun hskip => ?_⟩
    have := hskip _ (List.mem_append_left _ (List.mem_singleton_self _))
    exact absurd this hne

theorem simplifyGroups_trace (services : Services) (lod : Nat) (groups : List MeshletGroup)
    (st st1 : HierarchyState)
    (h : groups.foldlM (simplifyGroup services lod) st = some st1) :
    ∃ more, st1.trace = st.trace ++ more ∧
      ((∀ e ∈ more, Skipped services e) →
        st1.primitive = st.primitive ∧
          st1.previousMeshletsStart = st.previousMeshletsStart ∧
          (∀ e ∈ more, isAppend e = false) ∧ levelsRun more = 0) := by
  induction groups generalizing st with
  | nil =>
    simp at h
    subst h
    exact ⟨[], by simp, fun _ => ⟨rfl, rfl, by simp, rfl⟩⟩
  | cons g rest ih =>
    rw [List.foldlM_cons] at h
    obtain ⟨mid, hmid, h⟩ := Option.bind_eq_some.mp h
    obtain ⟨more1, a1, a2⟩ := simplifyGroup_trace services lod st mid g hmid
    obtain ⟨more2, b1, b2⟩ := ih mid h
    refine ⟨more1 ++ more2, by rw [b1, a1, List.append_assoc], fun hskip => ?_⟩
    obtain ⟨c1, c2, c3, c4⟩ := a2 fun e he => hskip e (List.mem_append_left _ he)
    obtain ⟨d1, d2, d3, d4⟩ := b2 fun e he => hskip e (List.mem_append_right _ he)
    refine ⟨by rw [d1, c1], by rw [d2, c2], ?_, by rw [levelsRun_append, c4, d4]⟩
    intro e he
    rcases List.mem_append.mp he with h1 | h1
    · exact c3 e h1
    · exact d3 e h1

theorem levelBody_trace (services : Services) (lod : Nat) (st st1 : HierarchyState)
    (h : levelBody services lod st = some st1) :
    ∃ more, st1.trace = st.trace ++ more ∧
      ((∀ e ∈ more, Skipped services e) →
        st1.primitive = st.primitive ∧
          st1.previousMeshletsStart = st.primitive.meshlets.length ∧
          (∀ e ∈ more, isAppend e = false) ∧ levelsRun more = 1) := by
  unfold levelBody at h
  simp only [Option.bind_eq_bind] at h
  obtain ⟨groups, _, h⟩ := Option.bind_eq_some.mp h
  obtain ⟨st2, hst2, h⟩ := Option.bind_eq_some.mp h
  have hst := Option.some.inj h
  subst hst
  obtain ⟨more, a1, a2⟩ := simplifyGroups_trace services lod groups _ st2 hst2
  simp only [] at a1 a2
  refine ⟨_ :: more, by simp only []; rw [a1, List.append_assoc]; rfl, fun hskip => ?_⟩
  obtain ⟨c1, _, c3, c4⟩ := a2 fun e he => hskip e (List.mem_cons_of_mem _ he)
  refine ⟨?_, rfl, ?_, ?_⟩
  · simp only []
    rw [c1, tagLod_length]
  · intro e he
    rcases List.mem_cons.mp he with h1 | h1
    · subst h1
      rfl
    · exact c3 e h1
  · have := levelsRun_append [HierarchyEvent.level lod
        (st.primitive.meshlets.drop st.previousMeshletsStart).length] more
    simp only [List.singleton_append] at this
    rw [this, c4]
    rfl

theorem hierarchyLevels_trace (services : Services) (remaining lod : Nat)
    (st res : HierarchyState) (h : hierarchyLevels services remaining lod st = some res) :
    ∃ more, res.trace = st.trace ++ more ∧
      ((∀ e ∈ more, Skipped services e) →
        res.primitive = st.primitive ∧ (∀ e ∈ more, isAppend e = false) ∧
          levelsRun more ≤ 1) := by
  induction remaining generalizing lod st with
  | zero =>
    simp [hierarchyLevels] at h
    subst h
    exact ⟨[], by simp, fun _ => ⟨rfl, by simp, by simp [levelsRun]⟩⟩
  | succ remaining ih =>
    unfold hierarchyLevels at h
    split at h
    · have hst := Option.some.inj h
      subst hst
      exact ⟨[], by simp, fun _ => ⟨rfl, by simp, by simp [levelsRun]⟩⟩
    · cases hbody : levelBody services lod st with
      | none => simp [hbody] at h
      | some st1 =>
        simp only [hbody] at h
        obtain ⟨more1, a1, a2⟩ := levelBody_trace services lod st st1 hbody
        obtain ⟨more2, b1, _⟩ := ih (lod + 1) st1 h
        refine ⟨more1 ++ more2, by rw [b1, a1, List.append_assoc], fun hskip => ?_⟩
        obtain ⟨c1, c2, c3, c4⟩ := a2 fun e he => hskip e (List.mem_append_left _ he)
        have hstop := hierarchyLevels_stop services remaining (lod + 1) st1
          (by rw [c2, c1]; omega)
        rw [hstop] at h
        have hres := Option.some.inj h
        subst hres
        have hnil : more2 = [] := by
          have := b1
          simpa using this
        subst hnil
        refine ⟨c1, ?_, ?_⟩
        · simpa using c3
        · simp [c4]

theorem targetError_lt (lod : Nat) : targetError lod < targetError (lod + 1) := by
  unfold targetError maxLOD
  push_cast
  linarith

/-- C21. For every primitive and every run of `generateClusterHierarchy` in
which each call of the simplifier returned as many indices as it was handed,
no meshlet is emitted beyond level 0: the resulting primitive is the one that
the level-0 `appendMeshlets` call left (same meshlets, same
`meshletVertexIndices`, same `meshletIndices`), that call is the only call of
`appendMeshlets`, at most one level body ran, and the meshlets that the call
produced have lod 0, which is all of them when the primitive entered without
meshlets. -/
theorem generateClusterHierarchy_no_reduction (services : Services) (p : LoadedPrimitive)
    (st : HierarchyState) (h : generateClusterHierarchyTrace services p = some st)
    (hskip : ∀ e ∈ st.trace, Skipped services e) :
    ∃ p1, appendMeshlets services.builder p p.indices = some p1 ∧
      generateClusterHierarchy services p = some p1 ∧
      st.primitive.meshlets = p1.meshlets ∧
      st.primitive.meshletVertexIndices = p1.meshletVertexIndices ∧
      st.primitive.meshletIndices = p1.meshletIndices ∧
      st.trace.filter isAppend = [HierarchyEvent.append p.indices] ∧
      levelsRun st.trace ≤ 1 ∧
      (∀ m ∈ p1.meshlets.drop p.meshlets.length, m.lod = 0) ∧
      (p.meshlets = [] → ∀ m ∈ st.primitive.meshlets, m.lod = 0) := by
  have h0 := h
  unfold generateClusterHierarchyTrace at h
  simp only [Option.bind_eq_bind] at h
  obtain ⟨p1, hp1, h⟩ := Option.bind_eq_some.mp h
  obtain ⟨new, hnew, _, hlod⟩ := appendMeshlets_meshlets _ _ _ _ hp1
  obtain ⟨more, a1, a2⟩ := hierarchyLevels_trace _ _ _ _ _ h
  simp only [] at a1 a2
  obtain ⟨c1, c2, c3⟩ := a2 fun e he => hskip e (by rw [a1]; exact List.mem_append_right _ he)
  have hdrop : ∀ m ∈ p1.meshlets.drop p.meshlets.length, m.lod = 0 := by
    intro m hm
    rw [hnew, List.drop_left] at hm
    exact hlod m hm
  refine ⟨p1, hp1, ?_, by rw [c1], by rw [c1], by rw [c1], ?_, ?_, hdrop, ?_⟩
  · unfold generateClusterHierarchy
    rw [h0]
    simp [c1]
  · rw [a1, List.filter_append]
    have : more.filter isAppend = [] := by
      rw [List.filter_eq_nil_iff]
      intro e he
      simp [c2 e he]
    rw [this]
    rfl
  · rw [a1, levelsRun_append]
    have : levelsRun [HierarchyEvent.append p.indices] = 0 := rfl
    omega
  · intro hempty m hm
    rw [c1] at hm
    apply hdrop
    rw [hempty]
    simpa using hm

/-- The statement of C21 on `quad` with a simplifier that returns its input:
the result is `quadLevel0`, two meshlets of lod 0. -/
theorem generateClusterHierarchy_no_reduction_witness :
    generateClusterHierarchyTrace stubbornServices quad = some stubbornRun ∧
      (∀ e ∈ stubbornRun.trace, Skipped stubbornServices e) ∧
      generateClusterHierarchy stubbornServices quad = some quadLevel0 ∧
      quadLevel0.meshlets.map (fun m => m.lod) = [0, 0] ∧
      ∃ p1, appendMeshlets stubbornServices.builder quad quad.indices = some p1 ∧
        generateClusterHierarchy stubbornServices quad = some p1 ∧
        stubbornRun.primitive.meshlets = p1.meshlets := by
  refine ⟨by decide!, by decide!, by decide!, by decide!, ?_⟩
  obtain ⟨p1, h1, h2, h3, _⟩ :=
    generateClusterHierarchy_no_reduction stubbornServices quad stubbornRun (by decide!)
      (by decide!)
  exact ⟨p1, h1, h2, h3⟩

/-- C22, as stated, fails. On `quad` (two level-0 meshlets, one group) with a
simplifier that reduces nothing at the target error of level 0 but would halve
the same group at the target error of level 1, the body of level 0 skips the
group and the loop then stops: one level body ran, not 25, and the result has
lod-0 meshlets only. -/
theorem generateClusterHierarchy_stops_when_all_skipped :
    generateClusterHierarchyTrace lateServices quad = some lateRun ∧
      levelsRun lateRun.trace = 1 ∧
      lateRun.primitive.meshlets.map (fun m => m.lod) = [0, 0] ∧
      lateRun.primitive.meshlets.length - lateRun.previousMeshletsStart = 0 ∧
      (lateSimplifier
          { indices := [0, 1, 2, 0, 2, 3], vertices := quad.vertices, targetIndexCount := 3
            targetError := targetError 0 }).simplifiedIndexCount = 6 ∧
      (lateSimplifier
          { indices := [0, 1, 2, 0, 2, 3], vertices := quad.vertices, targetIndexCount := 3
            targetError := targetError 1 }).simplifiedIndexCount = 3 := by
  decide!

/-- C22, amended. When every group of a level is skipped, the level leaves
the primitive as it was and sets `previousMeshletsStart` to the end of the
meshlet list, so the next level finds no meshlet of a previous level and the
loop stops there, however many iterations remain: no later level, with its
larger target error, is run. -/
theorem generateClusterHierarchy_skipped_level_stops (services : Services)
    (lod remaining : Nat) (st st1 : HierarchyState)
    (hbody : levelBody services lod st = some st1)
    (hskip : ∀ e ∈ st1.trace.drop st.trace.length, Skipped services e) :
    st1.primitive = st.primitive ∧
      st1.primitive.meshlets.length - st1.previousMeshletsStart = 0 ∧
      hierarchyLevels services remaining (lod + 1) st1 = some st1 ∧
      targetError lod < targetError (lod + 1) := by
  obtain ⟨more, a1, a2⟩ := levelBody_trace services lod st st1 hbody
  rw [a1, List.drop_left] at hskip
  obtain ⟨c1, c2, _, _⟩ := a2 hskip
  have hzero : st1.primitive.meshlets.length - st1.previousMeshletsStart = 0 := by
    rw [c2, c1]
    omega
  exact ⟨c1, hzero, hierarchyLevels_stop services remaining (lod + 1) st1 (by omega),
    targetError_lt lod⟩

/-- The amended statement of C22 on `quad` at level 0 under `lateServices`,
with 24 iterations to go. -/
theorem generateClusterHierarchy_skipped_level_stops_witness :
    levelBody lateServices 0 quadStart = some lateLevel ∧
      (∀ e ∈ lateLevel.trace.drop quadStart.trace.length, Skipped lateServices e) ∧
      lateLevel.primitive = quadStart.primitive ∧
      hierarchyLevels lateServices 24 1 lateLevel = some lateLevel :=
  ⟨by decide!, by decide!,
    (generateClusterHierarchy_skipped_level_stops lateServices 0 24 quadStart lateLevel
      (by decide!) (by decide!)).1,
    (generateClusterHierarchy_skipped_level_stops lateServices 0 24 quadStart lateLevel
      (by decide!) (by decide!)).2.2.1⟩

/-- C29. The read `meshoptMeshlets[meshletCount - 1]` can leave the vector.
On the two-faced triangle `pillow` (two triangles, two level-0 meshlets, one
group of 6 indices) with a simplifier that collapses the group to 0 indices,
`0 != 6`, so `appendMeshlets` is called with the empty index buffer; the
builder makes no meshlet for it, `meshletCount = 0`, and the read of the last
meshlet fails: `appendMeshlets`, and with it `generateClusterHierarchy`, does
not return. -/
theorem generateClusterHierarchy_empty_append :
    1 ≤ pillow.indices.length / 3 ∧
      appendMeshlets collapsingServices.builder pillow pillow.indices = some pillowLevel0 ∧
      pillowLevel0.meshlets.length = 2 ∧
      gatherGroup pillowLevel0 0 { meshlets := [0, 1] } = some [0, 1, 2, 2, 1, 0] ∧
      resize
          (collapsingSimplifier
            { indices := [0, 1, 2, 2, 1, 0], vertices := pillow.vertices, targetIndexCount := 3
              targetError := targetError 0 }).simplifiedIndexBuffer
          (collapsingSimplifier
            { indices := [0, 1, 2, 2, 1, 0], vertices := pillow.vertices, targetIndexCount := 3
              targetError := targetError 0 }).simplifiedIndexCount 0 = [] ∧
      (collapsingServices.builder [] pillowLevel0.vertices).meshletCount = 0 ∧
      appendMeshlets collapsingServices.builder pillowLevel0 [] = none ∧
      generateClusterHierarchy collapsingServices pillow = none := by
  decide!

theorem window_get (l : List Nat) (off cnt j : Nat) (h : off + cnt ≤ l.length) (hj : j < cnt) :
    ∃ x, l[off + j]? = some x ∧ x ∈ (l.drop off).take cnt := by
  have hlt : off + j < l.length := by omega
  refine ⟨l[off + j], List.getElem?_eq_getElem hlt, ?_⟩
  rw [List.mem_iff_getElem?]
  refine ⟨j, ?_⟩
  rw [List.getElem?_take_of_lt hj, List.getElem?_drop, List.getElem?_eq_getElem hlt]

theorem meshletGlobalIndices_get (p : LoadedPrimitive) (m : Meshlet) (hm : MeshletValid p m)
    (j : Nat) (hj : j < m.indexCount) :
    ∃ slot vertexIndex, p.meshletIndices[m.indexOffset + j]? = some slot ∧
      p.meshletVertexIndices[slot + m.vertexOffset]? = some vertexIndex ∧
      (meshletGlobalIndices p m)[j]? = some vertexIndex ∧ vertexIndex < p.vertices.length := by
  obtain ⟨hb, hslots, hverts⟩ := hm
  obtain ⟨hb1, hb2, _⟩ := hb
  obtain ⟨slot, hslot, hmem⟩ := window_get p.meshletIndices m.indexOffset m.indexCount j hb2 hj
  obtain ⟨vi, hvi, hmem2⟩ := window_get p.meshletVertexIndices m.vertexOffset m.vertexCount slot
    hb1 (hslots slot hmem)
  rw [Nat.add_comm] at hvi
  refine ⟨slot, vi, hslot, hvi, ?_, hverts vi hmem2⟩
  unfold meshletGlobalIndices
  rw [List.getElem?_map, List.getElem?_range hj]
  simp [hslot, hvi]

theorem meshletGlobalIndices_length (p : LoadedPrimitive) (m : Meshlet) :
    (meshletGlobalIndices p m).length = m.indexCount := by
  simp [meshletGlobalIndices]

theorem gather_fold (p : LoadedPrimitive) (m : Meshlet) (hm : MeshletValid p m)
    (g0 : List Nat) (n : Nat) (hn : n ≤ m.indexCount) :
    ∃ g, (List.range n).foldlM (gatherStep p m g0.length)
        (resize g0 (g0.length + m.indexCount) 0) = some g ∧
      g.length = g0.length + m.indexCount ∧
      (∀ (i : Nat), i < g0.length → g[i]? = g0[i]?) ∧
      ∀ (j : Nat), j < n → g[g0.length + j]? = (meshletGlobalIndices p m)[j]? := by
  induction n with
  | zero =>
    refine ⟨_, rfl, ?_, ?_, ?_⟩
    · rw [resize_length]
    · intro i hi
      exact resize_getElem?_old g0 _ 0 i hi (by omega)
    · intro j hj
      exact absurd hj (Nat.not_lt_zero j)
  | succ n ih =>
    obtain ⟨g, hg, hlen, hold, hnew⟩ := ih (by omega)
    obtain ⟨slot, vi, hslot, hvi, hval, _⟩ := meshletGlobalIndices_get p m hm n (by omega)
    have hstep : gatherStep p m g0.length g n = some (g.set (n + g0.length) vi) := by
      unfold gatherStep
      simp only [Option.bind_eq_bind, hslot, Option.some_bind, hvi]
      rw [if_pos (by omega)]
    refine ⟨g.set (n + g0.length) vi, ?_, ?_, ?_, ?_⟩
    · rw [List.range_succ, List.foldlM_append, hg]
      simp [hstep]
    · rw [List.length_set, hlen]
    · intro i hi
      rw [List.getElem?_set_ne (by omega)]
      exact hold i hi
    · intro j hj
      by_cases hjn : j = n
      · subst hjn
        rw [Nat.add_comm, List.getElem?_set_eq_of_lt _ (by omega), hval]
      · rw [List.getElem?_set_ne (by omega)]
        exact hnew j (by omega)

theorem gatherMeshlet_append (p : LoadedPrimitive) (start : Nat) (g0 : List Nat)
    (meshletIndex : Nat) (m : Meshlet)
    (hget : (p.meshlets.drop start)[meshletIndex]? = some m) (hm : MeshletValid p m) :
    gatherMeshlet p start g0 meshletIndex = some (g0 ++ meshletGlobalIndices p m) := by
  obtain ⟨g, hg, hlen, hold, hnew⟩ := gather_fold p m hm g0 m.indexCount le_rfl
  unfold gatherMeshlet
  simp only [Option.bind_eq_bind, hget, Option.some_bind]
  rw [hg]
  congr 1
  apply List.ext_getElem?
  intro i
  by_cases hi : i < g0.length
  · rw [hold i hi, List.getElem?_append_left hi]
  · have hge : g0.length ≤ i := by omega
    rw [List.getElem?_append_right hge]
    by_cases hi2 : i - g0.length < m.indexCount
    · have := hnew (i - g0.length) hi2
      rw [← this]
      congr 1
      omega
    · rw [List.getElem?_eq_none (by omega),
        List.getElem?_eq_none (by rw [meshletGlobalIndices_length]; omega)]

theorem gather_groups (p : LoadedPrimitive) (start : Nat) (meshlets : List Nat)
    (hgroup : ∀ meshletIndex ∈ meshlets,
      meshletIndex < (p.meshlets.drop start).length ∧
        ∀ m ∈ (p.meshlets.drop start)[meshletIndex]?, MeshletValid p m)
    (g0 : List Nat) :
    meshlets.foldlM (gatherMeshlet p start) g0 =
      some (g0 ++ groupIndices p (p.meshlets.drop start) { meshlets := meshlets }) := by
  induction meshlets generalizing g0 with
  | nil => simp [groupIndices]
  | cons meshletIndex rest ih =>
    obtain ⟨hlt, hvalid⟩ := hgroup meshletIndex (List.mem_cons_self _ _)
    have hget : (p.meshlets.drop start)[meshletIndex]? =
        some (p.meshlets.drop start)[meshletIndex] := List.getElem?_eq_getElem hlt
    have hm := hvalid _ hget
    rw [List.foldlM_cons, gatherMeshlet_append p start g0 meshletIndex _ hget hm]
    simp only [Option.bind_eq_bind, Option.some_bind]
    rw [ih (fun i hi => hgroup i (List.mem_cons_of_mem _ hi))]
    simp only [groupIndices, List.flatMap_cons, hget, List.append_assoc]

/-- C26. For every group whose meshlet indices are positions of the previous
level and whose meshlets satisfy the meshlet invariants, the gather step of
`generateClusterHierarchy` returns (no read outside a vector) and its result is
the vector `groupIndices` of the spec: the concatenation, meshlet by meshlet
in group order, of
`meshletVertexIndices[meshletIndices[indexOffset + j] + vertexOffset]` for
`j < indexCount`. Its length is the sum of the `indexCount` of the meshlets, a
multiple of 3, and every entry is a position of the vertex buffer. -/
theorem gatherGroup_concatenates (p : LoadedPrimitive) (start : Nat) (group : MeshletGroup)
    (hgroup : ∀ meshletIndex ∈ group.meshlets,
      meshletIndex < (p.meshlets.drop start).length ∧
        ∀ m ∈ (p.meshlets.drop start)[meshletIndex]?, MeshletValid p m) :
    gatherGroup p start group = some (groupIndices p (p.meshlets.drop start) group) ∧
      (groupIndices p (p.meshlets.drop start) group).length =
        groupIndexCount (p.meshlets.drop start) group ∧
      (groupIndices p (p.meshlets.drop start) group).length % 3 = 0 ∧
      ∀ x ∈ groupIndices p (p.meshlets.drop start) group, x < p.vertices.length := by
  obtain ⟨meshlets⟩ := group
  simp only [] at hgroup
  refine ⟨?_, ?_, ?_, ?_⟩
  · unfold gatherGroup
    rw [gather_groups p start meshlets hgroup []]
    simp
  · unfold groupIndices groupIndexCount
    simp only []
    clear hgroup
    induction meshlets with
    | nil => rfl
    | cons i rest ih =>
      simp only [List.flatMap_cons, List.length_append, List.map_cons, List.sum_cons, ih]
      congr 1
      cases (p.meshlets.drop start)[i]? with
      | none => rfl
      | some m => exact meshletGlobalIndices_length p m
  · unfold groupIndices
    simp only []
    induction meshlets with
    | nil => rfl
    | cons i rest ih =>
      obtain ⟨hlt, hvalid⟩ := hgroup i (List.mem_cons_self _ _)
      have hget : (p.meshlets.drop start)[i]? = some (p.meshlets.drop start)[i] :=
        List.getElem?_eq_getElem hlt
      have hm := hvalid _ hget
      have h3 : (p.meshlets.drop start)[i].indexCount % 3 = 0 := hm.1.2.2.1
      have hrest := ih (fun j hj => hgroup j (List.mem_cons_of_mem _ hj))
      simp only [List.flatMap_cons, List.length_append, hget, meshletGlobalIndices_length]
      omega
  · intro x hx
    unfold groupIndices at hx
    simp only [List.mem_flatMap] at hx
    obtain ⟨i, hi, hx⟩ := hx
    obtain ⟨hlt, hvalid⟩ := hgroup i hi
    have hget : (p.meshlets.drop start)[i]? = some (p.meshlets.drop start)[i] :=
      List.getElem?_eq_getElem hlt
    have hm := hvalid _ hget
    simp only [hget] at hx
    obtain ⟨j, hj⟩ := List.mem_iff_getElem?.mp hx
    have hjlt : j < (p.meshlets.drop start)[i].indexCount := by
      have := (List.getElem?_eq_some.mp hj).1
      rwa [meshletGlobalIndices_length] at this
    obtain ⟨_, vi, _, _, hval, hbound⟩ := meshletGlobalIndices_get p _ hm j hjlt
    rw [hval] at hj
    rw [← Option.some.inj hj]
    exact hbound

/-- The statement of C26 on `quad` after level 0 (two meshlets of one
triangle) for the group of both meshlets: `groupIndices = [0, 1, 2, 0, 2, 3]`. -/
theorem gatherGroup_concatenates_witness :
    (∀ meshletIndex ∈ [0, 1],
      meshletIndex < (quadLevel0.meshlets.drop 0).length ∧
        ∀ m ∈ (quadLevel0.meshlets.drop 0)[meshletIndex]?, MeshletValid quadLevel0 m) ∧
      gatherGroup quadLevel0 0 { meshlets := [0, 1] } = some [0, 1, 2, 0, 2, 3] ∧
      gatherGroup quadLevel0 0 { meshlets := [0, 1] } =
        some (groupIndices quadLevel0 (quadLevel0.meshlets.drop 0) { meshlets := [0, 1] }) :=
  ⟨by decide, by decide,
    (gatherGroup_concatenates quadLevel0 0 { meshlets := [0, 1] } (by decide)).1⟩

theorem firstUse_reuse (indices : List Nat) (count k : Nat) (h : FirstUse indices count)
    (hk : k < count) : FirstUse (indices ++ [k]) count := by
  obtain ⟨ha, hb⟩ := h
  constructor
  · intro i x hi
    by_cases hlt : i < indices.length
    · rw [List.getElem?_append_left hlt] at hi
      exact ha i x hi
    · rw [List.getElem?_append_right (by omega)] at hi
      have hx : x = k := by
        cases hd : i - indices.length with
        | zero => simp [hd] at hi; exact hi.symm
        | succ d => simp [hd] at hi
      rw [hx]
      exact hk
  · intro x hx
    obtain ⟨i, hi, hbefore⟩ := hb x hx
    have hlt : i < indices.length := (List.getElem?_eq_some.mp hi).1
    refine ⟨i, by rw [List.getElem?_append_left hlt]; exact hi, ?_⟩
    intro j kj hj hkj
    rw [List.getElem?_append_left (by omega)] at hkj
    exact hbefore j kj hj hkj

theorem firstUse_fresh (indices : List Nat) (count : Nat) (h : FirstUse indices count) :
    FirstUse (indices ++ [count]) (count + 1) := by
  obtain ⟨ha, hb⟩ := h
  constructor
  · intro i x hi
    by_cases hlt : i < indices.length
    · rw [List.getElem?_append_left hlt] at hi
      have := ha i x hi
      omega
    · rw [List.getElem?_append_right (by omega)] at hi
      have hx : x = count := by
        cases hd : i - indices.length with
        | zero => simp [hd] at hi; exact hi.symm
        | succ d => simp [hd] at hi
      omega
  · intro x hx
    by_cases hxc : x < count
    · obtain ⟨i, hi, hbefore⟩ := hb x hxc
      have hlt : i < indices.length := (List.getElem?_eq_some.mp hi).1
      refine ⟨i, by rw [List.getElem?_append_left hlt]; exact hi, ?_⟩
      intro j kj hj hkj
      rw [List.getElem?_append_left (by omega)] at hkj
      exact hbefore j kj hj hkj
    · have hxe : x = count := by omega
      subst hxe
      refine ⟨indices.length, by simp, ?_⟩
      intro j kj hj hkj
      rw [List.getElem?_append_left hj] at hkj
      exact ha j kj hkj

theorem firstUse_before (indices : List Nat) (count : Nat) (h : FirstUse indices count)
    (i k : Nat) (hi : indices[i]? = some k) (k1 : Nat) (hk1 : k1 < k) :
    ∃ j, j < i ∧ indices[j]? = some k1 := by
  obtain ⟨ha, hb⟩ := h
  obtain ⟨i1, hi1, hbefore⟩ := hb k1 (by have := ha i k hi; omega)
  refine ⟨i1, ?_, hi1⟩
  by_contra hnot
  have hne : i ≠ i1 := by
    intro he
    subst he
    rw [hi] at hi1
    have := Option.some.inj hi1
    omega
  have := hbefore i k (by omega) hi
  omega

theorem collapseStep_shape (st st1 : CollapseState) (i : Nat)
    (h : collapseStep st i = some st1) :
    st1.out.isSkinned = st.out.isSkinned ∧
      (UnusedEmpty st.out → UnusedEmpty st1.out) ∧
      ∃ k, st1.out.indices = st.out.indices ++ [k] ∧
        (st1.nextIndex = st.nextIndex ∨ (k = st.nextIndex ∧ st1.nextIndex = st.nextIndex + 1)) := by
  unfold collapseStep at h
  cases hc : st.mesh.vertices[i]? with
  | none => simp [hc] at h
  | some c =>
    cases hnew : c.newIndex with
    | some k => simp [hc, hnew] at h
    | none =>
      cases hs : st.mesh.duplicatedVertices[c.originalIndex]? with
      | none => simp [hc, hnew, hs] at h
      | some siblings =>
        cases hf : findIndexToReuse st.mesh.vertices c.vertex siblings with
        | none => simp [hc, hnew, hs, hf] at h
        | some r =>
          cases r with
          | some k =>
            simp [hc, hnew, hs, hf] at h
            subst h
            exact ⟨rfl, fun hu => hu, k, rfl, Or.inl rfl⟩
          | none =>
            by_cases hsk : st.out.isSkinned = true
            · simp [hc, hnew, hs, hf, hsk] at h
              subst h
              refine ⟨by simp [hsk], ?_, st.nextIndex, rfl, Or.inr ⟨rfl, rfl⟩⟩
              unfold UnusedEmpty
              simp [hsk]
            · simp [hc, hnew, hs, hf, hsk] at h
              subst h
              refine ⟨by simp [hsk], ?_, st.nextIndex, rfl, Or.inr ⟨rfl, rfl⟩⟩
              unfold UnusedEmpty
              simp [hsk]

theorem collapseInv_index_lt (m0 : ExpandedMesh) (isSk : Bool) (n : Nat) (st : CollapseState)
    (hinv : CollapseInv m0 isSk n st) (i k : Nat) (hi : st.out.indices[i]? = some k) :
    k < st.nextIndex := by
  obtain ⟨j, cj, _, _, hcj, _, hk, _⟩ := hinv.emitted i k hi
  have := stored_lt _ _ _ (hinv.written j cj k hcj hk)
  rw [hinv.size] at this
  exact this

theorem collapse_fold_firstUse (out : LoadedPrimitive) (m0 : ExpandedMesh)
    (hready : CollapseReady m0) (n : Nat) (hn : n ≤ m0.vertices.length) :
    ∃ st, (List.range n).foldlM collapseStep
        { out := { out with vertices := [], skinnedVertices := [], indices := [] }
          mesh := m0
          nextIndex := 0 } = some st ∧
      CollapseInv m0 out.isSkinned n st ∧ FirstUse st.out.indices st.nextIndex ∧
      UnusedEmpty st.out := by
  induction n with
  | zero =>
    obtain ⟨st, hst, hinv⟩ := collapse_fold out m0 hready 0 (by omega)
    refine ⟨st, hst, hinv, ?_, ?_⟩
    · simp at hst
      subst hst
      exact ⟨by simp, fun k hk => absurd hk (Nat.not_lt_zero k)⟩
    · simp at hst
      subst hst
      unfold UnusedEmpty
      simp
  | succ n ih =>
    obtain ⟨st, hst, hinv, hfirst, hunused⟩ := ih (by omega)
    obtain ⟨st1, hstep, hinv1⟩ := collapseInv_step m0 out.isSkinned n st hready (by omega) hinv
    obtain ⟨_, hkeep, k, hk, hnext⟩ := collapseStep_shape st st1 n hstep
    refine ⟨st1, ?_, hinv1, ?_, hkeep hunused⟩
    · rw [List.range_succ, List.foldlM_append, hst]
      simp [hstep]
    · rw [hk]
      rcases hnext with h1 | ⟨h1, h2⟩
      · rw [h1]
        apply firstUse_reuse _ _ _ hfirst
        have hlast : st1.out.indices[st.out.indices.length]? = some k := by
          rw [hk]
          simp
        have := collapseInv_index_lt m0 out.isSkinned (n + 1) st1 hinv1 _ k hlast
        rw [h1] at this
        exact this
      · rw [h1, h2]
        exact firstUse_fresh _ _ hfirst

theorem collapseMesh_firstUse (out : LoadedPrimitive) (m0 : ExpandedMesh)
    (hready : CollapseReady m0) :
    ∃ st, collapseMesh out m0 = some (st.out, st.mesh) ∧
      CollapseInv m0 out.isSkinned m0.vertices.length st ∧
      FirstUse st.out.indices (vertexCount st.out) ∧ UnusedEmpty st.out := by
  obtain ⟨st, hst, hinv, hfirst, hunused⟩ :=
    collapse_fold_firstUse out m0 hready m0.vertices.length le_rfl
  refine ⟨st, ?_, hinv, by rw [hinv.size]; exact hfirst, hunused⟩
  unfold collapseMesh
  rw [hst]
  rfl

/-- C25. On every soup that is ready for it, `collapseMesh` returns and
numbers the output vertices in order of first use: every index is below the
output vertex count `V` and every smaller value occurs somewhere before it;
so `indices[0] = 0` for a non-empty soup and every index is at most one more
than some index before it. Every value below `V` has an occurrence before
which only smaller values occur, so every output vertex is referenced; and
`V` is at most the number of corners. -/
theorem collapseMesh_first_use_order (out : LoadedPrimitive) (m : ExpandedMesh)
    (hready : CollapseReady m) :
    ∃ q m1, collapseMesh out m = some (q, m1) ∧
      (∀ (i k : Nat), q.indices[i]? = some k →
        k < vertexCount q ∧ ∀ (k1 : Nat), k1 < k → ∃ j, j < i ∧ q.indices[j]? = some k1) ∧
      (m.vertices ≠ [] → q.indices[0]? = some 0) ∧
      (∀ (i k : Nat), q.indices[i]? = some k →
        k = 0 ∨ ∃ j kj, j < i ∧ q.indices[j]? = some kj ∧ k ≤ kj + 1) ∧
      (∀ (k : Nat), k < vertexCount q →
        ∃ i, q.indices[i]? = some k ∧
          ∀ (j kj : Nat), j < i → q.indices[j]? = some kj → kj < k) ∧
      vertexCount q ≤ m.vertices.length := by
  obtain ⟨st, hst, hinv, hfirst, _⟩ := collapseMesh_firstUse out m hready
  have hbefore := firstUse_before _ _ hfirst
  refine ⟨st.out, st.mesh, hst, ?_, ?_, ?_, hfirst.2, ?_⟩
  · intro i k hi
    exact ⟨hfirst.1 i k hi, fun k1 hk1 => hbefore i k hi k1 hk1⟩
  · intro hne
    have hlen : 0 < st.out.indices.length := by
      rw [hinv.count]
      exact List.length_pos.mpr hne
    have hget : st.out.indices[0]? = some st.out.indices[0] := List.getElem?_eq_getElem hlen
    cases hk : st.out.indices[0] with
    | zero => rw [hget, hk]
    | succ k =>
      rw [hk] at hget
      obtain ⟨j, hj, _⟩ := hbefore 0 (k + 1) hget 0 (by omega)
      exact absurd hj (Nat.not_lt_zero j)
  · intro i k hi
    cases k with
    | zero => exact Or.inl rfl
    | succ k =>
      obtain ⟨j, hj, hjk⟩ := hbefore i (k + 1) hi k (by omega)
      exact Or.inr ⟨j, k, hj, hjk, le_rfl⟩
  · rw [hinv.size]
    exact hinv.bound

/-- The statement of C25 on the soup of `quad`: the output index buffer is
`[0, 1, 2, 0, 2, 3]` and the output has 4 vertices. -/
theorem collapseMesh_first_use_order_witness :
    CollapseReady quadSoup ∧
      (collapseMesh quad quadSoup).map (fun r => (r.1.indices, vertexCount r.1)) =
        some ([0, 1, 2, 0, 2, 3], 4) ∧
      ∃ q m1, collapseMesh quad quadSoup = some (q, m1) ∧
        (∀ (k : Nat), k < vertexCount q → ∃ i, q.indices[i]? = some k ∧
          ∀ (j kj : Nat), j < i → q.indices[j]? = some kj → kj < k) ∧
        vertexCount q ≤ quadSoup.vertices.length := by
  refine ⟨by decide, by decide!, ?_⟩
  obtain ⟨q, m1, h1, _, _, _, h5, h6⟩ := collapseMesh_first_use_order quad quadSoup (by decide)
  exact ⟨q, m1, h1, h5, h6⟩

theorem findIndexToReuse_head (vertices : List ExpandedVertex) (current : SkinnedVertex)
    (siblings : List Nat) (s0 : Nat) (sib : ExpandedVertex) (k : Nat)
    (hsorted : List.Pairwise (fun a b => a < b) siblings) (hmem : s0 ∈ siblings)
    (hmin : ∀ s ∈ siblings, s0 ≤ s) (hs0 : vertices[s0]? = some sib)
    (hk : sib.newIndex = some k) (hsame : areSameVertices sib.vertex current = true) :
    findIndexToReuse vertices current siblings = some (some k) := by
  cases siblings with
  | nil => simp at hmem
  | cons h rest =>
    have hh : h = s0 := by
      rcases List.mem_cons.mp hmem with h1 | h1
      · exact h1.symm
      · have h2 := (List.pairwise_cons.mp hsorted).1 s0 h1
        have h3 := hmin h (List.mem_cons_self _ _)
        omega
    subst hh
    simp [findIndexToReuse, hs0, hk, hsame]

theorem findIndexToReuse_pending (vertices : List ExpandedVertex) (current : SkinnedVertex)
    (siblings : List Nat)
    (h : ∀ s ∈ siblings, ∃ sib, vertices[s]? = some sib ∧ sib.newIndex = none) :
    findIndexToReuse vertices current siblings = some none := by
  induction siblings with
  | nil => rfl
  | cons s rest ih =>
    obtain ⟨sib, hsib, hnone⟩ := h s (List.mem_cons_self _ _)
    simp only [findIndexToReuse, hsib, hnone]
    exact ih fun s1 hs1 => h s1 (List.mem_cons_of_mem _ hs1)

theorem sourceVertex_take (q : LoadedPrimitive) (k : Nat) (sv : SkinnedVertex)
    (h : sourceVertex q k = some sv) :
    (if q.isSkinned then ([] : List Vertex) else q.vertices.take k ++ [sv.toVertex]) =
        (if q.isSkinned then [] else q.vertices.take (k + 1)) ∧
      (if q.isSkinned then q.skinnedVertices.take k ++ [sv] else []) =
        (if q.isSkinned then q.skinnedVertices.take (k + 1) else []) := by
  unfold sourceVertex at h
  by_cases hs : q.isSkinned = true
  · simp only [hs, if_true] at h ⊢
    rw [List.take_succ, h]
    simp
  · simp only [hs] at h ⊢
    simp only [Bool.false_eq_true, if_false] at h ⊢
    cases hv : q.vertices[k]? with
    | none => simp [hv] at h
    | some v =>
      simp only [hv, Option.map_some', Option.some.injEq] at h
      rw [List.take_succ, hv, ← h]
      simp

theorem recollapse_step (q : LoadedPrimitive) (e : ExpandedMesh)
    (hfirst : FirstUse q.indices (vertexCount q))
    (hexp : ExpandInv q q.indices.length e) (n : Nat) (hn : n < q.indices.length)
    (st : CollapseState) (hinv : RecollapseInv q e n st) :
    ∃ st1, collapseStep st n = some st1 ∧ RecollapseInv q e (n + 1) st1 := by
  obtain ⟨hlen, hduplen, _, hcorner, hdup⟩ := hexp
  have hk : q.indices[n]? = some q.indices[n] := List.getElem?_eq_getElem hn
  generalize q.indices[n] = k at hk
  have hkV : k < vertexCount q := hfirst.1 n k hk
  obtain ⟨sv, hsv, hcn⟩ := hcorner n hn k hk
  have hc : st.mesh.vertices[n]? =
      some { vertex := sv, originalIndex := k, newIndex := none } := by
    rw [hinv.pending n le_rfl]
    exact hcn
  have hs : st.mesh.duplicatedVertices[k]? =
      some ((List.range q.indices.length).filter fun i => q.indices[i]? == some k) := by
    rw [hinv.dup]
    exact hdup k hkV
  have htake : q.indices.take (n + 1) = q.indices.take n ++ [k] := by
    rw [List.take_succ, hk]
    rfl
  have hskin : st.out.isSkinned = q.isSkinned := congrArg (fun p => p.isSkinned) hinv.frame
  by_cases hseen : k < st.nextIndex
  · obtain ⟨j, hjn, hj⟩ := (hinv.seen k).mp hseen
    obtain ⟨i, hi, hbefore⟩ := hfirst.2 k hkV
    have hij : i ≤ j := by
      by_contra hnot
      have := hbefore j k (by omega) hj
      omega
    obtain ⟨sv1, hsv1, hvi⟩ := hinv.first i k (by omega) hi hbefore
    rw [hsv] at hsv1
    have hsveq := Option.some.inj hsv1
    subst hsveq
    have hfind : findIndexToReuse st.mesh.vertices sv
        ((List.range q.indices.length).filter fun i => q.indices[i]? == some k) =
          some (some k) := by
      apply findIndexToReuse_head _ _ _ i _ k
      · exact List.Pairwise.filter _ (List.pairwise_lt_range _)
      · rw [List.mem_filter]
        exact ⟨List.mem_range.mpr (List.getElem?_eq_some.mp hi).1, by simp [hi]⟩
      · intro s hs1
        rw [List.mem_filter] at hs1
        have hsk : q.indices[s]? = some k := by simpa using hs1.2
        by_contra hnot
        have := hbefore s k (by omega) hsk
        omega
      · exact hvi
      · rfl
      · exact areSameVertices_refl sv
    refine ⟨_, collapseStep_reuse st n _ _ k hc rfl hs hfind, ?_⟩
    refine
      { frame := hinv.frame
        indices := ?_
        vertices := hinv.vertices
        skinnedVertices := hinv.skinnedVertices
        dup := hinv.dup
        pending := fun j1 hj1 => hinv.pending j1 (by omega)
        seen := ?_
        first := ?_ }
    · show st.out.indices ++ [k] = q.indices.take (n + 1)
      rw [hinv.indices, htake]
    · intro k1
      show k1 < st.nextIndex ↔ _
      constructor
      · intro h1
        obtain ⟨j1, hj1, hj2⟩ := (hinv.seen k1).mp h1
        exact ⟨j1, by omega, hj2⟩
      · rintro ⟨j1, hj1, hj2⟩
        by_cases hjn1 : j1 = n
        · subst hjn1
          rw [hk] at hj2
          rw [← Option.some.inj hj2]
          exact hseen
        · exact (hinv.seen k1).mpr ⟨j1, by omega, hj2⟩
    · intro j1 k1 hj1 hj2 hmin
      by_cases hjn1 : j1 = n
      · subst hjn1
        rw [hk] at hj2
        have hkk := Option.some.inj hj2
        subst hkk
        have := hmin j k hjn hj
        omega
      · exact hinv.first j1 k1 (by omega) hj2 hmin
  · have hnone : ∀ (j : Nat), j < n → q.indices[j]? ≠ some k := by
      intro j hj hjk
      exact hseen ((hinv.seen k).mpr ⟨j, hj, hjk⟩)
    have hnext : st.nextIndex = k := by
      by_contra hne
      obtain ⟨j, hj, hjk⟩ := firstUse_before _ _ hfirst n k hk st.nextIndex (by omega)
      have := (hinv.seen st.nextIndex).mpr ⟨j, hj, hjk⟩
      omega
    have hfind : findIndexToReuse st.mesh.vertices sv
        ((List.range q.indices.length).filter fun i => q.indices[i]? == some k) =
          some none := by
      apply findIndexToReuse_pending
      intro s hs1
      rw [List.mem_filter] at hs1
      have hsk : q.indices[s]? = some k := by simpa using hs1.2
      have hsl : s < q.indices.length := List.mem_range.mp hs1.1
      have hns : n ≤ s := by
        by_contra hnot
        exact hnone s (by omega) hsk
      obtain ⟨sv1, _, hcs⟩ := hcorner s hsl k hsk
      exact ⟨_, by rw [hinv.pending s hns]; exact hcs, rfl⟩
    have hnl : n < st.mesh.vertices.length := (List.getElem?_eq_some.mp hc).1
    obtain ⟨htv, hts⟩ := sourceVertex_take q k sv hsv
    refine ⟨_, collapseStep_fresh st n _ _ hc rfl hs hfind, ?_⟩
    refine
      { frame := hinv.frame
        indices := ?_
        vertices := ?_
        skinnedVertices := ?_
        dup := hinv.dup
        pending := ?_
        seen := ?_
        first := ?_ }
    · show st.out.indices ++ [st.nextIndex] = q.indices.take (n + 1)
      rw [hinv.indices, htake, hnext]
    · show (if st.out.isSkinned = true then st.out.vertices
          else st.out.vertices ++ [sv.toVertex]) =
        if q.isSkinned = true then [] else q.vertices.take (st.nextIndex + 1)
      rw [hskin, hinv.vertices, hnext, ← htv]
      by_cases hq : q.isSkinned = true <;> simp [hq]
    · show (if st.out.isSkinned = true then st.out.skinnedVertices ++ [sv]
          else st.out.skinnedVertices) =
        if q.isSkinned = true then q.skinnedVertices.take (st.nextIndex + 1) else []
      rw [hskin, hinv.skinnedVertices, hnext, ← hts]
      by_cases hq : q.isSkinned = true <;> simp [hq]
    · intro j1 hj1
      show (st.mesh.vertices.set n _)[j1]? = e.vertices[j1]?
      rw [List.getElem?_set_ne (by omega)]
      exact hinv.pending j1 (by omega)
    · intro k1
      show k1 < st.nextIndex + 1 ↔ _
      constructor
      · intro h1
        by_cases hk1 : k1 < st.nextIndex
        · obtain ⟨j1, hj1, hj2⟩ := (hinv.seen k1).mp hk1
          exact ⟨j1, by omega, hj2⟩
        · have : k1 = k := by omega
          subst this
          exact ⟨n, by omega, hk⟩
      · rintro ⟨j1, hj1, hj2⟩
        by_cases hjn1 : j1 = n
        · subst hjn1
          rw [hk] at hj2
          have := Option.some.inj hj2
          omega
        · have := (hinv.seen k1).mpr ⟨j1, by omega, hj2⟩
          omega
    · intro j1 k1 hj1 hj2 hmin
      show ∃ sv1, sourceVertex q k1 = some sv1 ∧ (st.mesh.vertices.set n _)[j1]? = _
      by_cases hjn1 : j1 = n
      · subst hjn1
        rw [hk] at hj2
        have hkk := Option.some.inj hj2
        subst hkk
        refine ⟨sv, hsv, ?_⟩
        rw [List.getElem?_set_eq_of_lt _ hnl, hnext]
      · rw [List.getElem?_set_ne (by omega)]
        exact hinv.first j1 k1 (by omega) hj2 hmin

theorem findIndexToReuse_some (vertices : List ExpandedVertex) (current : SkinnedVertex)
    (siblings : List Nat) (k : Nat)
    (h : findIndexToReuse vertices current siblings = some (some k)) :
    ∃ (s : Nat) (sib : ExpandedVertex), vertices[s]? = some sib ∧ sib.newIndex = some k := by
  induction siblings with
  | nil => simp [findIndexToReuse] at h
  | cons s rest ih =>
    unfold findIndexToReuse at h
    cases hs : vertices[s]? with
    | none => simp [hs] at h
    | some sib =>
      simp only [hs] at h
      cases hnew : sib.newIndex with
      | none =>
        simp only [hnew] at h
        exact ih h
      | some k1 =>
        simp only [hnew] at h
        split at h
        · have hk := Option.some.inj (Option.some.inj h)
          subst hk
          exact ⟨s, sib, hs, hnew⟩
        · exact ih h

theorem collapseStep_run (st st1 : CollapseState) (i : Nat)
    (h : collapseStep st i = some st1) (hrun : CollapseRun st) :
    CollapseRun st1 ∧ (∃ c, st.mesh.vertices[i]? = some c ∧ c.newIndex = none) ∧
      ∀ (j : Nat), j ≠ i → st1.mesh.vertices[j]? = st.mesh.vertices[j]? := by
  unfold collapseStep at h
  cases hc : st.mesh.vertices[i]? with
  | none => simp [hc] at h
  | some c =>
    cases hnew : c.newIndex with
    | some k => simp [hc, hnew] at h
    | none =>
      cases hs : st.mesh.duplicatedVertices[c.originalIndex]? with
      | none => simp [hc, hnew, hs] at h
      | some siblings =>
        cases hf : findIndexToReuse st.mesh.vertices c.vertex siblings with
        | none => simp [hc, hnew, hs, hf] at h
        | some r =>
          have hil : i < st.mesh.vertices.length := (List.getElem?_eq_some.mp hc).1
          cases r with
          | some k =>
            simp [hc, hnew, hs, hf] at h
            subst h
            obtain ⟨s, sib, hsib, hk⟩ := findIndexToReuse_some _ _ _ _ hf
            have hlt := hrun.below s sib k hsib hk
            refine ⟨?_, ⟨c, rfl, hnew⟩, fun _ _ => rfl⟩
            exact
              { below := hrun.below
                firstUse := firstUse_reuse _ _ _ hrun.firstUse hlt
                size := hrun.size
                unused := hrun.unused }
          | none =>
            have hbelow : ∀ (j : Nat) (c1 : ExpandedVertex) (k : Nat),
                (st.mesh.vertices.set i { c with newIndex := some st.nextIndex })[j]? =
                  some c1 →
                c1.newIndex = some k → k < st.nextIndex + 1 := by
              intro j c1 k hj hk
              by_cases hji : j = i
              · subst hji
                rw [List.getElem?_set_eq_of_lt _ hil] at hj
                rw [← Option.some.inj hj] at hk
                have := Option.some.inj hk
                omega
              · rw [List.getElem?_set_ne (fun h1 => hji h1.symm)] at hj
                have := hrun.below j c1 k hj hk
                omega
            have hframe : ∀ (j : Nat), j ≠ i →
                (st.mesh.vertices.set i { c with newIndex := some st.nextIndex })[j]? =
                  st.mesh.vertices[j]? := by
              intro j hji
              rw [List.getElem?_set_ne (fun h1 => hji h1.symm)]
            have hsize := hrun.size
            have hunused := hrun.unused
            unfold vertexCount at hsize
            unfold UnusedEmpty at hunused
            by_cases hsk : st.out.isSkinned = true
            · simp [hc, hnew, hs, hf, hsk] at h
              subst h
              refine ⟨?_, ⟨c, rfl, hnew⟩, hframe⟩
              refine
                { below := hbelow
                  firstUse := firstUse_fresh _ _ hrun.firstUse
                  size := ?_
                  unused := ?_ }
              · simp only [hsk, if_true] at hsize
                simp [vertexCount, hsk, hsize]
              · simp only [hsk, if_true] at hunused
                simp [UnusedEmpty, hsk, hunused]
            · simp [hc, hnew, hs, hf, hsk] at h
              subst h
              refine ⟨?_, ⟨c, rfl, hnew⟩, hframe⟩
              refine
                { below := hbelow
                  firstUse := firstUse_fresh _ _ hrun.firstUse
                  size := ?_
                  unused := ?_ }
              · simp only [hsk] at hsize
                simp only [Bool.false_eq_true, if_false] at hsize
                simp [vertexCount, hsk, hsize]
              · simp only [hsk] at hunused
                simp only [Bool.false_eq_true, if_false] at hunused
                simp [UnusedEmpty, hsk, hunused]

theorem collapse_fold_pending (n : Nat) (st0 st : CollapseState)
    (h : (List.range n).foldlM collapseStep st0 = some st) :
    (∀ (j : Nat), n ≤ j → st.mesh.vertices[j]? = st0.mesh.vertices[j]?) ∧
      ∀ (j : Nat) (c : ExpandedVertex), j < n → st0.mesh.vertices[j]? = some c →
        c.newIndex = none := by
  induction n generalizing st with
  | zero =>
    simp at h
    subst h
    exact ⟨fun _ _ => rfl, fun j _ hj => absurd hj (Nat.not_lt_zero j)⟩
  | succ n ih =>
    obtain ⟨mid, hmid, hstep⟩ := (foldlM_range_succ_some collapseStep st0 st n).mp h
    obtain ⟨hkeep, hnone⟩ := ih mid hmid
    have hstep0 := hstep
    unfold collapseStep at hstep
    cases hc : mid.mesh.vertices[n]? with
    | none => simp [hc] at hstep
    | some c =>
      cases hnew : c.newIndex with
      | some k => simp [hc, hnew] at hstep
      | none =>
        have hframe : ∀ (j : Nat), j ≠ n → st.mesh.vertices[j]? = mid.mesh.vertices[j]? := by
          cases hs : mid.mesh.duplicatedVertices[c.originalIndex]? with
          | none => simp [hc, hnew, hs] at hstep
          | some siblings =>
            cases hf : findIndexToReuse mid.mesh.vertices c.vertex siblings with
            | none => simp [hc, hnew, hs, hf] at hstep
            | some r =>
              cases r with
              | some k =>
                simp [hc, hnew, hs, hf] at hstep
                subst hstep
                exact fun _ _ => rfl
              | none =>
                intro j hj
                by_cases hsk : mid.out.isSkinned = true
                · simp [hc, hnew, hs, hf, hsk] at hstep
                  subst hstep
                  exact List.getElem?_set_ne (fun h1 => hj h1.symm)
                · simp [hc, hnew, hs, hf, hsk] at hstep
                  subst hstep
                  exact List.getElem?_set_ne (fun h1 => hj h1.symm)
        refine ⟨?_, ?_⟩
        · intro j hj
          rw [hframe j (by omega)]
          exact hkeep j (by omega)
        · intro j c0 hj hc0
          by_cases hjn : j = n
          · subst hjn
            rw [hkeep j le_rfl, hc0] at hc
            rw [Option.some.inj hc]
            exact hnew
          · exact hnone j c0 (by omega) hc0

theorem collapse_fold_run (n : Nat) (st0 st : CollapseState)
    (h : (List.range n).foldlM collapseStep st0 = some st) (hrun : CollapseRun st0) :
    CollapseRun st := by
  induction n generalizing st with
  | zero =>
    simp at h
    subst h
    exact hrun
  | succ n ih =>
    obtain ⟨mid, hmid, hstep⟩ := (foldlM_range_succ_some collapseStep st0 st n).mp h
    exact (collapseStep_run mid st n hstep (ih mid hmid)).1

theorem collapseMesh_run (out : LoadedPrimitive) (m : ExpandedMesh) (q : LoadedPrimitive)
    (m1 : ExpandedMesh) (h : collapseMesh out m = some (q, m1)) :
    FirstUse q.indices (vertexCount q) ∧ UnusedEmpty q := by
  unfold collapseMesh at h
  obtain ⟨st, hst, hq⟩ := Option.map_eq_some'.mp h
  have hq1 : st.out = q := congrArg Prod.fst hq
  obtain ⟨_, hnone⟩ := collapse_fold_pending _ _ _ hst
  have hinit : CollapseRun
      { out := { out with vertices := [], skinnedVertices := [], indices := [] }
        mesh := m
        nextIndex := 0 } := by
    refine
      { below := ?_
        firstUse := ⟨by simp, fun k hk => absurd hk (Nat.not_lt_zero k)⟩
        size := ?_
        unused := ?_ }
    · intro j c k hj hk
      have := hnone j c (List.getElem?_eq_some.mp hj).1 hj
      rw [this] at hk
      cases hk
    · unfold vertexCount
      by_cases hs : out.isSkinned = true <;> simp [hs]
    · unfold UnusedEmpty
      simp
  have hrun := collapse_fold_run _ _ _ hst hinit
  rw [← hq1, hrun.size]
  exact ⟨hrun.firstUse, hrun.unused⟩

theorem recollapse_fold (q : LoadedPrimitive) (e : ExpandedMesh)
    (hfirst : FirstUse q.indices (vertexCount q))
    (hexp : ExpandInv q q.indices.length e) (n : Nat) (hn : n ≤ q.indices.length) :
    ∃ st, (List.range n).foldlM collapseStep
        { out := { q with vertices := [], skinnedVertices := [], indices := [] }
          mesh := e
          nextIndex := 0 } = some st ∧
      RecollapseInv q e n st := by
  induction n with
  | zero =>
    refine ⟨_, rfl, ?_⟩
    refine
      { frame := rfl
        indices := by simp
        vertices := by simp
        skinnedVertices := by simp
        dup := rfl
        pending := fun _ _ => rfl
        seen := ?_
        first := ?_ }
    · intro k
      constructor
      · intro h
        exact absurd h (Nat.not_lt_zero k)
      · rintro ⟨j, hj, _⟩
        exact absurd hj (Nat.not_lt_zero j)
    · intro j k hj
      exact absurd hj (Nat.not_lt_zero j)
  | succ n ih =>
    obtain ⟨st, hst, hinv⟩ := ih (by omega)
    obtain ⟨st1, hstep, hinv1⟩ := recollapse_step q e hfirst hexp n (by omega) st hinv
    refine ⟨st1, ?_, hinv1⟩
    rw [List.range_succ, List.foldlM_append, hst]
    simp [hstep]

theorem recollapse_same (q : LoadedPrimitive) (hfirst : FirstUse q.indices (vertexCount q))
    (hunused : UnusedEmpty q) :
    ∃ e m2, expandMesh q = some e ∧ collapseMesh q e = some (q, m2) := by
  have hrange : ∀ index ∈ q.indices, index < vertexCount q := by
    intro index hmem
    obtain ⟨i, hi⟩ := List.mem_iff_getElem?.mp hmem
    exact hfirst.1 i index hi
  obtain ⟨e, he, hexp⟩ := expandMesh_inv q hrange
  obtain ⟨st, hst, hinv⟩ := recollapse_fold q e hfirst hexp q.indices.length le_rfl
  have hnext : st.nextIndex = vertexCount q := by
    have hiff : ∀ (k : Nat), k < st.nextIndex ↔ k < vertexCount q := by
      intro k
      rw [hinv.seen k]
      constructor
      · rintro ⟨j, _, hj⟩
        exact hfirst.1 j k hj
      · intro hk
        obtain ⟨i, hi, _⟩ := hfirst.2 k hk
        exact ⟨i, (List.getElem?_eq_some.mp hi).1, hi⟩
    have h1 := hiff st.nextIndex
    have h2 := hiff (vertexCount q)
    omega
  have hindices : st.out.indices = q.indices := by
    rw [hinv.indices, List.take_length]
  have hvertices : st.out.vertices = q.vertices := by
    rw [hinv.vertices, hnext]
    unfold vertexCount
    unfold UnusedEmpty at hunused
    by_cases hq : q.isSkinned = true
    · simp only [hq, if_true] at hunused ⊢
      exact hunused.symm
    · simp only [hq] at hunused ⊢
      simp
  have hskinned : st.out.skinnedVertices = q.skinnedVertices := by
    rw [hinv.skinnedVertices, hnext]
    unfold vertexCount
    unfold UnusedEmpty at hunused
    by_cases hq : q.isSkinned = true
    · simp only [hq, if_true]
      simp
    · simp only [hq] at hunused ⊢
      simp only [Bool.false_eq_true, if_false] at hunused ⊢
      exact hunused.symm
  have hout : st.out = q := by
    calc st.out
        = { ({ st.out with vertices := [], skinnedVertices := [], indices := [] } :
              LoadedPrimitive) with
            vertices := st.out.vertices
            skinnedVertices := st.out.skinnedVertices
            indices := st.out.indices } := rfl
      _ = { ({ q with vertices := [], skinnedVertices := [], indices := [] } :
              LoadedPrimitive) with
            vertices := st.out.vertices
            skinnedVertices := st.out.skinnedVertices
            indices := st.out.indices } := by rw [hinv.frame]
      _ = q := by rw [hvertices, hskinned, hindices]
  refine ⟨e, st.mesh, he, ?_⟩
  unfold collapseMesh
  rw [hexp.1, hst, ← hout]
  rfl

/-- C28. Expand-then-collapse is idempotent on its own output: every
primitive `q` that `collapseMesh` returns, from whatever soup, is expanded by
`expandMesh` and collapsed again to `q` itself, with the same vertex buffer and
the same index buffer. Vertex components are exact rationals, which compare
equal to themselves. -/
theorem collapse_expand_idempotent (out : LoadedPrimitive) (m : ExpandedMesh)
    (q : LoadedPrimitive) (m1 : ExpandedMesh) (h : collapseMesh out m = some (q, m1)) :
    ∃ e q2 m2, expandMesh q = some e ∧ collapseMesh q e = some (q2, m2) ∧
      q2.vertices = q.vertices ∧ q2.skinnedVertices = q.skinnedVertices ∧
      q2.indices = q.indices ∧ q2 = q := by
  obtain ⟨hfirst, hunused⟩ := collapseMesh_run out m q m1 h
  obtain ⟨e, m2, he, hagain⟩ := recollapse_same q hfirst hunused
  exact ⟨e, q, m2, he, hagain, rfl, rfl, rfl, rfl⟩

/-- The statement of C28 on the soup of two triangles meeting at a right
angle, with flat normals: the first collapse gives 6 vertices and the indices
`[0, 1, 2, 3, 4, 5]`, and expanding and collapsing that primitive gives it
back. -/
theorem collapse_expand_idempotent_witness :
    collapseMesh hardEdge hardEdgeFlat = some (hardEdgeCollapsed.1, hardEdgeCollapsed.2) ∧
      hardEdgeCollapsed.1.indices = [0, 1, 2, 3, 4, 5] ∧
      vertexCount hardEdgeCollapsed.1 = 6 ∧
      ∃ e q2 m2, expandMesh hardEdgeCollapsed.1 = some e ∧
        collapseMesh hardEdgeCollapsed.1 e = some (q2, m2) ∧ q2 = hardEdgeCollapsed.1 := by
  refine ⟨by decide!, by decide!, by decide!, ?_⟩
  obtain ⟨e, q2, m2, h2, h3, _, _, _, h4⟩ :=
    collapse_expand_idempotent hardEdge hardEdgeFlat hardEdgeCollapsed.1 hardEdgeCollapsed.2
      (by decide!)
  exact ⟨e, q2, m2, h2, h3, h4⟩

theorem areSameVerticesRounded_exact (fl : ℚ → ℚ) (a b : SkinnedVertex)
    (hfl : ∀ (x : ℚ), isBinary32 x = true → fl x = x) (hexact : ExactDifferences a b) :
    areSameVerticesRounded fl a b = areSameVertices a b := by
  have h : ∀ d ∈ List.zipWith (fun x y => x - y) (comparedComponents a)
      (comparedComponents b), fl d = d := fun d hd => hfl d (hexact d hd)
  simp only [comparedComponents, List.zipWith_cons_cons, List.zipWith_nil_right,
    List.mem_cons, List.mem_singleton, List.not_mem_nil, or_false, forall_eq_or_imp,
    forall_eq] at h
  obtain ⟨h1, h2, h3, h4, h5, h6, h7, h8, h9, h10, h11, h12, h13, h14, h15, h16, h17, h18⟩ := h
  simp only [areSameVerticesRounded, areSameVertices, similar2Rounded, similar3Rounded,
    similar4Rounded, similar2, similar3, similar4, sub2, sub3, sub4, Vec4.xyz, h1, h2, h3, h4,
    h5, h6, h7, h8, h9, h10, h11, h12, h13, h14, h15, h16, h17, h18]

/-- C4, amended. For two vertices whose component differences are binary32
numbers (the float subtraction is exact, whatever the rounding `fl` of inexact
results) and whose fourth bone weights differ by less than the tolerance,
`areSameVertices a b` is true if and only if, for each of pos, normal, tangent,
uv, color and boneWeights, the largest absolute difference over all components
is below `10e-6f = 2748779 / 2^38`, about `10^-5`, and the four boneIds are
identical. -/
theorem areSameVertices_iff_sameWithin (fl : ℚ → ℚ) (a b : SkinnedVertex)
    (hfl : ∀ (x : ℚ), isBinary32 x = true → fl x = x) (hexact : ExactDifferences a b)
    (hw : |a.boneWeights.w - b.boneWeights.w| < 2748779 / 2 ^ 38) :
    (areSameVerticesRounded fl a b = true ↔ sameWithin (2748779 / 2 ^ 38) a b) ∧
      (areSameVertices a b = true ↔ sameWithin (2748779 / 2 ^ 38) a b) := by
  have hbw : compMax3 (abs3 (sub3 a.boneWeights.xyz b.boneWeights.xyz)) < 2748779 / 2 ^ 38 ↔
      compMax4 (abs4 (sub4 a.boneWeights b.boneWeights)) < 2748779 / 2 ^ 38 := by
    simp only [compMax3, compMax4, abs3, abs4, sub3, sub4, Vec4.xyz, max_lt_iff]
    constructor
    · rintro ⟨⟨h1, h2⟩, h3⟩
      exact ⟨⟨h1, h2⟩, h3, hw⟩
    · rintro ⟨⟨h1, h2⟩, h3, _⟩
      exact ⟨⟨h1, h2⟩, h3⟩
  have hiff : areSameVertices a b = true ↔ sameWithin (2748779 / 2 ^ 38) a b := by
    unfold areSameVertices sameWithin similar2 similar3 similar4
    simp only [Bool.and_eq_true, decide_eq_true_eq, hbw, and_assoc]
  exact ⟨by rw [areSameVerticesRounded_exact fl a b hfl hexact]; exact hiff, hiff⟩

/-- The amended statement of C4 on two vertices whose positions differ by the
binary32 number nearest to `5 * 10^-6`: they are the same. -/
theorem areSameVertices_iff_sameWithin_witness :
    ExactDifferences originVertex nudgedVertex32 ∧
      |originVertex.boneWeights.w - nudgedVertex32.boneWeights.w| < 2748779 / 2 ^ 38 ∧
      areSameVertices originVertex nudgedVertex32 = true ∧
      (areSameVerticesRounded crudeRounding originVertex nudgedVertex32 = true ↔
        sameWithin (2748779 / 2 ^ 38) originVertex nudgedVertex32) :=
  ⟨by decide!, by decide!, by decide!,
    (areSameVertices_iff_sameWithin crudeRounding originVertex nudgedVertex32
      (by
        intro x hx
        simp [crudeRounding, hx])
      (by decide!) (by decide!)).1⟩

/-- C10. The detection of `cleanupTangents` misses a tangent that is the exact
opposite of its normal. In `oppositeTangentSoup` every corner has the unit
normal `(0, 0, 1)` and the tangent `(0, 0, -1)`; the rejection of the tangent
against the normal, `t - (n . t) n`, is zero, so the tangent is collinear with
the normal; the code computes `t - (n . t) t = (0, 0, -2)`, flags nothing and
returns the soup as it is. All values are small integers, on which binary32
arithmetic is exact. -/
theorem cleanupTangents_misses_opposite_tangent :
    (oppositeTangentSoup.vertices.all fun c =>
        decide (dot c.vertex.normal c.vertex.normal = 1) &&
          decide (c.vertex.tangent.xyz = neg3 c.vertex.normal) &&
          decide
            (specRejection c.vertex.normal c.vertex.tangent.xyz = { x := 0, y := 0, z := 0 }) &&
          decide
            (sub3 c.vertex.tangent.xyz
                (scale3 (dot c.vertex.normal c.vertex.tangent.xyz) c.vertex.tangent.xyz) =
              { x := 0, y := 0, z := -2 }) &&
          !isCloseToCollinear c.vertex.normal c.vertex.tangent.xyz) = true ∧
      needsRegeneration oppositeTangentSoup = some false ∧
      cleanupTangents (fun _ => 1) oppositeTangentSoup = some oppositeTangentSoup := by
  decide!

/-- C3, as stated, fails on a soup whose normals are NaN, as
`generateFlatNormals` leaves them on a degenerate triangle (the cross product
of its edges is zero and the normal is `0 * inversesqrt(0)`). `collapseMesh`
writes every corner as a fresh vertex, the corner's own, and that vertex is
not the same as the corner's vertex under `areSameVertices`: the comparison
of a NaN normal with itself is false. -/
theorem collapseMesh_nan_normal_not_same :
    cross (sub3 (bareVertex 1 0 0).pos (bareVertex 0 0 0).pos)
        (sub3 (bareVertex 2 0 0).pos (bareVertex 0 0 0).pos) = { x := 0, y := 0, z := 0 } ∧
      (IEEE.collapseMesh (IEEE.ofLoadedPrimitive degenerateTriangle) nanNormalSoup).map
          (fun r => (r.1.indices, r.1.vertices)) =
        some ([0, 1, 2], nanNormalSoup.vertices.map fun c => c.vertex.toVertex) ∧
      (nanNormalSoup.vertices.all fun c => !IEEE.areSameVertices c.vertex c.vertex) = true ∧
      ∀ c ∈ nanNormalSoup.vertices, ∀ (w : IEEE.SkinnedVertex),
        w.toVertex = c.vertex.toVertex → IEEE.areSameVertices w c.vertex = false := by
  refine ⟨by decide!, by decide!, by decide!, ?_⟩
  intro c hc w hw
  have hall : ∀ c ∈ nanNormalSoup.vertices, c.vertex.normal = IEEE.nan3 := by decide!
  have hn := hall c hc
  have hwn : w.normal = c.vertex.normal := congrArg (fun v => v.normal) hw
  have h2 : IEEE.similar3 w.normal c.vertex.normal = false := by
    rw [hwn, hn]
    rfl
  simp [IEEE.areSameVertices, h2]

theorem max_ofNumbers (a b : ℚ) :
    IEEE.Binary32.max (IEEE.Binary32.num a) (IEEE.Binary32.num b) = IEEE.Binary32.num (max a b) := by
  unfold IEEE.Binary32.max IEEE.Binary32.lt
  by_cases h : a < b
  · simp [h, max_eq_right (le_of_lt h)]
  · simp [h, max_eq_left (not_lt.mp h)]

theorem similar2_ofNumbers (a b : Vec2) :
    IEEE.similar2 (IEEE.ofVec2 a) (IEEE.ofVec2 b) = similar2 a b := by
  simp only [IEEE.similar2, IEEE.compMax2, IEEE.abs2, IEEE.sub2, IEEE.ofVec2, IEEE.Binary32.sub,
    IEEE.Binary32.abs, max_ofNumbers, IEEE.Binary32.lt, similar2, compMax2, abs2, sub2]

theorem similar3_ofNumbers (a b : Vec3) :
    IEEE.similar3 (IEEE.ofVec3 a) (IEEE.ofVec3 b) = similar3 a b := by
  simp only [IEEE.similar3, IEEE.compMax3, IEEE.abs3, IEEE.sub3, IEEE.ofVec3, IEEE.Binary32.sub,
    IEEE.Binary32.abs, max_ofNumbers, IEEE.Binary32.lt, similar3, compMax3, abs3, sub3]

theorem similar4_ofNumbers (a b : Vec4) :
    IEEE.similar4 (IEEE.ofVec4 a) (IEEE.ofVec4 b) = similar4 a b := by
  simp only [IEEE.similar4, IEEE.compMax4, IEEE.abs4, IEEE.sub4, IEEE.ofVec4, IEEE.Binary32.sub,
    IEEE.Binary32.abs, max_ofNumbers, IEEE.Binary32.lt, similar4, compMax4, abs4, sub4,
    max_assoc]

/-- On vertices of numbers the two embeddings of `areSameVertices` agree. -/
theorem areSameVertices_ofNumbers (a b : SkinnedVertex) :
    IEEE.areSameVertices (IEEE.ofSkinnedVertex a) (IEEE.ofSkinnedVertex b) =
      areSameVertices a b := by
  have hxyz : ∀ (v : Vec4), (IEEE.ofVec4 v).xyz = IEEE.ofVec3 v.xyz := fun _ => rfl
  simp only [IEEE.areSameVertices, areSameVertices, IEEE.ofSkinnedVertex, IEEE.ofVertex,
    similar2_ofNumbers, similar3_ofNumbers, similar4_ofNumbers, hxyz]

theorem findIndexToReuse_ofNumbers (vertices : List ExpandedVertex) (current : SkinnedVertex)
    (siblings : List Nat) :
    IEEE.findIndexToReuse (vertices.map IEEE.ofExpandedVertex) (IEEE.ofSkinnedVertex current)
        siblings =
      findIndexToReuse vertices current siblings := by
  induction siblings with
  | nil => rfl
  | cons s rest ih =>
    unfold IEEE.findIndexToReuse findIndexToReuse
    rw [List.getElem?_map]
    cases hs : vertices[s]? with
    | none => rfl
    | some sib =>
      simp only [Option.map_some', IEEE.ofExpandedVertex]
      cases hnew : sib.newIndex with
      | none => simpa using ih
      | some k =>
        simp only [areSameVertices_ofNumbers]
        split
        · rfl
        · exact ih

theorem collapseStep_ofNumbers (st : CollapseState) (i : Nat) :
    IEEE.collapseStep (IEEE.ofCollapseState st) i =
      (collapseStep st i).map IEEE.ofCollapseState := by
  have hto : ∀ (v : SkinnedVertex), (IEEE.ofSkinnedVertex v).toVertex =
      IEEE.ofVertex v.toVertex := fun _ => rfl
  unfold IEEE.collapseStep collapseStep
  simp only [IEEE.ofCollapseState, IEEE.ofExpandedMesh, IEEE.ofLoadedPrimitive,
    List.getElem?_map, Option.bind_eq_bind]
  cases hc : st.mesh.vertices[i]? with
  | none => rfl
  | some c =>
    cases hnew : c.newIndex with
    | some k => simp [IEEE.ofExpandedVertex, hnew]
    | none =>
      cases hs : st.mesh.duplicatedVertices[c.originalIndex]? with
      | none => simp [IEEE.ofExpandedVertex, hnew, hs]
      | some siblings =>
        have hfind := findIndexToReuse_ofNumbers st.mesh.vertices c.vertex siblings
        cases hf : findIndexToReuse st.mesh.vertices c.vertex siblings with
        | none =>
          rw [hf] at hfind
          simp [IEEE.ofExpandedVertex, hnew, hs, hfind, hf]
        | some r =>
          rw [hf] at hfind
          cases r with
          | some k =>
            simp [IEEE.ofExpandedVertex, hnew, hs, hfind, hf, IEEE.ofCollapseState,
              IEEE.ofExpandedMesh, IEEE.ofLoadedPrimitive]
          | none =>
            by_cases hsk : st.out.isSkinned = true
            · simp [IEEE.ofExpandedVertex, hnew, hs, hfind, hf, hsk, IEEE.ofCollapseState,
                IEEE.ofExpandedMesh, IEEE.ofLoadedPrimitive, List.map_set]
            · simp [IEEE.ofExpandedVertex, hnew, hs, hfind, hf, hsk, IEEE.ofCollapseState,
                IEEE.ofExpandedMesh, IEEE.ofLoadedPrimitive, List.map_set, hto]

theorem collapse_fold_ofNumbers (l : List Nat) (st : CollapseState) :
    l.foldlM IEEE.collapseStep (IEEE.ofCollapseState st) =
      (l.foldlM collapseStep st).map IEEE.ofCollapseState := by
  induction l generalizing st with
  | nil => rfl
  | cons i rest ih =>
    rw [List.foldlM_cons, List.foldlM_cons, collapseStep_ofNumbers]
    cases collapseStep st i with
    | none => rfl
    | some st1 => simpa using ih st1

/-- On soups of numbers the two embeddings of `collapseMesh` agree. -/
theorem collapseMesh_ofNumbers (out : LoadedPrimitive) (m : ExpandedMesh) :
    IEEE.collapseMesh (IEEE.ofLoadedPrimitive out) (IEEE.ofExpandedMesh m) =
      (collapseMesh out m).map fun r => (IEEE.ofLoadedPrimitive r.1, IEEE.ofExpandedMesh r.2) := by
  unfold IEEE.collapseMesh collapseMesh
  have h := collapse_fold_ofNumbers (List.range m.vertices.length)
    { out := { out with vertices := [], skinnedVertices := [], indices := [] }
      mesh := m
      nextIndex := 0 }
  have hlen : (IEEE.ofExpandedMesh m).vertices.length = m.vertices.length := by
    simp [IEEE.ofExpandedMesh]
  rw [hlen]
  simp only [IEEE.ofCollapseState, IEEE.ofLoadedPrimitive, List.map_nil] at h
  simp only [IEEE.ofLoadedPrimitive, List.map_nil]
  rw [h]
  cases (List.range m.vertices.length).foldlM collapseStep
      { out := { out with vertices := [], skinnedVertices := [], indices := [] }
        mesh := m
        nextIndex := 0 } with
  | none => rfl
  | some st => rfl

/-- C3, amended. For every soup of numbers (no vertex component is NaN or
infinite) built by `expandMesh` and then changed only in its corner
attributes, `collapseMesh` returns, with the same result in the embedding over
values that may be NaN; and for every corner position `i` the vertex it stores
at `out.indices[i]` is the same as the corner's own vertex under
`areSameVertices`: it is the corner's vertex itself, or the vertex of an
earlier corner with the same `originalIndex` that matches it. -/
theorem collapseMesh_emits_same_vertex (p out : LoadedPrimitive) (e m : ExpandedMesh)
    (hp : ∀ index ∈ p.indices, index < vertexCount p)
    (he : expandMesh p = some e) (hm : AttributesChanged e m) :
    ∃ out1 m1, collapseMesh out m = some (out1, m1) ∧
      IEEE.collapseMesh (IEEE.ofLoadedPrimitive out) (IEEE.ofExpandedMesh m) =
        some (IEEE.ofLoadedPrimitive out1, IEEE.ofExpandedMesh m1) ∧
      ∀ (i : Nat) (c : ExpandedVertex), m.vertices[i]? = some c →
        ∃ k w, out1.indices[i]? = some k ∧ stored out1 k w ∧
          areSameVertices w c.vertex = true ∧
          IEEE.areSameVertices (IEEE.ofSkinnedVertex w) (IEEE.ofSkinnedVertex c.vertex) = true ∧
          (w = c.vertex ∨
            ∃ j cj, j < i ∧ m.vertices[j]? = some cj ∧
              cj.originalIndex = c.originalIndex ∧ cj.vertex = w) := by
  obtain ⟨out1, m1, hout, hall⟩ := collapse_emits_same p out e m hp he hm
  refine ⟨out1, m1, hout, ?_, ?_⟩
  · rw [collapseMesh_ofNumbers, hout]
    rfl
  · intro i c hc
    obtain ⟨k, w, hk, hstored, hsame, hcase⟩ := hall i c hc
    exact ⟨k, w, hk, hstored, hsame, by rw [areSameVertices_ofNumbers]; exact hsame, hcase⟩

/-- The amended statement of C3 on the soup of `hardEdge` carrying its face
normals. -/
theorem collapseMesh_emits_same_vertex_witness :
    (∀ index ∈ hardEdge.indices, index < vertexCount hardEdge) ∧
      expandMesh hardEdge = some hardEdgeSoup ∧ AttributesChanged hardEdgeSoup hardEdgeFlat ∧
      ∃ out1 m1, collapseMesh hardEdge hardEdgeFlat = some (out1, m1) ∧
        IEEE.collapseMesh (IEEE.ofLoadedPrimitive hardEdge) (IEEE.ofExpandedMesh hardEdgeFlat) =
          some (IEEE.ofLoadedPrimitive out1, IEEE.ofExpandedMesh m1) ∧
        ∀ (i : Nat) (c : ExpandedVertex), hardEdgeFlat.vertices[i]? = some c →
          ∃ k w, out1.indices[i]? = some k ∧ stored out1 k w ∧
            areSameVertices w c.vertex = true ∧
            IEEE.areSameVertices (IEEE.ofSkinnedVertex w) (IEEE.ofSkinnedVertex c.vertex) =
              true ∧
            (w = c.vertex ∨
              ∃ j cj, j < i ∧ hardEdgeFlat.vertices[j]? = some cj ∧
                cj.originalIndex = c.originalIndex ∧ cj.vertex = w) :=
  ⟨by decide, by decide, by decide,
    collapseMesh_emits_same_vertex hardEdge hardEdge hardEdgeSoup hardEdgeFlat (by decide)
      (by decide) (by decide)⟩

end Fertilizer
